import Mathlib

/-!
Verification of the inter-process typed event bus of the modular server
manager repository (`src/server/src/bus/`): the value serializers and the
event codec (`events.py`), framing, fragmentation and reassembly
(`bus.py`, `bus_data.py`), the declarative catalog loader (`events.py`),
and the dispatcher's endpoint-id assignment (`bus_dispatcher.py`).

Python strings are modelled as `List Char`; Python exceptions are modelled
with `Except String`; randomness and the current time enter as explicit
parameters.  Machine integers do not occur: every numeric field is an
unbounded `Nat`/`Int`, exactly as in the Python source.
-/

namespace BusSpec

/-! ### Separator characters (events.py lines 22-32) -/

def NAK : Char := '\x15'
def SYN : Char := '\x16'
def EM : Char := '\x19'
def FS : Char := '\x1c'
def GS : Char := '\x1d'
def RS : Char := '\x1e'

/-! ### Python string helpers

`splitAll` is Python `s.split(sep)` (no maxsplit), `splitFirst` is
`s.split(sep, 1)` restricted to the case the code exercises (the source
unpacks the two pieces, raising `ValueError` when the separator is
absent, which we model with `Option`).  `pyStrip` is `s.strip()`;
`isPyWS` lists the code points Python's `str.strip` removes. -/

def isPyWS (c : Char) : Bool :=
  c.toNat ∈ [9, 10, 11, 12, 13, 28, 29, 30, 31, 32, 133, 160, 5760,
    8192, 8193, 8194, 8195, 8196, 8197, 8198, 8199, 8200, 8201, 8202,
    8232, 8233, 8239, 8287, 12288]

/-- Characters from `-./0-9A-Za-z`: everything the numeric, boolean,
datetime and version encoders emit.  Such characters are inert for every
splitter in the codec. -/
def tameChar (c : Char) : Bool :=
  (45 ≤ c.toNat && c.toNat ≤ 57) || (65 ≤ c.toNat && c.toNat ≤ 90) ||
  (97 ≤ c.toNat && c.toNat ≤ 122)

def pyStrip (s : List Char) : List Char :=
  ((s.dropWhile isPyWS).reverse.dropWhile isPyWS).reverse

def splitAll (s : List Char) (sep : Char) : List (List Char) :=
  match s with
  | [] => [[]]
  | c :: cs =>
    if c = sep then [] :: splitAll cs sep
    else
      match splitAll cs sep with
      | [] => [[c]]
      | h :: t => (c :: h) :: t

def splitFirst (s : List Char) (sep : Char) : Option (List Char × List Char) :=
  match s with
  | [] => none
  | c :: cs =>
    if c = sep then some ([], cs)
    else
      match splitFirst cs sep with
      | none => none
      | some (a, b) => some (c :: a, b)

/-! ### `split_with_nested` (utils/misc.py lines 104-124)

Splits at `sep` only at bracket depth 0 (brackets `[`, `)`-family and the
brace family all count), `strip`s every emitted part, and drops a final
empty part. -/

def isOpenB (c : Char) : Bool := c == '[' || c == '\x7b' || c == '('

def isCloseB (c : Char) : Bool := c == ']' || c == '\x7d' || c == ')'

def bstep (d : Int) (c : Char) : Int :=
  if isOpenB c then d + 1 else if isCloseB c then d - 1 else d

def depthRun (d : Int) (s : List Char) : Int := s.foldl bstep d

def swnAux (sep : Char) : List Char → Int → List Char → List (List Char)
  | [], _, cur => if cur.isEmpty then [] else [pyStrip cur.reverse]
  | c :: cs, d, cur =>
    if c = sep ∧ bstep d c = 0 then pyStrip cur.reverse :: swnAux sep cs (bstep d c) []
    else swnAux sep cs (bstep d c) (c :: cur)

def splitWithNested (s : List Char) (sep : Char) : List (List Char) :=
  swnAux sep s 0 []

/-- `chainOk sep d s`: scanning `s` from bracket depth `d`, the depth never
becomes negative and `sep` never occurs at depth 0.  Encoded composite
members satisfy this, which is what makes `split_with_nested` recover
them. -/
def chainOk (sep : Char) (d : Int) : List Char → Bool
  | [] => true
  | c :: cs =>
    decide (0 ≤ bstep d c) && (!(c == sep) || decide (1 ≤ bstep d c)) &&
      chainOk sep (bstep d c) cs

/-- `sep.join(parts)`: Python `str.join`. -/
def joinSep {α : Type} (sep : List α) : List (List α) → List α
  | [] => []
  | [x] => x
  | x :: y :: rest => x ++ sep ++ joinSep sep (y :: rest)

/-! ### Hexadecimal rendering and parsing

`hexPad w n` is Python `format(n, '0{w}x')` (lowercase, zero padded, never
truncating); `hexPadU` is the uppercase variant used by the bus message
routing fields.  `parseHex` is `int(s, 16)` restricted to plain hex
digits (the canonical forms the encoders emit). -/

def hexDigitChar (n : Nat) : Char :=
  if n < 10 then Char.ofNat (48 + n) else Char.ofNat (87 + n)

def hexDigitCharU (n : Nat) : Char :=
  if n < 10 then Char.ofNat (48 + n) else Char.ofNat (55 + n)

def hexDigitsRevF : Nat → Nat → List Nat
  | 0, _ => []
  | f + 1, n => if n = 0 then [] else n % 16 :: hexDigitsRevF f (n / 16)

/-- Little-endian base-16 digits of `n` (empty for 0). -/
def hexDigitsRev (n : Nat) : List Nat := hexDigitsRevF n n

def toHexL (n : Nat) : List Char :=
  if n = 0 then ['0'] else ((hexDigitsRev n).map hexDigitChar).reverse

def toHexU (n : Nat) : List Char :=
  if n = 0 then ['0'] else ((hexDigitsRev n).map hexDigitCharU).reverse

def hexPad (w n : Nat) : List Char :=
  List.replicate (w - (toHexL n).length) '0' ++ toHexL n

def hexPadU (w n : Nat) : List Char :=
  List.replicate (w - (toHexU n).length) '0' ++ toHexU n

def hexVal? (c : Char) : Option Nat :=
  if 48 ≤ c.val ∧ c.val ≤ 57 then some (c.toNat - 48)
  else if 97 ≤ c.val ∧ c.val ≤ 102 then some (c.toNat - 87)
  else if 65 ≤ c.val ∧ c.val ≤ 70 then some (c.toNat - 55)
  else none

def parseHexGo : List Char → Nat → Option Nat
  | [], acc => some acc
  | c :: cs, acc =>
    match hexVal? c with
    | none => none
    | some d => parseHexGo cs (16 * acc + d)

def parseHex (s : List Char) : Option Nat :=
  if s.isEmpty then none else parseHexGo s 0

/-! ### Decimal rendering and parsing (`str`/`int` on integers)

`intToChars n` is Python `str(n)` for `int` values; `parseInt` is
`int(s)` restricted to an optional minus sign followed by decimal digits
(the canonical form `str` emits). -/

def decDigitsRevF : Nat → Nat → List Nat
  | 0, _ => []
  | f + 1, n => if n = 0 then [] else n % 10 :: decDigitsRevF f (n / 10)

def decDigitsRev (n : Nat) : List Nat := decDigitsRevF n n

def natToChars (n : Nat) : List Char :=
  if n = 0 then ['0']
  else ((decDigitsRev n).map (fun d => Char.ofNat (48 + d))).reverse

def intToChars (i : Int) : List Char :=
  if i < 0 then '-' :: natToChars i.natAbs else natToChars i.natAbs

def decVal? (c : Char) : Option Nat :=
  if 48 ≤ c.val ∧ c.val ≤ 57 then some (c.toNat - 48) else none

def parseDecGo : List Char → Nat → Option Nat
  | [], acc => some acc
  | c :: cs, acc =>
    match decVal? c with
    | none => none
    | some d => parseDecGo cs (10 * acc + d)

def parseNat (s : List Char) : Option Nat :=
  if s.isEmpty then none else parseDecGo s 0

def parseInt (s : List Char) : Option Int :=
  if s.head? = some '-' then (parseNat (s.drop 1)).map (fun n => -(n : Int))
  else (parseNat s).map (fun n => (n : Int))

/-! ### The supported wire types and the value universe

The source stores type designators as strings and dispatches on them with
the regexes `RE_LIST_TYPE` / `RE_TUPLE_TYPE` / `RE_DICT_TYPE`; `Ty` is
exactly the grammar of designators the serializers support, and `tyName`
renders a `Ty` back to its designator string.  `float` is deliberately
absent: Python's shortest-round-trip `repr` for floats has no faithful
shallow embedding, and no claim exercises it.  `Value` models the Python
runtime values the serializers handle; a `datetime` is its timestamp in
integer microseconds (Python's `datetime` has microsecond resolution),
and a `Version` is its non-empty tuple of integer elements. -/

inductive Ty : Type
  | int
  | str
  | string
  | bool
  | datetime
  | version
  | any
  | list (t : Ty)
  | tuple (ts : List Ty)
  | dict (k v : Ty)

inductive Value : Type
  | vint (i : Int)
  | vstr (s : List Char)
  | vbool (b : Bool)
  | vdatetime (us : Int)
  | vversion (elems : List Int)
  | vlist (items : List Value)
  | vtuple (items : List Value)
  | vdict (entries : List (Value × Value))

/-! Structural size and boolean equality for the nested inductives
(`deriving DecidableEq` and a computable `sizeOf` are unavailable for
nested inductives in this toolchain).  `vbeq` doubles as Python's `==`
on the modelled values. -/

mutual

def tsize : Ty → Nat
  | .list t => 1 + tsize t
  | .tuple ts => 1 + tsizeList ts
  | .dict k v => 1 + tsize k + tsize v
  | _ => 1

def tsizeList : List Ty → Nat
  | [] => 0
  | t :: ts => 1 + tsize t + tsizeList ts

end

mutual

def vsize : Value → Nat
  | .vlist items => 1 + vsizeList items
  | .vtuple items => 1 + vsizeList items
  | .vdict entries => 1 + vsizePairs entries
  | _ => 1

def vsizeList : List Value → Nat
  | [] => 0
  | v :: vs => 1 + vsize v + vsizeList vs

def vsizePairs : List (Value × Value) → Nat
  | [] => 0
  | (a, b) :: ps => 1 + vsize a + vsize b + vsizePairs ps

end

mutual

def tbeq : Ty → Ty → Bool
  | .int, .int => true
  | .str, .str => true
  | .string, .string => true
  | .bool, .bool => true
  | .datetime, .datetime => true
  | .version, .version => true
  | .any, .any => true
  | .list a, .list b => tbeq a b
  | .tuple xs, .tuple ys => tbeqList xs ys
  | .dict ka va, .dict kb vb => tbeq ka kb && tbeq va vb
  | _, _ => false

def tbeqList : List Ty → List Ty → Bool
  | [], [] => true
  | x :: xs, y :: ys => tbeq x y && tbeqList xs ys
  | _, _ => false

end

mutual

def vbeq : Value → Value → Bool
  | .vint a, .vint b => a == b
  | .vstr a, .vstr b => a == b
  | .vbool a, .vbool b => a == b
  | .vdatetime a, .vdatetime b => a == b
  | .vversion a, .vversion b => a == b
  | .vlist xs, .vlist ys => vbeqList xs ys
  | .vtuple xs, .vtuple ys => vbeqList xs ys
  | .vdict xs, .vdict ys => vbeqPairs xs ys
  | _, _ => false

def vbeqList : List Value → List Value → Bool
  | [], [] => true
  | x :: xs, y :: ys => vbeq x y && vbeqList xs ys
  | _, _ => false

def vbeqPairs : List (Value × Value) → List (Value × Value) → Bool
  | [], [] => true
  | (a, b) :: xs, (c, d) :: ys => vbeq a c && vbeq b d && vbeqPairs xs ys
  | _, _ => false

end

/-- Designator string of a type, as `guess_type` builds it and as the
catalog declares it (fuel-indexed to make the nested recursion
structural; `tyName` below supplies sufficient fuel). -/
def tyNameF : Nat → Ty → List Char
  | 0, _ => []
  | f + 1, t =>
    match t with
    | .int => "int".toList
    | .str => "str".toList
    | .string => "string".toList
    | .bool => "bool".toList
    | .datetime => "datetime".toList
    | .version => "Version".toList
    | .any => "Any".toList
    | .list t1 => "list[".toList ++ tyNameF f t1 ++ "]".toList
    | .tuple ts =>
      "tuple[".toList ++ joinSep ", ".toList (ts.map (tyNameF f)) ++ "]".toList
    | .dict k v =>
      "dict[".toList ++ tyNameF f k ++ ", ".toList ++ tyNameF f v ++ "]".toList

def tyName (t : Ty) : List Char := tyNameF (tsize t) t

/-- Dispatch of `decode` on a type-designator string (events.py lines
237-295): literal names first, then the list/tuple/dict regexes, whose
groups are split with `split_with_nested` and `strip`ped.  A designator
matching no branch makes `decode` raise `Unknown data type`, modelled as
`none`.  `float` is mapped to `none` (not modelled, see above).  The
regexes' `.` does not match a newline, hence the `'\n'` conditions. -/
def parseTyF : Nat → List Char → Option Ty
  | 0, _ => none
  | f + 1, s =>
    if s = "Any".toList then some .any
    else if s = "int".toList then some .int
    else if s = "float".toList then none
    else if s = "str".toList then some .str
    else if s = "string".toList then some .string
    else if s = "Version".toList then some .version
    else if s = "bool".toList then some .bool
    else if s = "datetime".toList then some .datetime
    else if ("list[".toList.isPrefixOf s ∨ "List[".toList.isPrefixOf s) ∧
        s.getLast? = some ']' ∧ 6 ≤ s.length ∧ '\n' ∉ (s.drop 5).dropLast then
      (parseTyF f (pyStrip ((s.drop 5).dropLast))).map Ty.list
    else if ("tuple[".toList.isPrefixOf s ∨ "Tuple[".toList.isPrefixOf s) ∧
        s.getLast? = some ']' ∧ 7 ≤ s.length ∧ '\n' ∉ (s.drop 6).dropLast then
      ((splitWithNested ((s.drop 6).dropLast) ',').mapM
        (fun p => parseTyF f (pyStrip p))).map Ty.tuple
    else if ("dict[".toList.isPrefixOf s ∨ "Dict[".toList.isPrefixOf s) ∧
        s.getLast? = some ']' ∧ 6 ≤ s.length ∧ '\n' ∉ (s.drop 5).dropLast then
      match (splitWithNested ((s.drop 5).dropLast) ',').map pyStrip with
      | [k, v] =>
        match parseTyF f k, parseTyF f v with
        | some tk, some tv => some (.dict tk tv)
        | _, _ => none
      | _ => none
    else none

def parseTy (s : List Char) : Option Ty := parseTyF (s.length + 1) s

/-- `guess_type` (events.py lines 132-170).  Python returns a designator
string; it is encodable exactly when it lies in the `Ty` grammar.  The
unguessable outcomes — empty list/tuple/dict (bare `list` etc.) and
heterogeneous element types (union designators like `int|str`) — make the
subsequent `encode` raise `Unknown data type`; they are modelled as
`none`. -/
def guessTypeF : Nat → Value → Option Ty
  | 0, _ => none
  | f + 1, v =>
    match v with
    | .vint _ => some .int
    | .vstr _ => some .str
    | .vbool _ => some .bool
    | .vdatetime _ => some .datetime
    | .vversion _ => some .version
    | .vlist [] => none
    | .vlist items =>
      match items.mapM (guessTypeF f) with
      | none => none
      | some [] => none
      | some (t :: ts) => if ts.all (tbeq · t) then some (.list t) else none
    | .vtuple [] => none
    | .vtuple items => (items.mapM (guessTypeF f)).map Ty.tuple
    | .vdict [] => none
    | .vdict entries =>
      match entries.mapM (fun p => guessTypeF f p.1),
            entries.mapM (fun p => guessTypeF f p.2) with
      | some (k :: ks), some (v :: vs) =>
        if ks.all (tbeq · k) && vs.all (tbeq · v) then some (.dict k v) else none
      | _, _ => none

def guessType (v : Value) : Option Ty := guessTypeF (vsize v) v

/-- Python `result[key] = value` on an insertion-ordered dict: replace in
place if the key exists, else append. -/
def dictInsert (m : List (Value × Value)) (k v : Value) : List (Value × Value) :=
  match m with
  | [] => [(k, v)]
  | (k0, v0) :: rest =>
    if vbeq k0 k then (k0, v) :: rest else (k0, v0) :: dictInsert rest k v

/-- `encode(data, data_type)` (events.py lines 172-229), fuel-indexed.
Branches appear in source order.  The branches for `int`, `str`, `bool`
coerce arbitrary Python values (`str(int(data))`, `str(data)`,
truthiness); the claims only exercise well-typed values, and the
mismatched combinations are modelled as conversion errors. -/
def pyEncodeF : Nat → Value → Ty → Except String (List Char)
  | 0, _, _ => .error "fuel"
  | f + 1, v, t =>
    match t with
    | .int =>
      match v with
      | .vint i => .ok (intToChars i)
      | _ => .error "invalid int value"
    | .str =>
      match v with
      | .vstr s => .ok s
      | _ => .error "str of non-string value not modelled"
    | .string =>
      match v with
      | .vstr s => .ok s
      | _ => .error "str of non-string value not modelled"
    | .version =>
      match v with
      | .vversion es => .ok (joinSep ['.'] (es.map intToChars))
      | _ => .error "Expected a Version instance"
    | .bool =>
      match v with
      | .vbool b => .ok (if b then ['t'] else ['f'])
      | _ => .error "truthiness of non-bool value not modelled"
    | .datetime =>
      match v with
      | .vdatetime us => .ok (intToChars (us.tdiv 1000000))
      | _ => .error "Expected a datetime instance"
    | .list te =>
      match v with
      | .vlist items =>
        (items.mapM (fun it => pyEncodeF f it te)).map
          (fun es => '[' :: joinSep [NAK] es ++ [']'])
      | _ => .error "Expected a list"
    | .tuple ts =>
      match v with
      | .vtuple items =>
        if items.length = ts.length then
          ((items.zip ts).mapM (fun p => pyEncodeF f p.1 p.2)).map
            (fun es => '(' :: joinSep [NAK] es ++ [')'])
        else .error "tuple arity mismatch"
      | _ => .error "Expected a tuple"
    | .dict tk tv =>
      match v with
      | .vdict entries =>
        (entries.mapM (fun (p : Value × Value) => do
            let ke ← pyEncodeF f p.1 tk
            let ve ← pyEncodeF f p.2 tv
            pure (ke ++ SYN :: ve))).map
          (fun es => '\x7b' :: joinSep [NAK] es ++ ['\x7d'])
      | _ => .error "Expected a dict"
    | .any =>
      match guessType v with
      | none => .error "Unknown data type"
      | some tg => (pyEncodeF f v tg).map (fun e => tyName tg ++ EM :: e)

def pyEncode (v : Value) (t : Ty) : Except String (List Char) :=
  pyEncodeF (2 * vsize v + 2) v t

/-- The match of `RE_ENCODED_LIST` / `_TUPLE` / `_DICT` (`^o(.*)c$` with
`.` not matching a newline): first character `o`, last character `c`, and
group = the characters between, newline-free. -/
def matchDelim (o c : Char) (s : List Char) : Option (List Char) :=
  match s with
  | [] => none
  | h :: rest =>
    if h = o ∧ rest.getLast? = some c ∧ '\n' ∉ rest.dropLast then
      some rest.dropLast
    else none

/-- `decode(data, data_type)` (events.py lines 232-295), fuel-indexed.
Branches in source order: the `Any` type-prefix dispatch first, then the
scalar designators, then the composite regexes. -/
def pyDecodeF : Nat → List Char → Ty → Except String Value
  | 0, _, _ => .error "fuel"
  | f + 1, data, t =>
    match t with
    | .any =>
      match splitFirst data EM with
      | none => .error "Expected type prefix in data for Any type"
      | some (pfx, rest) =>
        match parseTy pfx with
        | none => .error "Unknown data type"
        | some t2 => pyDecodeF f rest t2
    | .int =>
      match parseInt data with
      | some i => .ok (.vint i)
      | none => .error "invalid literal for int"
    | .str => .ok (.vstr data)
    | .string => .ok (.vstr data)
    | .version =>
      match (splitAll data '.').mapM parseInt with
      | some es => .ok (.vversion es)
      | none => .error "invalid Version string"
    | .bool =>
      if data = ['t'] then .ok (.vbool true)
      else if data = ['f'] then .ok (.vbool false)
      else .error "Expected t or f for bool type"
    | .datetime =>
      match parseInt data with
      | some i => .ok (.vdatetime (i * 1000000))
      | none => .error "invalid literal for int"
    | .list te =>
      match matchDelim '[' ']' data with
      | none => .error "Expected an encoded list"
      | some mid =>
        let items := if mid.isEmpty then [] else splitWithNested mid NAK
        (items.mapM (fun it => pyDecodeF f it te)).map Value.vlist
    | .tuple ts =>
      match matchDelim '(' ')' data with
      | none => .error "Expected an encoded tuple"
      | some mid =>
        let items := if mid.isEmpty then [] else splitWithNested mid NAK
        if ts.length = items.length then
          ((items.zip ts).mapM (fun p => pyDecodeF f p.1 p.2)).map Value.vtuple
        else .error "tuple arity mismatch"
    | .dict tk tv =>
      match matchDelim '\x7b' '\x7d' data with
      | none => .error "Expected an encoded dict"
      | some mid =>
        let items := if mid.isEmpty then [] else splitWithNested mid NAK
        (items.foldlM (fun (acc : List (Value × Value)) it =>
            match splitFirst it SYN with
            | none => Except.error "Malformed dict item"
            | some (ks, vs) => do
              let k ← pyDecodeF f ks tk
              let v ← pyDecodeF f vs tv
              pure (dictInsert acc k v)) []).map Value.vdict

def pyDecode (data : List Char) (t : Ty) : Except String Value :=
  pyDecodeF (data.length + 1) data t

/-! ### Association lists

Python dicts are insertion-ordered maps; `ainsert` is `m[k] = v`
(replace in place or append), `aremove` is `del m[k]`. -/

def alookup {κ β : Type} [DecidableEq κ] (m : List (κ × β)) (k : κ) : Option β :=
  match m with
  | [] => none
  | (k0, v0) :: rest => if k0 = k then some v0 else alookup rest k

def ainsert {κ β : Type} [DecidableEq κ] (m : List (κ × β)) (k : κ) (v : β) :
    List (κ × β) :=
  match m with
  | [] => [(k, v)]
  | (k0, v0) :: rest =>
    if k0 = k then (k0, v) :: rest else (k0, v0) :: ainsert rest k v

def aremove {κ β : Type} [DecidableEq κ] (m : List (κ × β)) (k : κ) : List (κ × β) :=
  match m with
  | [] => []
  | (k0, v0) :: rest => if k0 = k then rest else (k0, v0) :: aremove rest k

/-! ### Events and the frame codec (events.py)

`EventArg.type` is a designator from the supported grammar; the source
stores the raw string and interprets it on each conversion, which for
designators in the grammar is exactly interpretation of the `Ty`.
`Event.return_type = none` models the designator string `"None"`. -/

structure EventArg where
  name : List Char
  type : Ty
  id : Nat

structure Event where
  name : List Char
  id : Nat
  args : List EventArg
  return_type : Option Ty

/-- `EventArg.to_string` delegates to `encode` (re-raising as `TypeError`
with a new message, which only rewords the error). -/
def EventArg.to_string (a : EventArg) (v : Value) : Except String (List Char) :=
  pyEncode v a.type

/-- `EventArg.convert` delegates to `decode` likewise. -/
def EventArg.convert (a : EventArg) (s : List Char) : Except String Value :=
  pyDecode s a.type

/-- `EncodedEvent.create(event, **kwargs)` (events.py lines 65-81):
`event_id` as five lowercase hex digits, `FS`, then the `GS`-joined arg
block of `arg_id (2 hex) RS encoded_value` entries, in declaration
order.  A declared argument absent from `kwargs` raises; extra entries
of `kwargs` are never looked at. -/
def createEncoded (E : Event) (kwargs : List (List Char × Value)) :
    Except String (List Char) :=
  (E.args.mapM (fun (a : EventArg) =>
      match alookup kwargs a.name with
      | none => Except.error "Missing argument"
      | some v => (a.to_string v).map (fun s => hexPad 2 a.id ++ RS :: s))).map
    (fun entries => hexPad 5 E.id ++ FS :: joinSep [GS] entries)

/-- The catalog: `EventsType.events`, a dict `int → Event`. -/
def lookupEvents (cat : List (Nat × Event)) (i : Nat) : Option Event :=
  alookup cat i

/-- `Event.return_event` (events.py lines 363-382). -/
def returnEvent (E : Event) : Except String Event :=
  if 65535 < E.id ∨ ".RETURN".toList.isSuffixOf E.name then
    .error "already a return event or ID exceeds the maximum allowed value"
  else
    match E.return_type with
    | none => .error "does not have a return type defined"
    | some t =>
      .ok ⟨E.name ++ ".RETURN".toList, E.id + 65536,
           [⟨"result".toList, t, 1⟩], none⟩

/-- `EventsType.get_event` (events.py lines 489-494): ids above `0xFFFF`
recurse on `id - 65536` and derive the response event.  The recursion
subtracts 65536 each step, so `i / 65536 + 1` steps always suffice; the
fuel-indexed form keeps the definition computable by reduction. -/
def getEventF : Nat → List (Nat × Event) → Nat → Except String Event
  | 0, _, _ => .error "fuel"
  | f + 1, cat, i =>
    if 65535 < i then (getEventF f cat (i - 65536)).bind returnEvent
    else
      match lookupEvents cat i with
      | some E => .ok E
      | none => .error "Event not found"

def getEvent (cat : List (Nat × Event)) (i : Nat) : Except String Event :=
  getEventF (i / 65536 + 1) cat i

/-- `EncodedEvent.decode` (events.py lines 97-130): split on `FS` (with
the special four-part branch of line 104), parse the event id, look the
event up, then fold the `GS`-separated arg block into a dict, skipping
empty entries, finding each argument by id and converting its value. -/
def decodePayload (cat : List (Nat × Event)) (s : List Char) :
    Except String (Event × List (List Char × Value)) :=
  let parts := splitAll s FS
  if parts.length < 2 then .error "Encoded event string is malformed"
  else
    let parts := if parts.length = 4 then parts.drop 2 else parts
    match parts with
    | p0 :: p1 :: _ =>
      match parseHex p0 with
      | none => .error "invalid literal for int with base 16"
      | some eid =>
        match getEvent cat eid with
        | .error e => .error e
        | .ok E =>
          ((splitAll p1 GS).foldlM (fun (acc : List (List Char × Value)) (argStr : List Char) =>
            if argStr.isEmpty then pure acc
            else
              match splitAll argStr RS with
              | [a0, a1] =>
                match parseHex a0 with
                | none => Except.error "invalid literal for int with base 16"
                | some aid =>
                  match E.args.find? (fun (a : EventArg) => a.id == aid) with
                  | some a =>
                    match a.convert a1 with
                    | .ok tv => pure (ainsert acc a.name tv)
                    | .error e => Except.error e
                  | none => Except.error "Argument id not found in event"
              | _ => Except.error "Malformed argument string") []).map
            (fun args => (E, args))
    | _ => .error "Encoded event string is malformed"

/-! ### Framing (bus_data.py, bus.py) -/

/-- The routing fields of a frame (`BusMessagePrefix`); all rendered as
two uppercase hex digits, `GS`-separated. -/
structure BusHeader where
  source_id : Nat
  target_id : Nat
  fragment_number : Nat
  fragment_count : Nat
  message_id : Nat

def BusHeader.render (p : BusHeader) : List Char :=
  joinSep [GS]
    [hexPadU 2 p.source_id, hexPadU 2 p.target_id, hexPadU 2 p.fragment_number,
     hexPadU 2 p.fragment_count, hexPadU 2 p.message_id]

/-- `BusMessagePrefix.length()` (bus_data.py lines 45-51). -/
def headerLength : Nat := 5 * 2 + 4 + 1

/-- `BusMessagePrefix.from_string` (bus_data.py lines 58-75). -/
def parseHeader (s : List Char) : Except String BusHeader :=
  match splitAll s GS with
  | [a, b, c, d, e] =>
    match parseHex a, parseHex b, parseHex c, parseHex d, parseHex e with
    | some sa, some sb, some sc, some sd, some se => .ok ⟨sa, sb, sc, sd, se⟩
    | _, _, _, _, _ => .error "invalid literal for int with base 16"
  | _ => .error "Encoded string does not have the expected prefix format."

/-- `Bus.__read_prefix` (bus.py lines 112-118): `encoded.split(FS, 1)`
two-way unpack (a `ValueError` when `FS` is absent), then prefix parse. -/
def readHeader (s : List Char) : Except String (BusHeader × List Char) :=
  match splitFirst s FS with
  | none => .error "not enough values to unpack"
  | some (pfxStr, data) => (parseHeader pfxStr).map (fun p => (p, data))

/-- `[encoded[i:i+n] for i in range(0, len(encoded), n)]` (bus.py line
157).  A step of zero would raise in Python; it is unreachable because
`max_string_length` exceeds the prefix length in every deployment, and
is mapped to `[]` here. -/
def chunksF : Nat → Nat → List Char → List (List Char)
  | 0, _, _ => []
  | _, _, [] => []
  | _ + 1, 0, _ => []
  | f + 1, n, s => if s.isEmpty then [] else s.take n :: chunksF f n (s.drop n)

def chunks (n : Nat) (s : List Char) : List (List Char) :=
  chunksF (s.length + 1) n s

/-- The fragmentation decision of `Bus.__send` (bus.py lines 153-158):
one part when the payload plus prefix fits, else fixed-width chunks of
`max_string_length - BusMessagePrefix.length()`. -/
def fragments (enc : List Char) (maxLen : Nat) : List (List Char) :=
  if enc.length + headerLength ≤ maxLen then [enc]
  else chunks (maxLen - headerLength) enc

/-- One frame written to the ring: routing fields and body.  The written
slot string is `header.render ++ FS :: body`. -/
structure WriteOp where
  header : BusHeader
  body : List Char

/-- Steps 1-2 of `Bus.__send` (bus.py lines 141-163): fill in a missing
`timestamp` argument when the event declares one of type `datetime`. -/
def autoTimestamp (E : Event) (kwargs : List (List Char × Value)) (now : Value) :
    List (List Char × Value) :=
  if (alookup kwargs "timestamp".toList).isNone &&
      E.args.any (fun a => (a.name == "timestamp".toList) && tbeq a.type .datetime) then
    kwargs ++ [("timestamp".toList, now)]
  else kwargs

/-- `Bus.__send` up to and including the `__write` calls (bus.py lines
141-163 and 120-139): timestamp autofill, encoding, fragmenting, then
one write per fragment, each guarded by the frame-length check of
`__write`.  `now` is the current time, `msgId` the random message id;
ring occupancy is not modelled (a full ring raises in `__write`).  The
wait-for-return tail of `__send` is not part of the emission. -/
def sendPlan (E : Event) (kwargs : List (List Char × Value))
    (selfId target msgId : Nat) (now : Value) (maxLen : Nat) :
    Except String (List WriteOp) := do
  let kwargs2 := autoTimestamp E kwargs now
  let enc ← createEncoded E kwargs2
  let parts := fragments enc maxLen
  parts.enum.mapM (fun p =>
    let hdr : BusHeader := ⟨selfId, target, p.1, parts.length, msgId⟩
    if maxLen < (hdr.render ++ FS :: p.2).length then
      Except.error "Encoded event data exceeds memory size limit"
    else pure (⟨hdr, p.2⟩ : WriteOp))

/-- `Bus.trigger` (bus.py lines 176-182): always `__send(event, 0, ...)`. -/
def trigger (E : Event) (kwargs : List (List Char × Value))
    (selfId msgId : Nat) (now : Value) (maxLen : Nat) :
    Except String (List WriteOp) :=
  sendPlan E kwargs selfId 0 msgId now maxLen

/-! ### Fragment reassembly and the listener loop (bus.py lines 184-244) -/

/-- The in-flight buffer of `Bus.__read_incoming`:
`buffer : dict[int, tuple[int, str]]` — keyed by `message_id` alone,
holding `(remaining_fragment, raw_data)`. -/
abbrev Buffer := List (Nat × (Nat × List Char))

inductive ReasmOut : Type
  | completeMsg (data : List Char)
  | pending
  | fragmentError

/-- Lines 204-219: the multi-fragment branch.  An unknown `message_id`
with a nonzero `fragment_number` logs a fragment error and drops the
frame; a known `message_id` appends the fragment unconditionally — the
`fragment_number` is never inspected again — and completes when the
remaining count reaches zero. -/
def reassembleStep (buf : Buffer) (h : BusHeader) (raw : List Char) :
    Buffer × ReasmOut :=
  match alookup buf h.message_id with
  | none =>
    if h.fragment_number ≠ 0 then (buf, .fragmentError)
    else (ainsert buf h.message_id (h.fragment_count - 1, raw), .pending)
  | some (remaining, data) =>
    let data2 := data ++ raw
    let remaining2 := remaining - 1
    if remaining2 = 0 then (aremove buf h.message_id, .completeMsg data2)
    else (ainsert buf h.message_id (remaining2, data2), .pending)

inductive StepOut : Type
  | next (buf : Buffer) (eventBound : Bool)
      (dispatched : Option (Nat × List (List Char × Value)))
  | crashed (msg : String)

/-- One iteration of the body of `Bus.__read_incoming` (bus.py lines
188-243) applied to the frame `raw` popped from slot 0.  The `try`
around the prefix/reassembly region catches only `TypeError` (line
220); a `ValueError` from the prefix split or parse escapes the loop and
the listener thread dies, modelled as `.crashed`.  The decode region
catches every exception, but its handler interpolates `event`/`args`,
which are unbound until a first successful decode (`eventBound`); a
decode failure before that raises `NameError` inside the handler, which
also kills the thread. -/
def listenerStep (cat : List (Nat × Event)) (selfId : Nat) (subs : List Nat)
    (buf : Buffer) (eventBound : Bool) (raw : List Char) (emptyStr : List Char) :
    StepOut :=
  if raw = emptyStr then .next buf eventBound none
  else
    match readHeader raw with
    | .error e => .crashed e
    | .ok (hdr, data) =>
      if ¬(hdr.target_id = 0 ∨ hdr.target_id = selfId) then
        .next buf eventBound none
      else
        match
          (if hdr.fragment_count = 1 then (buf, ReasmOut.completeMsg data)
           else reassembleStep buf hdr data) with
        | (buf2, .pending) => .next buf2 eventBound none
        | (buf2, .fragmentError) => .next buf2 eventBound none
        | (buf2, .completeMsg msg) =>
          if msg = emptyStr then .next buf2 eventBound none
          else
            match decodePayload cat msg with
            | .ok (E, args) =>
              .next buf2 true (if E.id ∈ subs then some (E.id, args) else none)
            | .error _ =>
              if eventBound then .next buf2 eventBound none
              else .crashed "NameError: name event is not defined"

/-- `Bus.__exec_callback` (bus.py lines 246-253) at the event level:
callbacks are abstracted to the list of their return values in
subscription order; the emitted response sends are `(return event,
original source id, result)` triples (each such send is
`__send(event.return_event(), source_id, result=result)`).  Returns the
sends and the number of callbacks invoked. -/
def execCallback (E : Event) (srcId : Nat) :
    List (Option Value) → Except String (List (Event × Nat × Value) × Nat)
  | [] => .ok ([], 0)
  | r :: rest =>
    match r with
    | some v =>
      match E.return_type with
      | some _ => do
        let R ← returnEvent E
        .ok ([(R, srcId, v)], 1)
      | none => do
        let (s, n) ← execCallback E srcId rest
        .ok (s, n + 1)
    | none => do
      let (s, n) ← execCallback E srcId rest
      .ok (s, n + 1)

/-! ### The catalog loader (events.py lines 420-458)

The XML tree is abstracted to `NSTree` (nested namespaces with their
events); attribute extraction and `int(x, 16)` parsing of ids are
outside the loader logic the claim cites.  `LoadedEvent` keeps the raw
designator strings exactly as the loader stores them: no validation of
argument types happens anywhere in the loader. -/

structure RawArg where
  name : List Char
  type : List Char
  id : Nat

structure RawEvent where
  name : List Char
  id : Nat
  args : List RawArg
  return_type : List Char

inductive NSTree : Type
  | mk (name : List Char) (subs : List NSTree) (events : List RawEvent)

def NSTree.name : NSTree → List Char
  | .mk n _ _ => n

structure LoadedEvent where
  name : List Char
  id : Nat
  args : List RawArg
  return_type : List Char

/-- The event half of `EventsType.__parse_namespace` (events.py lines
444-458): a zero id raises `ValueError`; a duplicate id only logs a
warning and overwrites. -/
def parseEventsList (nsName : List Char) :
    List RawEvent → List (Nat × LoadedEvent) →
    Except String (List (Nat × LoadedEvent))
  | [], acc => .ok acc
  | ev :: rest, acc =>
    if ev.id = 0 then .error "Event does not have an ID"
    else
      parseEventsList nsName rest
        (ainsert acc ev.id ⟨nsName ++ '.' :: ev.name, ev.id, ev.args, ev.return_type⟩)

mutual

/-- `EventsType.__parse_namespace` (events.py lines 437-458):
sub-namespaces first (recursively, dotting the name), then this
namespace's events. -/
def parseNamespace (nsName : List Char) (ns : NSTree)
    (acc : List (Nat × LoadedEvent)) : Except String (List (Nat × LoadedEvent)) :=
  match ns with
  | .mk _ subs events => do
    let acc2 ← parseSubsList nsName subs acc
    parseEventsList nsName events acc2

def parseSubsList (nsName : List Char) (subs : List NSTree)
    (acc : List (Nat × LoadedEvent)) : Except String (List (Nat × LoadedEvent)) :=
  match subs with
  | [] => .ok acc
  | sub :: rest => do
    let acc2 ← parseNamespace (nsName ++ '.' :: sub.name) sub acc
    parseSubsList nsName rest acc2

end

/-- `EventsType.__load_events` (events.py lines 426-435): parse each root
namespace, using `"global"` when the name attribute is missing/empty. -/
def loadEvents (roots : List NSTree) : Except String (List (Nat × LoadedEvent)) :=
  roots.foldlM
    (fun acc ns =>
      parseNamespace (if ns.name.isEmpty then "global".toList else ns.name) ns acc)
    []

/-! ### Dispatcher endpoint-id assignment (bus_dispatcher.py lines 65-93) -/

/-- `BusDispatcher.get_bus_data`, restricted to the id table: a new key
gets `randint(1, 255)` — the draw is passed in as `rand` — with no
collision check of any kind; an existing key keeps its id. -/
def getBusId (ids : List (List Char × Nat)) (key : List Char) (rand : Nat) :
    List (List Char × Nat) × Nat :=
  match alookup ids key with
  | some i => (ids, i)
  | none => (ids ++ [(key, rand)], rand)

/-- A sequence of `get_bus_data` calls, each with the random draw the
generator would produce for it. -/
def runAssign : List (List Char × Nat) → List (List Char × Nat) →
    List (List Char × Nat)
  | [], ids => ids
  | (key, rand) :: rest, ids => runAssign rest (getBusId ids key rand).1

/-! ### Well-formedness for the round-trip property

`decode(encode(E, kwargs))` does not recover every legal `kwargs`; the
conditions below delimit the values for which it does (see the theorems
for counterexamples outside them).  `StrOk` constrains string values:
they must avoid the frame separators everywhere, and inside composite
values they must additionally be non-empty, avoid the composite
separators, newlines and bracket characters, and not begin or end with
whitespace (because `split_with_nested` strips every part).  `WfV
nested v t` says `v` is a well-typed value for designator `t` in that
sense: datetimes carry whole seconds (the wire format stores integer
seconds), versions are non-empty, dict keys are pairwise distinct and
dict-free (hashability makes non-scalar dict keys tuples at most, and a
key containing a dict would embed a stray `SYN`), and an `Any` value has
a guessable designator and is well-formed at it. -/

def StrOk (nested : Bool) (s : List Char) : Prop :=
  (∀ c ∈ s, c ≠ FS ∧ c ≠ GS ∧ c ≠ RS) ∧
  (nested = true →
    s ≠ [] ∧
    (∀ c ∈ s, c ≠ NAK ∧ c ≠ SYN ∧ c ≠ '\n' ∧ isOpenB c = false ∧ isCloseB c = false) ∧
    (∀ c, s.head? = some c → isPyWS c = false) ∧
    (∀ c, s.getLast? = some c → isPyWS c = false))

inductive DictFree : Value → Prop
  | vint (i : Int) : DictFree (.vint i)
  | vstr (s : List Char) : DictFree (.vstr s)
  | vbool (b : Bool) : DictFree (.vbool b)
  | vdatetime (us : Int) : DictFree (.vdatetime us)
  | vversion (es : List Int) : DictFree (.vversion es)
  | vlist (items : List Value) : (∀ v ∈ items, DictFree v) → DictFree (.vlist items)
  | vtuple (items : List Value) : (∀ v ∈ items, DictFree v) → DictFree (.vtuple items)

inductive WfV : Bool → Value → Ty → Prop
  | int (nested : Bool) (i : Int) : WfV nested (.vint i) .int
  | str (nested : Bool) (s : List Char) : StrOk nested s → WfV nested (.vstr s) .str
  | string (nested : Bool) (s : List Char) : StrOk nested s → WfV nested (.vstr s) .string
  | bool (nested : Bool) (b : Bool) : WfV nested (.vbool b) .bool
  | datetime (nested : Bool) (us : Int) :
      (1000000 : Int) ∣ us → WfV nested (.vdatetime us) .datetime
  | version (nested : Bool) (es : List Int) :
      es ≠ [] → WfV nested (.vversion es) .version
  | list (nested : Bool) (items : List Value) (t : Ty) :
      (∀ v ∈ items, WfV true v t) → WfV nested (.vlist items) (.list t)
  | tuple (nested : Bool) (items : List Value) (ts : List Ty) :
      items.length = ts.length → (∀ p ∈ items.zip ts, WfV true p.1 p.2) →
      WfV nested (.vtuple items) (.tuple ts)
  | dict (nested : Bool) (entries : List (Value × Value)) (k v : Ty) :
      (∀ p ∈ entries, WfV true p.1 k) →
      (∀ p ∈ entries, WfV true p.2 v) →
      (∀ p ∈ entries, DictFree p.1) →
      (entries.map Prod.fst).Pairwise (fun a b => vbeq a b = false) →
      WfV nested (.vdict entries) (.dict k v)
  | anyv (nested : Bool) (v : Value) (t : Ty) :
      guessType v = some t → t ≠ .any → WfV true v t → WfV nested v .any

/-- Weight of the `Any` indirection in the encoder's recursion measure. -/
def anyW : Ty → Nat
  | .any => 1
  | _ => 0

/-- Shape facts about an encoded value that the enclosing decoder needs:
no frame separators anywhere; when the value sits inside a composite,
the encoding is non-empty, bracket-balanced, survives
`split_with_nested` at `NAK` (depth never negative, `NAK` only under
brackets), contains no newline, and neither starts nor ends with
whitespace. -/
def frameSafe (e : List Char) : Prop := ∀ c ∈ e, c ≠ FS ∧ c ≠ GS ∧ c ≠ RS

def itemShape (e : List Char) : Prop :=
  e ≠ [] ∧ depthRun 0 e = 0 ∧ chainOk NAK 0 e = true ∧ '\n' ∉ e ∧
  (∀ c, e.head? = some c → isPyWS c = false) ∧
  (∀ c, e.getLast? = some c → isPyWS c = false)

def EncOk (nested : Bool) (v : Value) (e : List Char) : Prop :=
  frameSafe e ∧ (nested = true → DictFree v → SYN ∉ e) ∧
  (nested = true → itemShape e)

/-- The round-trip contract for one value: the encoder at any sufficient
fuel yields `e`, `e` is shape-safe for the context, and the decoder at any
sufficient fuel recovers `v` exactly. -/
def EncDecP (nested : Bool) (v : Value) (t : Ty) (e : List Char) : Prop :=
  (∀ fuel, 2 * vsize v + anyW t < fuel → pyEncodeF fuel v t = Except.ok e) ∧
  EncOk nested v e ∧
  (∀ df, e.length < df → pyDecodeF df e t = Except.ok v)

/-- `Except` success as a Bool (for stating loader success). -/
def exceptOk {ε α : Type} : Except ε α → Bool
  | .ok _ => true
  | .error _ => false

/-! `nsNoZero`: no event anywhere in the namespace tree has id 0. -/

mutual

def nsNoZero : NSTree → Bool
  | .mk _ subs events => nsListNoZero subs && events.all (fun e => e.id != 0)

def nsListNoZero : List NSTree → Bool
  | [] => true
  | ns :: rest => nsNoZero ns && nsListNoZero rest

end

/-! Structural size of a namespace tree, for inductions over the loader. -/

mutual

def nsSize : NSTree → Nat
  | .mk _ subs _ => 1 + nsListSize subs

def nsListSize : List NSTree → Nat
  | [] => 0
  | t :: ts => nsSize t + nsListSize ts

end


/-! ## Part II: theorems -/

/-! ### Character facts -/

theorem char_ne_of_toNat {c d : Char} (h : c.toNat ≠ d.toNat) : c ≠ d :=
  fun he => h (he ▸ rfl)

theorem tameChar_toNat {c : Char} (h : tameChar c = true) :
    (45 ≤ c.toNat ∧ c.toNat ≤ 57) ∨ (65 ≤ c.toNat ∧ c.toNat ≤ 90) ∨
    (97 ≤ c.toNat ∧ c.toNat ≤ 122) := by
  simp only [tameChar, Bool.or_eq_true, Bool.and_eq_true, decide_eq_true_iff] at h
  omega

theorem isPyWS_false_of_toNat {c : Char}
    (h : 33 ≤ c.toNat ∧ c.toNat ≤ 132) : isPyWS c = false := by
  simp only [isPyWS, decide_eq_false_iff_not]
  intro hmem
  simp only [List.mem_cons, List.not_mem_nil, or_false] at hmem
  omega

theorem tame_facts {c : Char} (h : tameChar c = true) :
    c ≠ FS ∧ c ≠ GS ∧ c ≠ RS ∧ c ≠ NAK ∧ c ≠ SYN ∧ c ≠ EM ∧ c ≠ '\n' ∧
    isOpenB c = false ∧ isCloseB c = false ∧ isPyWS c = false := by
  have hb := tameChar_toNat h
  have hFS : FS.toNat = 28 := rfl
  have hGS : GS.toNat = 29 := rfl
  have hRS : RS.toNat = 30 := rfl
  have hNAK : NAK.toNat = 21 := rfl
  have hSYN : SYN.toNat = 22 := rfl
  have hEM : EM.toNat = 25 := rfl
  have hLF : ('\n').toNat = 10 := rfl
  refine ⟨char_ne_of_toNat (by omega), char_ne_of_toNat (by omega),
    char_ne_of_toNat (by omega), char_ne_of_toNat (by omega),
    char_ne_of_toNat (by omega), char_ne_of_toNat (by omega),
    char_ne_of_toNat (by omega), ?_, ?_, ?_⟩
  · have h1 : ('[').toNat = 91 := rfl
    have h2 : ('\x7b').toNat = 123 := rfl
    have h3 : ('(').toNat = 40 := rfl
    simp only [isOpenB, Bool.or_eq_false_iff, beq_eq_false_iff_ne]
    exact ⟨⟨char_ne_of_toNat (by omega), char_ne_of_toNat (by omega)⟩,
      char_ne_of_toNat (by omega)⟩
  · have h1 : (']').toNat = 93 := rfl
    have h2 : ('\x7d').toNat = 125 := rfl
    have h3 : (')').toNat = 41 := rfl
    simp only [isCloseB, Bool.or_eq_false_iff, beq_eq_false_iff_ne]
    exact ⟨⟨char_ne_of_toNat (by omega), char_ne_of_toNat (by omega)⟩,
      char_ne_of_toNat (by omega)⟩
  · exact isPyWS_false_of_toNat (by omega)

theorem tame_not_bracket {c : Char} (h : tameChar c = true) :
    isOpenB c = false ∧ isCloseB c = false :=
  ⟨(tame_facts h).2.2.2.2.2.2.2.1, (tame_facts h).2.2.2.2.2.2.2.2.1⟩

/-! ### splitAll / splitFirst / joinSep -/

theorem joinSep_cons₂ {α : Type} (sep x y : List α) (rest : List (List α)) :
    joinSep sep (x :: y :: rest) = x ++ sep ++ joinSep sep (y :: rest) := rfl

theorem splitAll_ne_nil (s : List Char) (sep : Char) : splitAll s sep ≠ [] := by
  induction s with
  | nil => simp [splitAll]
  | cons c cs ih =>
    simp only [splitAll]
    split
    · simp
    · cases h : splitAll cs sep with
      | nil => simp
      | cons a b => simp

theorem splitAll_sep_notMem {s : List Char} {sep : Char} (h : sep ∉ s) :
    splitAll s sep = [s] := by
  induction s with
  | nil => rfl
  | cons c cs ih =>
    simp only [splitAll]
    rw [if_neg (by rintro rfl; exact h (List.mem_cons_self _ _))]
    rw [ih (fun hm => h (List.mem_cons_of_mem _ hm))]

theorem splitAll_append_sep {a b : List Char} {sep : Char} (h : sep ∉ a) :
    splitAll (a ++ sep :: b) sep = a :: splitAll b sep := by
  induction a with
  | nil => simp [splitAll]
  | cons c cs ih =>
    simp only [List.cons_append, splitAll, List.append_eq]
    rw [if_neg (by rintro rfl; exact h (List.mem_cons_self _ _))]
    rw [ih (fun hm => h (List.mem_cons_of_mem _ hm))]

theorem splitAll_joinSep {parts : List (List Char)} {sep : Char}
    (hne : parts ≠ []) (h : ∀ p ∈ parts, sep ∉ p) :
    splitAll (joinSep [sep] parts) sep = parts := by
  induction parts with
  | nil => cases hne rfl
  | cons p rest ih =>
    cases rest with
    | nil => exact splitAll_sep_notMem (h p (by simp))
    | cons q rest2 =>
      rw [joinSep_cons₂]
      rw [List.append_assoc]
      have : ([sep] ++ joinSep [sep] (q :: rest2)) = sep :: joinSep [sep] (q :: rest2) := rfl
      rw [this, splitAll_append_sep (h p (by simp))]
      rw [ih (by simp) (fun p2 hp2 => h p2 (List.mem_cons_of_mem _ hp2))]

theorem splitFirst_notMem {s : List Char} {sep : Char} (h : sep ∉ s) :
    splitFirst s sep = none := by
  induction s with
  | nil => rfl
  | cons c cs ih =>
    simp only [splitFirst]
    rw [if_neg (by rintro rfl; exact h (List.mem_cons_self _ _))]
    rw [ih (fun hm => h (List.mem_cons_of_mem _ hm))]

theorem splitFirst_append {a b : List Char} {sep : Char} (h : sep ∉ a) :
    splitFirst (a ++ sep :: b) sep = some (a, b) := by
  induction a with
  | nil => simp [splitFirst]
  | cons c cs ih =>
    simp only [List.cons_append, splitFirst, List.append_eq]
    rw [if_neg (by rintro rfl; exact h (List.mem_cons_self _ _))]
    rw [ih (fun hm => h (List.mem_cons_of_mem _ hm))]

theorem mem_joinSep {α : Type} {c : α} {sep : List α} {parts : List (List α)}
    (h : c ∈ joinSep sep parts) : c ∈ sep ∨ ∃ p ∈ parts, c ∈ p := by
  induction parts with
  | nil => simp [joinSep] at h
  | cons p rest ih =>
    cases rest with
    | nil =>
      simp only [joinSep] at h
      exact Or.inr ⟨p, by simp, h⟩
    | cons q rest2 =>
      rw [joinSep_cons₂] at h
      rcases List.mem_append.mp h with h1 | h2
      · rcases List.mem_append.mp h1 with h3 | h4
        · exact Or.inr ⟨p, by simp, h3⟩
        · exact Or.inl h4
      · rcases ih h2 with h5 | ⟨p2, hp2, hc⟩
        · exact Or.inl h5
        · exact Or.inr ⟨p2, List.mem_cons_of_mem _ hp2, hc⟩

theorem length_le_joinSep {p : List Char} {sep : List Char}
    {parts : List (List Char)} (h : p ∈ parts) :
    p.length ≤ (joinSep sep parts).length := by
  induction parts with
  | nil => simp at h
  | cons q rest ih =>
    cases rest with
    | nil =>
      simp only [List.mem_singleton] at h
      subst h
      exact le_refl _
    | cons r rest2 =>
      rw [joinSep_cons₂]
      simp only [List.length_append]
      rcases List.mem_cons.mp h with rfl | h2
      · omega
      · have := ih h2
        omega

theorem joinSep_head? {p : List Char} {sep : List Char} {parts : List (List Char)}
    (hp : p ≠ []) : (joinSep sep (p :: parts)).head? = p.head? := by
  cases parts with
  | nil => rfl
  | cons q rest =>
    rw [joinSep_cons₂, List.append_assoc]
    exact List.head?_append_of_ne_nil _ hp

theorem joinSep_getLast? {sep : List Char} {parts : List (List Char)}
    {q : List Char} (hq : q ≠ []) (hlast : parts.getLast? = some q) :
    (joinSep sep parts).getLast? = q.getLast? := by
  induction parts with
  | nil => simp at hlast
  | cons p rest ih =>
    cases rest with
    | nil =>
      obtain rfl : p = q := by simpa using hlast
      rfl
    | cons r rest2 =>
      have hlast2 : (r :: rest2).getLast? = some q := by
        rw [List.getLast?_cons_cons] at hlast
        exact hlast
      have hjoin : joinSep sep (r :: rest2) ≠ [] := by
        intro hemp
        have h2 := ih hlast2
        rw [hemp] at h2
        simp only [List.getLast?_nil] at h2
        exact hq (List.getLast?_eq_none_iff.mp h2.symm)
      rw [joinSep_cons₂, List.append_assoc]
      rw [List.getLast?_append_of_ne_nil _
        (fun he => hjoin (List.append_eq_nil.mp he).2)]
      rw [List.getLast?_append_of_ne_nil _ hjoin]
      exact ih hlast2


/-! ### pyStrip -/

theorem pyStrip_eq_self {s : List Char}
    (h1 : ∀ c, s.head? = some c → isPyWS c = false)
    (h2 : ∀ c, s.getLast? = some c → isPyWS c = false) :
    pyStrip s = s := by
  unfold pyStrip
  have hd : s.dropWhile isPyWS = s := by
    cases s with
    | nil => rfl
    | cons c cs =>
      rw [List.dropWhile_cons, if_neg (by simp [h1 c rfl])]
  rw [hd]
  have hl : s.reverse.dropWhile isPyWS = s.reverse := by
    cases hs : s.reverse with
    | nil => rfl
    | cons c cs =>
      have hlast : s.getLast? = some c := by
        rw [← List.head?_reverse, hs]
        rfl
      rw [List.dropWhile_cons, if_neg (by simp [h2 c hlast])]
  rw [hl, List.reverse_reverse]

theorem pyStrip_cons_ws {c : Char} {s : List Char} (h : isPyWS c = true) :
    pyStrip (c :: s) = pyStrip s := by
  unfold pyStrip
  rw [List.dropWhile_cons, if_pos h]

/-! ### Bracket depth and separator chains -/

theorem bstep_nonbracket {c : Char} (h1 : isOpenB c = false)
    (h2 : isCloseB c = false) (d : Int) : bstep d c = d := by
  simp [bstep, h1, h2]

theorem depthRun_nil (d : Int) : depthRun d [] = d := rfl

theorem depthRun_cons (d : Int) (c : Char) (s : List Char) :
    depthRun d (c :: s) = depthRun (bstep d c) s := rfl

theorem depthRun_append (d : Int) (a b : List Char) :
    depthRun d (a ++ b) = depthRun (depthRun d a) b := by
  simp [depthRun, List.foldl_append]

theorem depthRun_nonbracket {s : List Char}
    (h : ∀ c ∈ s, isOpenB c = false ∧ isCloseB c = false) (d : Int) :
    depthRun d s = d := by
  induction s generalizing d with
  | nil => rfl
  | cons c cs ih =>
    rw [depthRun_cons, bstep_nonbracket (h c (by simp)).1 (h c (by simp)).2]
    exact ih (fun x hx => h x (by simp [hx])) d

theorem bstep_shift (d k : Int) (c : Char) : bstep (d + k) c = bstep d c + k := by
  unfold bstep
  split_ifs <;> ring

theorem depthRun_shift (d k : Int) (s : List Char) :
    depthRun (d + k) s = depthRun d s + k := by
  induction s generalizing d with
  | nil => rfl
  | cons c cs ih =>
    rw [depthRun_cons, depthRun_cons, bstep_shift, ih]

theorem chainOk_nil (sep : Char) (d : Int) : chainOk sep d [] = true := rfl

theorem chainOk_cons_iff {sep c : Char} {d : Int} {cs : List Char} :
    chainOk sep d (c :: cs) = true ↔
    (0 ≤ bstep d c ∧ (c = sep → 1 ≤ bstep d c) ∧ chainOk sep (bstep d c) cs = true) := by
  simp only [chainOk, Bool.and_eq_true, Bool.or_eq_true, decide_eq_true_iff,
    Bool.not_eq_true', beq_eq_false_iff_ne]
  constructor
  · rintro ⟨⟨h0, h1 | h1⟩, h2⟩
    · exact ⟨h0, fun he => absurd he h1, h2⟩
    · exact ⟨h0, fun _ => h1, h2⟩
  · rintro ⟨h0, h1, h2⟩
    by_cases he : c = sep
    · exact ⟨⟨h0, Or.inr (h1 he)⟩, h2⟩
    · exact ⟨⟨h0, Or.inl he⟩, h2⟩

theorem chainOk_append {sep : Char} {a b : List Char} {d : Int}
    (ha : chainOk sep d a = true) (hb : chainOk sep (depthRun d a) b = true) :
    chainOk sep d (a ++ b) = true := by
  induction a generalizing d with
  | nil => simpa using hb
  | cons c cs ih =>
    rw [List.cons_append]
    rw [chainOk_cons_iff]
    obtain ⟨h0, h1, h2⟩ := chainOk_cons_iff.mp ha
    exact ⟨h0, h1, ih h2 (by rwa [depthRun_cons] at hb)⟩

theorem chainOk_mono {sep : Char} {s : List Char} {d d' : Int} (hd : d ≤ d')
    (h : chainOk sep d s = true) : chainOk sep d' s = true := by
  induction s generalizing d d' with
  | nil => rfl
  | cons c cs ih =>
    obtain ⟨h0, h1, h2⟩ := chainOk_cons_iff.mp h
    have hb : bstep d c ≤ bstep d' c := by
      unfold bstep
      split_ifs <;> omega
    exact chainOk_cons_iff.mpr ⟨by omega, fun he => le_trans (h1 he) hb, ih hb h2⟩

theorem chainOk_nonbracket_notMem {sep : Char} {s : List Char}
    (hbr : ∀ c ∈ s, isOpenB c = false ∧ isCloseB c = false)
    (hsep : sep ∉ s) {d : Int} (hd : 0 ≤ d) : chainOk sep d s = true := by
  induction s generalizing d with
  | nil => rfl
  | cons c cs ih =>
    rw [chainOk_cons_iff, bstep_nonbracket (hbr c (by simp)).1 (hbr c (by simp)).2]
    refine ⟨hd, fun he => absurd he (fun h2 => hsep (h2 ▸ List.mem_cons_self _ _)), ?_⟩
    exact ih (fun x hx => hbr x (by simp [hx])) (fun hm => hsep (by simp [hm])) hd

/-! ### The split_with_nested inversion -/

theorem swnAux_chunk {sep : Char} (e : List Char) :
    ∀ (d : Int) (cur rest : List Char), chainOk sep d e = true →
    swnAux sep (e ++ rest) d cur = swnAux sep rest (depthRun d e) (e.reverse ++ cur) := by
  induction e with
  | nil =>
    intro d cur rest _
    simp [depthRun]
  | cons c cs ih =>
    intro d cur rest h
    obtain ⟨h0, h1, h2⟩ := chainOk_cons_iff.mp h
    rw [List.cons_append]
    show swnAux sep (c :: (cs ++ rest)) d cur = _
    rw [swnAux]
    rw [if_neg (by rintro ⟨rfl, hd0⟩; have := h1 rfl; omega)]
    rw [ih (bstep d c) (c :: cur) rest h2]
    rw [depthRun_cons]
    congr 1
    simp

theorem swn_joinSep {sep : Char}
    (hsep : isOpenB sep = false ∧ isCloseB sep = false)
    {parts : List (List Char)} (hne : parts ≠ [])
    (h : ∀ p ∈ parts, p ≠ [] ∧ pyStrip p = p ∧ depthRun 0 p = 0 ∧
      chainOk sep 0 p = true) :
    splitWithNested (joinSep [sep] parts) sep = parts := by
  induction parts with
  | nil => cases hne rfl
  | cons p rest ih =>
    obtain ⟨hp_ne, hp_strip, hp_bal, hp_chain⟩ := h p (by simp)
    cases rest with
    | nil =>
      show swnAux sep p 0 [] = [p]
      have := @swnAux_chunk sep p 0 [] [] hp_chain
      rw [List.append_nil] at this
      rw [this, hp_bal]
      show (if (p.reverse ++ []).isEmpty then [] else [pyStrip (p.reverse ++ []).reverse]) = [p]
      rw [List.append_nil, List.reverse_reverse]
      rw [if_neg (by simpa [List.isEmpty_iff] using fun he => hp_ne (by simpa using he))]
      rw [hp_strip]
    | cons q rest2 =>
      show swnAux sep (joinSep [sep] (p :: q :: rest2)) 0 [] = _
      rw [joinSep_cons₂, List.append_assoc]
      rw [swnAux_chunk p 0 [] _ hp_chain, hp_bal]
      show swnAux sep (sep :: joinSep [sep] (q :: rest2)) 0 (p.reverse ++ []) = _
      rw [swnAux]
      rw [if_pos ⟨rfl, by rw [bstep_nonbracket hsep.1 hsep.2]⟩]
      rw [bstep_nonbracket hsep.1 hsep.2]
      rw [List.append_nil, List.reverse_reverse, hp_strip]
      have := ih (by simp) (fun p2 hp2 => h p2 (List.mem_cons_of_mem _ hp2))
      exact congrArg (p :: ·) this


/-! ### Hexadecimal and decimal inversion -/

theorem hexVal?_hexDigitChar : ∀ d, d < 16 → hexVal? (hexDigitChar d) = some d := by
  decide

theorem hexVal?_hexDigitCharU : ∀ d, d < 16 → hexVal? (hexDigitCharU d) = some d := by
  decide

theorem decVal?_digitChar : ∀ d, d < 10 → decVal? (Char.ofNat (48 + d)) = some d := by
  decide

theorem parseHexGo_append (a b : List Char) (acc : Nat) :
    parseHexGo (a ++ b) acc = (parseHexGo a acc).bind (fun r => parseHexGo b r) := by
  induction a generalizing acc with
  | nil => rfl
  | cons c cs ih =>
    rw [List.cons_append]
    cases h : hexVal? c with
    | none => simp [parseHexGo, h]
    | some d =>
      simp only [parseHexGo, h]
      exact ih (16 * acc + d)

theorem parseDecGo_append (a b : List Char) (acc : Nat) :
    parseDecGo (a ++ b) acc = (parseDecGo a acc).bind (fun r => parseDecGo b r) := by
  induction a generalizing acc with
  | nil => rfl
  | cons c cs ih =>
    rw [List.cons_append]
    cases h : decVal? c with
    | none => simp [parseDecGo, h]
    | some d =>
      simp only [parseDecGo, h]
      exact ih (10 * acc + d)

theorem parseHexGo_digits {dig : Nat → Char}
    (hdig : ∀ d, d < 16 → hexVal? (dig d) = some d) :
    ∀ f n acc, n ≤ f →
    parseHexGo (((hexDigitsRevF f n).map dig).reverse) acc =
      some (acc * 16 ^ (hexDigitsRevF f n).length + n) := by
  intro f
  induction f with
  | zero =>
    intro n acc h
    have : n = 0 := by omega
    subst this
    simp [hexDigitsRevF, parseHexGo]
  | succ f ih =>
    intro n acc h
    by_cases hn : n = 0
    · subst hn
      simp [hexDigitsRevF, parseHexGo]
    · have hunf : hexDigitsRevF (f + 1) n = n % 16 :: hexDigitsRevF f (n / 16) := by
        show (if n = 0 then [] else n % 16 :: hexDigitsRevF f (n / 16)) = _
        rw [if_neg hn]
      rw [hunf]
      simp only [List.map_cons, List.reverse_cons]
      rw [parseHexGo_append]
      have hdiv : n / 16 ≤ f := by
        have := Nat.div_le_self n 16
        have := Nat.div_lt_self (Nat.pos_of_ne_zero hn) (by norm_num : (1:Nat) < 16)
        omega
      rw [ih (n / 16) acc hdiv]
      show parseHexGo [dig (n % 16)] _ = _
      have h16 : n % 16 < 16 := Nat.mod_lt _ (by norm_num)
      show (match hexVal? (dig (n % 16)) with
        | none => none
        | some d => parseHexGo [] (16 * (acc * 16 ^ (hexDigitsRevF f (n / 16)).length + n / 16) + d)) = _
      rw [hdig _ h16]
      show some _ = some _
      congr 1
      simp only [List.length_cons]
      rw [pow_succ]
      have hdm := Nat.div_add_mod n 16
      ring_nf
      omega

theorem parseDecGo_digits :
    ∀ f n acc, n ≤ f →
    parseDecGo (((decDigitsRevF f n).map (fun d => Char.ofNat (48 + d))).reverse) acc =
      some (acc * 10 ^ (decDigitsRevF f n).length + n) := by
  intro f
  induction f with
  | zero =>
    intro n acc h
    have : n = 0 := by omega
    subst this
    simp [decDigitsRevF, parseDecGo]
  | succ f ih =>
    intro n acc h
    by_cases hn : n = 0
    · subst hn
      simp [decDigitsRevF, parseDecGo]
    · have hunf : decDigitsRevF (f + 1) n = n % 10 :: decDigitsRevF f (n / 10) := by
        show (if n = 0 then [] else n % 10 :: decDigitsRevF f (n / 10)) = _
        rw [if_neg hn]
      rw [hunf]
      simp only [List.map_cons, List.reverse_cons]
      rw [parseDecGo_append]
      have hdiv : n / 10 ≤ f := by
        have := Nat.div_lt_self (Nat.pos_of_ne_zero hn) (by norm_num : (1:Nat) < 10)
        omega
      rw [ih (n / 10) acc hdiv]
      have h10 : n % 10 < 10 := Nat.mod_lt _ (by norm_num)
      show (match decVal? (Char.ofNat (48 + n % 10)) with
        | none => none
        | some d => parseDecGo [] (10 * (acc * 10 ^ (decDigitsRevF f (n / 10)).length + n / 10) + d)) = _
      rw [decVal?_digitChar _ h10]
      show some _ = some _
      congr 1
      simp only [List.length_cons]
      rw [pow_succ]
      have hdm := Nat.div_add_mod n 10
      ring_nf
      omega

theorem parseHexGo_zeros (k : Nat) (rest : List Char) :
    parseHexGo (List.replicate k '0' ++ rest) 0 = parseHexGo rest 0 := by
  induction k with
  | zero => rfl
  | succ k ih =>
    rw [List.replicate_succ, List.cons_append]
    show (match hexVal? '0' with
      | none => none
      | some d => parseHexGo (List.replicate k '0' ++ rest) (16 * 0 + d)) = _
    show parseHexGo (List.replicate k '0' ++ rest) (16 * 0 + 0) = _
    exact ih

theorem toHexL_ne_nil (n : Nat) : toHexL n ≠ [] := by
  unfold toHexL
  split
  · simp
  · rename_i hn
    unfold hexDigitsRev
    cases n with
    | zero => cases hn rfl
    | succ m =>
      show ((if m + 1 = 0 then [] else
        (m + 1) % 16 :: hexDigitsRevF m ((m + 1) / 16)).map hexDigitChar).reverse ≠ []
      rw [if_neg (by omega)]
      simp

theorem toHexU_ne_nil (n : Nat) : toHexU n ≠ [] := by
  unfold toHexU
  split
  · simp
  · rename_i hn
    unfold hexDigitsRev
    cases n with
    | zero => cases hn rfl
    | succ m =>
      show ((if m + 1 = 0 then [] else
        (m + 1) % 16 :: hexDigitsRevF m ((m + 1) / 16)).map hexDigitCharU).reverse ≠ []
      rw [if_neg (by omega)]
      simp

theorem parseHex_hexPad (w n : Nat) : parseHex (hexPad w n) = some n := by
  unfold parseHex hexPad
  rw [if_neg (by
    simp only [List.isEmpty_iff, List.append_eq_nil]
    rintro ⟨-, h2⟩
    exact toHexL_ne_nil n h2)]
  by_cases hn : n = 0
  · subst hn
    have : toHexL 0 = ['0'] := rfl
    rw [this]
    rw [parseHexGo_zeros _ ['0']]
    rfl
  · have : toHexL n = ((hexDigitsRev n).map hexDigitChar).reverse := by
      unfold toHexL
      rw [if_neg hn]
    rw [this]
    rw [parseHexGo_zeros]
    unfold hexDigitsRev
    rw [parseHexGo_digits hexVal?_hexDigitChar n n 0 (le_refl n)]
    simp

theorem parseHex_hexPadU (w n : Nat) : parseHex (hexPadU w n) = some n := by
  unfold parseHex hexPadU
  rw [if_neg (by
    simp only [List.isEmpty_iff, List.append_eq_nil]
    rintro ⟨-, h2⟩
    exact toHexU_ne_nil n h2)]
  by_cases hn : n = 0
  · subst hn
    have : toHexU 0 = ['0'] := rfl
    rw [this]
    rw [parseHexGo_zeros _ ['0']]
    rfl
  · have : toHexU n = ((hexDigitsRev n).map hexDigitCharU).reverse := by
      unfold toHexU
      rw [if_neg hn]
    rw [this]
    rw [parseHexGo_zeros]
    unfold hexDigitsRev
    rw [parseHexGo_digits hexVal?_hexDigitCharU n n 0 (le_refl n)]
    simp

theorem natToChars_ne_nil (n : Nat) : natToChars n ≠ [] := by
  unfold natToChars
  split
  · simp
  · rename_i hn
    unfold decDigitsRev
    cases n with
    | zero => cases hn rfl
    | succ m =>
      show ((if m + 1 = 0 then [] else
        (m + 1) % 10 :: decDigitsRevF m ((m + 1) / 10)).map _).reverse ≠ []
      rw [if_neg (by omega)]
      simp

theorem parseNat_natToChars (n : Nat) : parseNat (natToChars n) = some n := by
  unfold parseNat
  rw [if_neg (by simpa [List.isEmpty_iff] using natToChars_ne_nil n)]
  by_cases hn : n = 0
  · subst hn
    rfl
  · have : natToChars n = ((decDigitsRev n).map (fun d => Char.ofNat (48 + d))).reverse := by
      unfold natToChars
      rw [if_neg hn]
    rw [this]
    unfold decDigitsRev
    rw [parseDecGo_digits n n 0 (le_refl n)]
    simp

/-! ### Character content of the numeric encoders -/

theorem decDigitsRevF_lt : ∀ f n d, d ∈ decDigitsRevF f n → d < 10 := by
  intro f
  induction f with
  | zero => intro n d h; simp [decDigitsRevF] at h
  | succ f ih =>
    intro n d h
    by_cases hn : n = 0
    · subst hn; simp [decDigitsRevF] at h
    · rw [show decDigitsRevF (f + 1) n = n % 10 :: decDigitsRevF f (n / 10) by
        show (if n = 0 then [] else n % 10 :: decDigitsRevF f (n / 10)) = _
        rw [if_neg hn]] at h
      rcases List.mem_cons.mp h with rfl | h2
      · exact Nat.mod_lt _ (by norm_num)
      · exact ih _ _ h2

theorem hexDigitsRevF_lt : ∀ f n d, d ∈ hexDigitsRevF f n → d < 16 := by
  intro f
  induction f with
  | zero => intro n d h; simp [hexDigitsRevF] at h
  | succ f ih =>
    intro n d h
    by_cases hn : n = 0
    · subst hn; simp [hexDigitsRevF] at h
    · rw [show hexDigitsRevF (f + 1) n = n % 16 :: hexDigitsRevF f (n / 16) by
        show (if n = 0 then [] else n % 16 :: hexDigitsRevF f (n / 16)) = _
        rw [if_neg hn]] at h
      rcases List.mem_cons.mp h with rfl | h2
      · exact Nat.mod_lt _ (by norm_num)
      · exact ih _ _ h2

theorem natToChars_toNat {n : Nat} {c : Char} (h : c ∈ natToChars n) :
    48 ≤ c.toNat ∧ c.toNat ≤ 57 := by
  have hdig : ∀ d, d < 10 →
      48 ≤ (Char.ofNat (48 + d)).toNat ∧ (Char.ofNat (48 + d)).toNat ≤ 57 := by
    decide
  unfold natToChars at h
  split at h
  · simp only [List.mem_singleton] at h
    subst h
    decide
  · simp only [List.mem_reverse, List.mem_map] at h
    obtain ⟨d, hd, rfl⟩ := h
    exact hdig d (decDigitsRevF_lt _ _ _ hd)

theorem intToChars_toNat {i : Int} {c : Char} (h : c ∈ intToChars i) :
    c.toNat = 45 ∨ (48 ≤ c.toNat ∧ c.toNat ≤ 57) := by
  unfold intToChars at h
  split at h
  · rcases List.mem_cons.mp h with rfl | h2
    · left
      decide
    · right
      exact natToChars_toNat h2
  · right
    exact natToChars_toNat h

theorem intToChars_tame {i : Int} : ∀ c ∈ intToChars i, tameChar c = true := by
  intro c h
  rcases intToChars_toNat h with h1 | h1 <;>
    simp only [tameChar, Bool.or_eq_true, Bool.and_eq_true, decide_eq_true_iff] <;>
    omega

theorem intToChars_ne_nil (i : Int) : intToChars i ≠ [] := by
  unfold intToChars
  split
  · simp
  · exact natToChars_ne_nil _

theorem intToChars_ne_dot {i : Int} : ∀ c ∈ intToChars i, c ≠ '.' := by
  intro c h heq
  have : ('.').toNat = 46 := by decide
  rcases intToChars_toNat h with h1 | h1 <;> rw [heq, this] at h1 <;> omega

theorem hexPad_tame {w n : Nat} : ∀ c ∈ hexPad w n, tameChar c = true := by
  have hdig : ∀ d, d < 16 → tameChar (hexDigitChar d) = true := by decide
  intro c h
  rcases List.mem_append.mp h with h1 | h1
  · rw [List.eq_of_mem_replicate h1]
    decide
  · unfold toHexL at h1
    split at h1
    · simp only [List.mem_singleton] at h1
      subst h1
      decide
    · simp only [List.mem_reverse, List.mem_map] at h1
      obtain ⟨d, hd, rfl⟩ := h1
      exact hdig d (hexDigitsRevF_lt _ _ _ hd)

theorem hexPadU_tame {w n : Nat} : ∀ c ∈ hexPadU w n, tameChar c = true := by
  have hdig : ∀ d, d < 16 → tameChar (hexDigitCharU d) = true := by decide
  intro c h
  rcases List.mem_append.mp h with h1 | h1
  · rw [List.eq_of_mem_replicate h1]
    decide
  · unfold toHexU at h1
    split at h1
    · simp only [List.mem_singleton] at h1
      subst h1
      decide
    · simp only [List.mem_reverse, List.mem_map] at h1
      obtain ⟨d, hd, rfl⟩ := h1
      exact hdig d (hexDigitsRevF_lt _ _ _ hd)

theorem hexPad_ne_nil (w n : Nat) : hexPad w n ≠ [] := by
  unfold hexPad
  intro h
  exact toHexL_ne_nil n (List.append_eq_nil.mp h).2

theorem parseInt_intToChars (i : Int) : parseInt (intToChars i) = some i := by
  by_cases hi : i < 0
  · have h1 : intToChars i = '-' :: natToChars i.natAbs := by
      unfold intToChars
      rw [if_pos hi]
    rw [h1]
    have h2 : parseInt ('-' :: natToChars i.natAbs) =
        (parseNat (natToChars i.natAbs)).map (fun n => -(n : Int)) := by
      unfold parseInt
      rw [if_pos (show ('-' :: natToChars i.natAbs).head? = some '-' from rfl)]
      rfl
    rw [h2, parseNat_natToChars]
    show some (-(i.natAbs : Int)) = some i
    congr 1
    omega
  · have h1 : intToChars i = natToChars i.natAbs := by
      unfold intToChars
      rw [if_neg hi]
    rw [h1]
    have hne : (natToChars i.natAbs).head? ≠ some '-' := by
      cases hnc : natToChars i.natAbs with
      | nil => simp
      | cons c cs =>
        have hc : 48 ≤ c.toNat ∧ c.toNat ≤ 57 :=
          natToChars_toNat (hnc ▸ List.mem_cons_self c cs)
        simp only [List.head?_cons, ne_eq, Option.some_inj]
        intro heq
        subst heq
        have : ('-').toNat = 45 := by decide
        omega
    have h2 : parseInt (natToChars i.natAbs) =
        (parseNat (natToChars i.natAbs)).map (fun n => (n : Int)) := by
      unfold parseInt
      rw [if_neg hne]
    rw [h2, parseNat_natToChars]
    show some ((i.natAbs : Nat) : Int) = some i
    congr 1
    omega


/-! ### Type designators: sizes, fuel stability, rendering equations -/

theorem tsize_pos : ∀ t : Ty, 1 ≤ tsize t := by
  intro t
  cases t <;> simp [tsize] <;> omega

theorem tsizeList_cons (t : Ty) (ts : List Ty) :
    tsizeList (t :: ts) = 1 + tsize t + tsizeList ts := by
  simp [tsizeList]

theorem tsize_lt_of_mem {t : Ty} {ts : List Ty} (h : t ∈ ts) :
    tsize t < 1 + tsizeList ts := by
  induction ts with
  | nil => simp at h
  | cons x xs ih =>
    rw [tsizeList_cons]
    rcases List.mem_cons.mp h with rfl | h2
    · omega
    · have := ih h2
      omega

theorem tyNameF_stable :
    ∀ n t f f', tsize t ≤ n → tsize t ≤ f → tsize t ≤ f' →
    tyNameF f t = tyNameF f' t := by
  intro n
  induction n with
  | zero =>
    intro t f f' hn _ _
    have := tsize_pos t
    omega
  | succ n ih =>
    intro t f f' hn hf hf'
    have h1 := tsize_pos t
    obtain ⟨f1, rfl⟩ : ∃ f1, f = f1 + 1 := ⟨f - 1, by omega⟩
    obtain ⟨f2, rfl⟩ : ∃ f2, f' = f2 + 1 := ⟨f' - 1, by omega⟩
    cases t with
    | int => rfl
    | str => rfl
    | string => rfl
    | bool => rfl
    | datetime => rfl
    | version => rfl
    | any => rfl
    | list t1 =>
      show "list[".toList ++ tyNameF f1 t1 ++ "]".toList =
        "list[".toList ++ tyNameF f2 t1 ++ "]".toList
      have hs : tsize (Ty.list t1) = 1 + tsize t1 := by simp [tsize]
      rw [ih t1 f1 f2 (by omega) (by omega) (by omega)]
    | tuple ts =>
      show "tuple[".toList ++ joinSep ", ".toList (ts.map (tyNameF f1)) ++ "]".toList =
        "tuple[".toList ++ joinSep ", ".toList (ts.map (tyNameF f2)) ++ "]".toList
      have hs : tsize (Ty.tuple ts) = 1 + tsizeList ts := by simp [tsize]
      have hmap : ts.map (tyNameF f1) = ts.map (tyNameF f2) := by
        apply List.map_congr_left
        intro t1 ht1
        have := tsize_lt_of_mem ht1
        exact ih t1 f1 f2 (by omega) (by omega) (by omega)
      rw [hmap]
    | dict k v =>
      show "dict[".toList ++ tyNameF f1 k ++ ", ".toList ++ tyNameF f1 v ++ "]".toList =
        "dict[".toList ++ tyNameF f2 k ++ ", ".toList ++ tyNameF f2 v ++ "]".toList
      have hs : tsize (Ty.dict k v) = 1 + tsize k + tsize v := by simp [tsize]
      have h2 := tsize_pos k
      have h3 := tsize_pos v
      rw [ih k f1 f2 (by omega) (by omega) (by omega),
        ih v f1 f2 (by omega) (by omega) (by omega)]

theorem tyNameF_eq_tyName {t : Ty} {f : Nat} (h : tsize t ≤ f) :
    tyNameF f t = tyName t :=
  tyNameF_stable (tsize t) t f (tsize t) (le_refl _) h (le_refl _)

theorem tyName_list (t : Ty) :
    tyName (.list t) = "list[".toList ++ tyName t ++ "]".toList := by
  have hs : tsize (Ty.list t) = tsize t + 1 := by simp [tsize]; omega
  show tyNameF (tsize (Ty.list t)) (.list t) = _
  rw [hs]
  show "list[".toList ++ tyNameF (tsize t) t ++ "]".toList = _
  rw [tyNameF_eq_tyName (le_refl _)]

theorem tyName_tuple (ts : List Ty) :
    tyName (.tuple ts) =
      "tuple[".toList ++ joinSep ", ".toList (ts.map tyName) ++ "]".toList := by
  have hs : tsize (Ty.tuple ts) = tsizeList ts + 1 := by simp [tsize]; omega
  show tyNameF (tsize (Ty.tuple ts)) (.tuple ts) = _
  rw [hs]
  show "tuple[".toList ++ joinSep ", ".toList (ts.map (tyNameF (tsizeList ts))) ++
    "]".toList = _
  have hmap : ts.map (tyNameF (tsizeList ts)) = ts.map tyName := by
    apply List.map_congr_left
    intro t ht
    have := tsize_lt_of_mem ht
    exact tyNameF_eq_tyName (by omega)
  rw [hmap]

theorem tyName_dict (k v : Ty) :
    tyName (.dict k v) =
      "dict[".toList ++ tyName k ++ ", ".toList ++ tyName v ++ "]".toList := by
  have h2 := tsize_pos k
  have h3 := tsize_pos v
  have hs : tsize (Ty.dict k v) = 1 + tsize k + tsize v := by simp [tsize]
  obtain ⟨m, hm⟩ : ∃ m, tsize (Ty.dict k v) = m + 1 := ⟨tsize k + tsize v, by omega⟩
  show tyNameF (tsize (Ty.dict k v)) (.dict k v) = _
  rw [hm]
  show "dict[".toList ++ tyNameF m k ++ ", ".toList ++ tyNameF m v ++ "]".toList = _
  rw [tyNameF_eq_tyName (by omega), tyNameF_eq_tyName (by omega)]


/-! ### Chains through joined parts, and the shape of type designators -/

theorem joinSep_chain {sep : Char} {sepStr : List Char} {parts : List (List Char)}
    (hs1 : ∀ d : Int, 1 ≤ d → chainOk sep d sepStr = true)
    (hs2 : ∀ c ∈ sepStr, isOpenB c = false ∧ isCloseB c = false)
    (h : ∀ p ∈ parts, depthRun 0 p = 0 ∧ chainOk sep 0 p = true) :
    depthRun 1 (joinSep sepStr parts) = 1 ∧
    chainOk sep 1 (joinSep sepStr parts) = true := by
  induction parts with
  | nil => exact ⟨rfl, rfl⟩
  | cons p rest ih =>
    obtain ⟨hp_d, hp_c⟩ := h p (by simp)
    have hp_d1 : depthRun 1 p = 1 := by
      have := depthRun_shift 0 1 p
      simpa [hp_d] using this
    have hp_c1 : chainOk sep 1 p = true := chainOk_mono (by omega) hp_c
    cases rest with
    | nil => exact ⟨hp_d1, hp_c1⟩
    | cons q rest2 =>
      obtain ⟨ih_d, ih_c⟩ := ih (fun x hx => h x (List.mem_cons_of_mem _ hx))
      rw [joinSep_cons₂, List.append_assoc]
      have hsep_d : depthRun 1 sepStr = 1 := depthRun_nonbracket hs2 1
      constructor
      · rw [depthRun_append, hp_d1, depthRun_append, hsep_d, ih_d]
      · apply chainOk_append hp_c1
        rw [hp_d1]
        apply chainOk_append (hs1 1 (by omega))
        rw [hsep_d]
        exact ih_c

theorem chainOk_comma_space_nak : ∀ d : Int, 1 ≤ d → chainOk NAK d ", ".toList = true := by
  intro d hd
  exact chainOk_nonbracket_notMem (by decide) (by decide) (by omega)

theorem chainOk_comma_space_comma : ∀ d : Int, 1 ≤ d → chainOk ',' d ", ".toList = true := by
  intro d hd
  rw [show ", ".toList = [',', ' '] from rfl]
  rw [chainOk_cons_iff]
  have hb : bstep d ',' = d := bstep_nonbracket (by decide) (by decide) d
  refine ⟨by omega, fun _ => by omega, ?_⟩
  rw [hb, chainOk_cons_iff]
  have hb2 : bstep d ' ' = d := bstep_nonbracket (by decide) (by decide) d
  exact ⟨by omega, fun he => absurd he (by decide), by rw [hb2]; rfl⟩

theorem tyName_shape : ∀ n t, tsize t ≤ n →
    tyName t ≠ [] ∧
    (∀ c ∈ tyName t, c ≠ FS ∧ c ≠ GS ∧ c ≠ RS ∧ c ≠ NAK ∧ c ≠ SYN ∧ c ≠ EM ∧
      c ≠ '\n') ∧
    depthRun 0 (tyName t) = 0 ∧
    chainOk NAK 0 (tyName t) = true ∧
    chainOk ',' 0 (tyName t) = true ∧
    (∀ c, (tyName t).head? = some c → isPyWS c = false) ∧
    (∀ c, (tyName t).getLast? = some c → isPyWS c = false) := by
  intro n
  induction n with
  | zero =>
    intro t h
    have := tsize_pos t
    omega
  | succ n ih =>
    intro t ht
    cases t with
    | int =>
      exact ⟨by decide, by decide, by decide, by decide, by decide,
        by intro c hc; cases hc; decide, by intro c hc; cases hc; decide⟩
    | str =>
      exact ⟨by decide, by decide, by decide, by decide, by decide,
        by intro c hc; cases hc; decide, by intro c hc; cases hc; decide⟩
    | string =>
      exact ⟨by decide, by decide, by decide, by decide, by decide,
        by intro c hc; cases hc; decide, by intro c hc; cases hc; decide⟩
    | bool =>
      exact ⟨by decide, by decide, by decide, by decide, by decide,
        by intro c hc; cases hc; decide, by intro c hc; cases hc; decide⟩
    | datetime =>
      exact ⟨by decide, by decide, by decide, by decide, by decide,
        by intro c hc; cases hc; decide, by intro c hc; cases hc; decide⟩
    | version =>
      exact ⟨by decide, by decide, by decide, by decide, by decide,
        by intro c hc; cases hc; decide, by intro c hc; cases hc; decide⟩
    | any =>
      exact ⟨by decide, by decide, by decide, by decide, by decide,
        by intro c hc; cases hc; decide, by intro c hc; cases hc; decide⟩
    | list t1 =>
      have hsz : tsize (Ty.list t1) = 1 + tsize t1 := by simp [tsize]
      obtain ⟨A, B, C, D1, D2, E1, E2⟩ := ih t1 (by omega)
      rw [tyName_list]
      have hd_pre : depthRun 0 "list[".toList = 1 := by decide
      have hd_mid : depthRun 1 (tyName t1) = 1 := by
        have := depthRun_shift 0 1 (tyName t1)
        simpa [C] using this
      refine ⟨by simp, ?_, ?_, ?_, ?_, ?_, ?_⟩
      · intro c hc
        have hpre : ∀ c2 ∈ "list[".toList, c2 ≠ FS ∧ c2 ≠ GS ∧ c2 ≠ RS ∧ c2 ≠ NAK ∧
            c2 ≠ SYN ∧ c2 ≠ EM ∧ c2 ≠ '\n' := by decide
        have hsuf : ∀ c2 ∈ "]".toList, c2 ≠ FS ∧ c2 ≠ GS ∧ c2 ≠ RS ∧ c2 ≠ NAK ∧
            c2 ≠ SYN ∧ c2 ≠ EM ∧ c2 ≠ '\n' := by decide
        rcases List.mem_append.mp hc with hc1 | hc1
        · rcases List.mem_append.mp hc1 with hc2 | hc2
          · exact hpre c hc2
          · exact B c hc2
        · exact hsuf c hc1
      · rw [List.append_assoc, depthRun_append, hd_pre, depthRun_append, hd_mid]
        decide
      · rw [List.append_assoc]
        apply chainOk_append (by decide)
        rw [hd_pre]
        apply chainOk_append (chainOk_mono (by omega) D1)
        rw [hd_mid]
        decide
      · rw [List.append_assoc]
        apply chainOk_append (by decide)
        rw [hd_pre]
        apply chainOk_append (chainOk_mono (by omega) D2)
        rw [hd_mid]
        decide
      · intro c hc
        cases hc
        decide
      · intro c hc
        rw [List.append_assoc,
          List.getLast?_append_of_ne_nil _ (by simp : tyName t1 ++ "]".toList ≠ []),
          List.getLast?_append_of_ne_nil _ (by simp : "]".toList ≠ [])] at hc
        cases hc
        decide
    | tuple ts =>
      have hsz : tsize (Ty.tuple ts) = 1 + tsizeList ts := by simp [tsize]
      rw [tyName_tuple]
      have hparts : ∀ p ∈ ts.map tyName, depthRun 0 p = 0 ∧ chainOk NAK 0 p = true ∧
          chainOk ',' 0 p = true ∧
          (∀ c ∈ p, c ≠ FS ∧ c ≠ GS ∧ c ≠ RS ∧ c ≠ NAK ∧ c ≠ SYN ∧ c ≠ EM ∧
            c ≠ '\n') := by
        intro p hp
        obtain ⟨t1, ht1, rfl⟩ := List.mem_map.mp hp
        have := tsize_lt_of_mem ht1
        obtain ⟨_, B1, C1, DD1, DD2, _, _⟩ := ih t1 (by omega)
        exact ⟨C1, DD1, DD2, B1⟩
      obtain ⟨hJd, hJn⟩ := joinSep_chain chainOk_comma_space_nak (by decide)
        (fun p hp => ⟨(hparts p hp).1, (hparts p hp).2.1⟩)
      obtain ⟨hJd', hJc⟩ := joinSep_chain chainOk_comma_space_comma (by decide)
        (fun p hp => ⟨(hparts p hp).1, (hparts p hp).2.2.1⟩)
      have hd_pre : depthRun 0 "tuple[".toList = 1 := by decide
      refine ⟨by simp, ?_, ?_, ?_, ?_, ?_, ?_⟩
      · intro c hc
        have hpre : ∀ c2 ∈ "tuple[".toList, c2 ≠ FS ∧ c2 ≠ GS ∧ c2 ≠ RS ∧ c2 ≠ NAK ∧
            c2 ≠ SYN ∧ c2 ≠ EM ∧ c2 ≠ '\n' := by decide
        have hcs : ∀ c2 ∈ ", ".toList, c2 ≠ FS ∧ c2 ≠ GS ∧ c2 ≠ RS ∧ c2 ≠ NAK ∧
            c2 ≠ SYN ∧ c2 ≠ EM ∧ c2 ≠ '\n' := by decide
        have hsuf : ∀ c2 ∈ "]".toList, c2 ≠ FS ∧ c2 ≠ GS ∧ c2 ≠ RS ∧ c2 ≠ NAK ∧
            c2 ≠ SYN ∧ c2 ≠ EM ∧ c2 ≠ '\n' := by decide
        rcases List.mem_append.mp hc with hc1 | hc1
        · rcases List.mem_append.mp hc1 with hc2 | hc2
          · exact hpre c hc2
          · rcases mem_joinSep hc2 with hc3 | ⟨p, hp, hc3⟩
            · exact hcs c hc3
            · exact (hparts p hp).2.2.2 c hc3
        · exact hsuf c hc1
      · rw [List.append_assoc, depthRun_append, hd_pre, depthRun_append, hJd]
        decide
      · rw [List.append_assoc]
        apply chainOk_append (by decide)
        rw [hd_pre]
        apply chainOk_append hJn
        rw [hJd]
        decide
      · rw [List.append_assoc]
        apply chainOk_append (by decide)
        rw [hd_pre]
        apply chainOk_append hJc
        rw [hJd']
        decide
      · intro c hc
        cases hc
        decide
      · intro c hc
        rw [List.append_assoc,
          List.getLast?_append_of_ne_nil _
            (by simp : joinSep ", ".toList (ts.map tyName) ++ "]".toList ≠ []),
          List.getLast?_append_of_ne_nil _ (by simp : "]".toList ≠ [])] at hc
        cases hc
        decide
    | dict k v =>
      have hsz : tsize (Ty.dict k v) = 1 + tsize k + tsize v := by simp [tsize]
      have hk := tsize_pos k
      have hv := tsize_pos v
      obtain ⟨Ak, Bk, Ck, D1k, D2k, E1k, E2k⟩ := ih k (by omega)
      obtain ⟨Av, Bv, Cv, D1v, D2v, E1v, E2v⟩ := ih v (by omega)
      rw [tyName_dict]
      have hd_pre : depthRun 0 "dict[".toList = 1 := by decide
      have hd_k : depthRun 1 (tyName k) = 1 := by
        have := depthRun_shift 0 1 (tyName k)
        simpa [Ck] using this
      have hd_v : depthRun 1 (tyName v) = 1 := by
        have := depthRun_shift 0 1 (tyName v)
        simpa [Cv] using this
      have hd_cs : depthRun 1 ", ".toList = 1 := by decide
      refine ⟨by simp, ?_, ?_, ?_, ?_, ?_, ?_⟩
      · intro c hc
        have hpre : ∀ c2 ∈ "dict[".toList, c2 ≠ FS ∧ c2 ≠ GS ∧ c2 ≠ RS ∧ c2 ≠ NAK ∧
            c2 ≠ SYN ∧ c2 ≠ EM ∧ c2 ≠ '\n' := by decide
        have hcs : ∀ c2 ∈ ", ".toList, c2 ≠ FS ∧ c2 ≠ GS ∧ c2 ≠ RS ∧ c2 ≠ NAK ∧
            c2 ≠ SYN ∧ c2 ≠ EM ∧ c2 ≠ '\n' := by decide
        have hsuf : ∀ c2 ∈ "]".toList, c2 ≠ FS ∧ c2 ≠ GS ∧ c2 ≠ RS ∧ c2 ≠ NAK ∧
            c2 ≠ SYN ∧ c2 ≠ EM ∧ c2 ≠ '\n' := by decide
        simp only [List.append_assoc, List.mem_append] at hc
        rcases hc with hc1 | hc1 | hc1 | hc1 | hc1
        · exact hpre c hc1
        · exact Bk c hc1
        · exact hcs c hc1
        · exact Bv c hc1
        · exact hsuf c hc1
      · simp only [List.append_assoc]
        rw [depthRun_append, hd_pre, depthRun_append, hd_k, depthRun_append, hd_cs,
          depthRun_append, hd_v]
        decide
      · simp only [List.append_assoc]
        apply chainOk_append (by decide)
        rw [hd_pre]
        apply chainOk_append (chainOk_mono (by omega) D1k)
        rw [hd_k]
        apply chainOk_append (chainOk_comma_space_nak 1 (by omega))
        rw [hd_cs]
        apply chainOk_append (chainOk_mono (by omega) D1v)
        rw [hd_v]
        decide
      · simp only [List.append_assoc]
        apply chainOk_append (by decide)
        rw [hd_pre]
        apply chainOk_append (chainOk_mono (by omega) D2k)
        rw [hd_k]
        apply chainOk_append (chainOk_comma_space_comma 1 (by omega))
        rw [hd_cs]
        apply chainOk_append (chainOk_mono (by omega) D2v)
        rw [hd_v]
        decide
      · intro c hc
        cases hc
        decide
      · intro c hc
        simp only [List.append_assoc] at hc
        rw [List.getLast?_append_of_ne_nil _ (by simp),
          List.getLast?_append_of_ne_nil _ (by simp),
          List.getLast?_append_of_ne_nil _ (by simp),
          List.getLast?_append_of_ne_nil _ (by simp : "]".toList ≠ [])] at hc
        cases hc
        decide


/-! ### Inversion of the type-designator dispatch -/

theorem swn_joinSep_strip {sep : Char}
    (hsep : isOpenB sep = false ∧ isCloseB sep = false)
    {parts : List (List Char)} (hne : parts ≠ [])
    (h : ∀ p ∈ parts, p ≠ [] ∧ depthRun 0 p = 0 ∧ chainOk sep 0 p = true) :
    splitWithNested (joinSep [sep] parts) sep = parts.map pyStrip := by
  induction parts with
  | nil => cases hne rfl
  | cons p rest ih =>
    obtain ⟨hp_ne, hp_bal, hp_chain⟩ := h p (by simp)
    cases rest with
    | nil =>
      show swnAux sep p 0 [] = [pyStrip p]
      have hch := @swnAux_chunk sep p 0 [] [] hp_chain
      rw [List.append_nil] at hch
      rw [hch, hp_bal]
      show (if (p.reverse ++ []).isEmpty then [] else [pyStrip (p.reverse ++ []).reverse]) = _
      rw [List.append_nil, List.reverse_reverse]
      rw [if_neg (by simpa [List.isEmpty_iff] using fun he => hp_ne (by simpa using he))]
    | cons q rest2 =>
      show swnAux sep (joinSep [sep] (p :: q :: rest2)) 0 [] = _
      rw [joinSep_cons₂, List.append_assoc]
      rw [swnAux_chunk p 0 [] _ hp_chain, hp_bal]
      show swnAux sep (sep :: joinSep [sep] (q :: rest2)) 0 (p.reverse ++ []) = _
      rw [swnAux]
      rw [if_pos ⟨rfl, by rw [bstep_nonbracket hsep.1 hsep.2]⟩]
      rw [bstep_nonbracket hsep.1 hsep.2]
      rw [List.append_nil, List.reverse_reverse]
      have := ih (by simp) (fun p2 hp2 => h p2 (List.mem_cons_of_mem _ hp2))
      rw [List.map_cons]
      exact congrArg (pyStrip p :: ·) this

theorem joinSep_space_pull (q : List Char) (X : List (List Char)) :
    joinSep [','] ((' ' :: q) :: X) = ' ' :: joinSep [','] (q :: X) := by
  cases X with
  | nil => rfl
  | cons r rest => rfl

theorem joinSep_comma_space (p : List Char) (rest : List (List Char)) :
    joinSep ", ".toList (p :: rest) = joinSep [','] (p :: rest.map (' ' :: ·)) := by
  induction rest generalizing p with
  | nil => rfl
  | cons q rest2 ih =>
    rw [joinSep_cons₂, List.map_cons, joinSep_cons₂, ih q, joinSep_space_pull]
    rw [show ", ".toList = [','] ++ [' '] from rfl]
    simp [List.append_assoc]

theorem tyName_strip (t : Ty) : pyStrip (tyName t) = tyName t := by
  obtain ⟨-, -, -, -, -, E1, E2⟩ := tyName_shape (tsize t) t (le_refl _)
  exact pyStrip_eq_self E1 E2

theorem parseTyF_tyName : ∀ n t f, tsize t ≤ n → (tyName t).length < f →
    parseTyF f (tyName t) = some t := by
  intro n
  induction n with
  | zero =>
    intro t f h _
    have := tsize_pos t
    omega
  | succ n ih =>
    intro t f ht hf
    obtain ⟨f1, rfl⟩ : ∃ f1, f = f1 + 1 := ⟨f - 1, by omega⟩
    cases t with
    | int => rfl
    | str => rfl
    | string => rfl
    | bool => rfl
    | datetime => rfl
    | version => rfl
    | any => rfl
    | list t1 =>
      have hsz : tsize (Ty.list t1) = 1 + tsize t1 := by simp [tsize]
      obtain ⟨A, B, C, D1, D2, E1, E2⟩ := tyName_shape (tsize t1) t1 (le_refl _)
      rw [tyName_list] at hf ⊢
      have hhead : ("list[".toList ++ tyName t1 ++ "]".toList).head? = some 'l' := by
        rw [List.head?_append_of_ne_nil _ (by simp), List.head?_append_of_ne_nil _ (by simp)]
        rfl
      have hlen : ("list[".toList ++ tyName t1 ++ "]".toList).length =
          6 + (tyName t1).length := by
        simp [List.length_append]
        omega
      have hmid : (("list[".toList ++ tyName t1 ++ "]".toList).drop 5).dropLast =
          tyName t1 := by
        rw [List.append_assoc]
        rw [show (5 : Nat) = ("list[".toList).length from rfl]
        rw [List.drop_left]
        exact List.dropLast_concat
      simp only [parseTyF]
      rw [if_neg (fun he => absurd (he ▸ hhead) (by decide))]
      rw [if_neg (fun he => absurd (he ▸ hhead) (by decide))]
      rw [if_neg (fun he => absurd (he ▸ hhead) (by decide))]
      rw [if_neg (fun he => absurd (he ▸ hhead) (by decide))]
      rw [if_neg (fun he => absurd (he ▸ hhead) (by decide))]
      rw [if_neg (fun he => absurd (he ▸ hhead) (by decide))]
      rw [if_neg (fun he => absurd (he ▸ hhead) (by decide))]
      rw [if_neg (fun he => absurd (he ▸ hhead) (by decide))]
      rw [if_pos ?hcond]
      case hcond =>
        refine ⟨Or.inl (List.isPrefixOf_iff_prefix.mpr ?_), ?_, ?_, ?_⟩
        · rw [List.append_assoc]
          exact List.prefix_append _ _
        · rw [List.getLast?_append_of_ne_nil _ (by simp)]
          rfl
        · rw [hlen]
          omega
        · rw [hmid]
          intro hm
          exact (B '\n' hm).2.2.2.2.2.2 rfl
      rw [hmid, pyStrip_eq_self E1 E2]
      rw [ih t1 f1 (by omega) (by omega)]
      rfl
    | tuple ts =>
      have hsz : tsize (Ty.tuple ts) = 1 + tsizeList ts := by simp [tsize]
      rw [tyName_tuple] at hf ⊢
      have hhead : ("tuple[".toList ++ joinSep ", ".toList (ts.map tyName) ++
          "]".toList).head? = some 't' := by
        rw [List.head?_append_of_ne_nil _ (by simp), List.head?_append_of_ne_nil _ (by simp)]
        rfl
      have hlen : ("tuple[".toList ++ joinSep ", ".toList (ts.map tyName) ++
          "]".toList).length = 7 + (joinSep ", ".toList (ts.map tyName)).length := by
        simp [List.length_append]
        omega
      have hmid : (("tuple[".toList ++ joinSep ", ".toList (ts.map tyName) ++
          "]".toList).drop 6).dropLast = joinSep ", ".toList (ts.map tyName) := by
        rw [List.append_assoc]
        rw [show (6 : Nat) = ("tuple[".toList).length from rfl]
        rw [List.drop_left]
        exact List.dropLast_concat
      have hJmem : ∀ t1 ∈ ts, (tyName t1).length ≤
          (joinSep ", ".toList (ts.map tyName)).length := by
        intro t1 ht1
        exact length_le_joinSep (List.mem_map_of_mem _ ht1)
      simp only [parseTyF]
      rw [if_neg (fun he => absurd (he ▸ hhead) (by decide))]
      rw [if_neg (fun he => absurd (he ▸ hhead) (by decide))]
      rw [if_neg (fun he => absurd (he ▸ hhead) (by decide))]
      rw [if_neg (fun he => absurd (he ▸ hhead) (by decide))]
      rw [if_neg (fun he => absurd (he ▸ hhead) (by decide))]
      rw [if_neg (fun he => absurd (he ▸ hhead) (by decide))]
      rw [if_neg (fun he => absurd (he ▸ hhead) (by decide))]
      rw [if_neg (fun he => absurd (he ▸ hhead) (by decide))]
      rw [if_neg (by rintro ⟨hpre | hpre, -⟩ <;> exact Bool.noConfusion hpre)]
      rw [if_pos ?hcond]
      case hcond =>
        refine ⟨Or.inl (List.isPrefixOf_iff_prefix.mpr ?_), ?_, ?_, ?_⟩
        · rw [List.append_assoc]
          exact List.prefix_append _ _
        · rw [List.getLast?_append_of_ne_nil _ (by simp)]
          rfl
        · rw [hlen]
          omega
        · rw [hmid]
          intro hm
          rcases mem_joinSep hm with hm1 | ⟨p, hp, hm1⟩
          · exact absurd hm1 (by decide)
          · obtain ⟨t1, ht1, rfl⟩ := List.mem_map.mp hp
            have := tsize_lt_of_mem ht1
            obtain ⟨-, B1, -⟩ := tyName_shape (tsize t1) t1 (le_refl _)
            exact (B1 '\n' hm1).2.2.2.2.2.2 rfl
      rw [hmid]
      have hmapM : ∀ (l : List Ty), (∀ t' ∈ l, tsize t' ≤ n ∧ (tyName t').length < f1) →
          ((l.map tyName).mapM (fun p => parseTyF f1 (pyStrip p))) = some l := by
        intro l hl
        induction l with
        | nil => rfl
        | cons x xs ihl =>
          rw [List.map_cons, List.mapM_cons]
          rw [tyName_strip x, ih x f1 (hl x (by simp)).1 (hl x (by simp)).2]
          rw [ihl (fun t' ht' => hl t' (List.mem_cons_of_mem _ ht'))]
          rfl
      cases hts : ts with
      | nil =>
        show (Option.map Ty.tuple ((splitWithNested [] ',').mapM
          (fun p => parseTyF f1 (pyStrip p)))) = _
        rfl
      | cons t1 rest =>
        have hswn : splitWithNested (joinSep ", ".toList ((t1 :: rest).map tyName)) ',' =
            ((t1 :: rest).map tyName) := by
          rw [List.map_cons, joinSep_comma_space]
          rw [swn_joinSep_strip (by decide) (by simp)]
          · rw [List.map_cons, tyName_strip]
            congr 1
            rw [List.map_map]
            have hpt : ∀ x ∈ List.map tyName rest,
                (pyStrip ∘ fun y => ' ' :: y) x = id x := by
              intro x hx
              obtain ⟨t2, ht2, rfl⟩ := List.mem_map.mp hx
              show pyStrip (' ' :: tyName t2) = tyName t2
              rw [pyStrip_cons_ws (by decide), tyName_strip]
            rw [List.map_congr_left hpt, List.map_id]
          · intro p hp
            rcases List.mem_cons.mp hp with rfl | hp2
            · obtain ⟨A1, -, C1, -, D1, -, -⟩ :=
                tyName_shape (tsize t1) t1 (le_refl _)
              exact ⟨A1, C1, D1⟩
            · obtain ⟨x, hx, rfl⟩ := List.mem_map.mp hp2
              obtain ⟨t2, ht2, rfl⟩ := List.mem_map.mp hx
              obtain ⟨A1, -, C1, -, D1, -, -⟩ :=
                tyName_shape (tsize t2) t2 (le_refl _)
              refine ⟨by simp, ?_, ?_⟩
              · rw [depthRun_cons, bstep_nonbracket (by decide) (by decide)]
                exact C1
              · rw [chainOk_cons_iff, bstep_nonbracket (by decide) (by decide)]
                exact ⟨by omega, fun he => absurd he (by decide), D1⟩
        rw [← hts] at hswn ⊢
        rw [hswn]
        rw [hmapM ts (fun t' ht' => ⟨by
            have := tsize_lt_of_mem ht'
            omega, by
            have := hJmem t' ht'
            omega⟩)]
        rfl
    | dict k v =>
      have hsz : tsize (Ty.dict k v) = 1 + tsize k + tsize v := by simp [tsize]
      have hpk := tsize_pos k
      have hpv := tsize_pos v
      obtain ⟨Ak, Bk, Ck, D1k, D2k, E1k, E2k⟩ := tyName_shape (tsize k) k (le_refl _)
      obtain ⟨Av, Bv, Cv, D1v, D2v, E1v, E2v⟩ := tyName_shape (tsize v) v (le_refl _)
      rw [tyName_dict] at hf ⊢
      have htake : ("dict[".toList ++ tyName k ++ ", ".toList ++ tyName v ++
          "]".toList).take 2 = ['d', 'i'] := by
        rw [List.append_assoc, List.append_assoc, List.append_assoc]
        rw [List.take_append_of_le_length (by decide)]
        rfl
      have hlen : ("dict[".toList ++ tyName k ++ ", ".toList ++ tyName v ++
          "]".toList).length = 8 + (tyName k).length + (tyName v).length := by
        simp [List.length_append]
        omega
      have hmid : (("dict[".toList ++ tyName k ++ ", ".toList ++ tyName v ++
          "]".toList).drop 5).dropLast =
          tyName k ++ ", ".toList ++ tyName v := by
        rw [List.append_assoc, List.append_assoc, List.append_assoc]
        rw [show (5 : Nat) = ("dict[".toList).length from rfl]
        rw [List.drop_left]
        rw [← List.append_assoc, ← List.append_assoc]
        exact List.dropLast_concat
      simp only [parseTyF]
      rw [if_neg (fun he => absurd (he ▸ htake) (by decide))]
      rw [if_neg (fun he => absurd (he ▸ htake) (by decide))]
      rw [if_neg (fun he => absurd (he ▸ htake) (by decide))]
      rw [if_neg (fun he => absurd (he ▸ htake) (by decide))]
      rw [if_neg (fun he => absurd (he ▸ htake) (by decide))]
      rw [if_neg (fun he => absurd (he ▸ htake) (by decide))]
      rw [if_neg (fun he => absurd (he ▸ htake) (by decide))]
      rw [if_neg (fun he => absurd (he ▸ htake) (by decide))]
      rw [if_neg (by rintro ⟨hpre | hpre, -⟩ <;> exact Bool.noConfusion hpre)]
      rw [if_neg (by rintro ⟨hpre | hpre, -⟩ <;> exact Bool.noConfusion hpre)]
      rw [if_pos ?hcond]
      case hcond =>
        refine ⟨Or.inl (List.isPrefixOf_iff_prefix.mpr ?_), ?_, ?_, ?_⟩
        · rw [List.append_assoc, List.append_assoc, List.append_assoc]
          exact List.prefix_append _ _
        · rw [List.append_assoc, List.append_assoc, List.append_assoc,
            List.getLast?_append_of_ne_nil _ (by simp)]
          rw [List.getLast?_append_of_ne_nil _ (by simp),
            List.getLast?_append_of_ne_nil _ (by simp),
            List.getLast?_append_of_ne_nil _ (by simp : "]".toList ≠ [])]
          rfl
        · rw [hlen]
          omega
        · rw [hmid]
          intro hm
          simp only [List.mem_append] at hm
          rcases hm with (hm1 | hm1) | hm1
          · exact (Bk '\n' hm1).2.2.2.2.2.2 rfl
          · exact absurd hm1 (by decide)
          · exact (Bv '\n' hm1).2.2.2.2.2.2 rfl
      rw [hmid]
      have hJ : tyName k ++ ", ".toList ++ tyName v =
          joinSep ", ".toList [tyName k, tyName v] := by
        rfl
      have hswn : splitWithNested (tyName k ++ ", ".toList ++ tyName v) ',' =
          [tyName k, tyName v] := by
        rw [hJ, joinSep_comma_space]
        rw [swn_joinSep_strip (by decide) (by simp)]
        · rw [List.map_cons]
          show [pyStrip (tyName k), pyStrip (' ' :: tyName v)] = _
          rw [tyName_strip, pyStrip_cons_ws (by decide), tyName_strip]
        · intro p hp
          rcases List.mem_cons.mp hp with rfl | hp2
          · exact ⟨Ak, Ck, D2k⟩
          · rcases List.mem_cons.mp hp2 with rfl | hp3
            · refine ⟨by simp, ?_, ?_⟩
              · rw [depthRun_cons, bstep_nonbracket (by decide) (by decide)]
                exact Cv
              · rw [chainOk_cons_iff, bstep_nonbracket (by decide) (by decide)]
                exact ⟨by omega, fun he => absurd he (by decide), D2v⟩
            · simp at hp3
      rw [hswn]
      show (match [pyStrip (tyName k), pyStrip (tyName v)] with
        | [k1, v1] =>
          match parseTyF f1 k1, parseTyF f1 v1 with
          | some tk, some tv => some (Ty.dict tk tv)
          | _, _ => none
        | _ => none) = _
      rw [tyName_strip, tyName_strip]
      show (match parseTyF f1 (tyName k), parseTyF f1 (tyName v) with
        | some tk, some tv => some (Ty.dict tk tv)
        | _, _ => none) = _
      rw [ih k f1 (by omega) (by omega), ih v f1 (by omega) (by omega)]

theorem parseTy_tyName (t : Ty) : parseTy (tyName t) = some t :=
  parseTyF_tyName (tsize t) t ((tyName t).length + 1) (le_refl _) (by omega)


/-! ### Value sizes, tame shapes, and dict-rebuild helpers -/

theorem vsize_pos (v : Value) : 1 ≤ vsize v := by
  cases v <;> simp [vsize] <;> omega

theorem vsizeList_cons (v : Value) (vs : List Value) :
    vsizeList (v :: vs) = 1 + vsize v + vsizeList vs := by
  simp [vsizeList]

theorem vsizePairs_cons (a b : Value) (ps : List (Value × Value)) :
    vsizePairs ((a, b) :: ps) = 1 + vsize a + vsize b + vsizePairs ps := by
  simp [vsizePairs]

theorem vsize_le_of_mem {v : Value} {vs : List Value} (h : v ∈ vs) :
    1 + vsize v ≤ vsizeList vs := by
  induction vs with
  | nil => simp at h
  | cons x xs ih =>
    rw [vsizeList_cons]
    rcases List.mem_cons.mp h with rfl | h2
    · omega
    · have := ih h2
      omega

theorem vsizePairs_le_of_mem {p : Value × Value} {ps : List (Value × Value)}
    (h : p ∈ ps) : 1 + vsize p.1 + vsize p.2 ≤ vsizePairs ps := by
  induction ps with
  | nil => simp at h
  | cons x xs ih =>
    obtain ⟨a, b⟩ := x
    rw [vsizePairs_cons]
    rcases List.mem_cons.mp h with rfl | h2
    · dsimp only
      omega
    · have := ih h2
      omega

theorem vsize_list_eq (items : List Value) :
    vsize (.vlist items) = 1 + vsizeList items := by simp [vsize]

theorem vsize_tuple_eq (items : List Value) :
    vsize (.vtuple items) = 1 + vsizeList items := by simp [vsize]

theorem vsize_dict_eq (entries : List (Value × Value)) :
    vsize (.vdict entries) = 1 + vsizePairs entries := by simp [vsize]

theorem anyW_le_one (t : Ty) : anyW t ≤ 1 := by
  cases t <;> simp [anyW]

/-- A non-empty all-tame string satisfies every shape condition the
decoders need. -/
theorem tame_shape {e : List Char} (hne : e ≠ [])
    (h : ∀ c ∈ e, tameChar c = true) :
    frameSafe e ∧ SYN ∉ e ∧ itemShape e := by
  have hfacts := fun c hc => tame_facts (h c hc)
  refine ⟨fun c hc => ⟨(hfacts c hc).1, (hfacts c hc).2.1, (hfacts c hc).2.2.1⟩,
    fun hc => (hfacts SYN hc).2.2.2.2.1 rfl, hne, ?_, ?_, ?_, ?_, ?_⟩
  · exact depthRun_nonbracket
      (fun c hc => ⟨(hfacts c hc).2.2.2.2.2.2.2.1, (hfacts c hc).2.2.2.2.2.2.2.2.1⟩) 0
  · apply chainOk_nonbracket_notMem
    · exact fun c hc => ⟨(hfacts c hc).2.2.2.2.2.2.2.1, (hfacts c hc).2.2.2.2.2.2.2.2.1⟩
    · exact fun hc => (hfacts NAK hc).2.2.2.1 rfl
    · omega
  · exact fun hc => (hfacts '\n' hc).2.2.2.2.2.2.1 rfl
  · intro c hc
    have : c ∈ e := by
      cases e with
      | nil => simp at hc
      | cons x xs =>
        simp only [List.head?_cons, Option.some_inj] at hc
        subst hc
        simp
    exact (hfacts c this).2.2.2.2.2.2.2.2.2
  · intro c hc
    exact (hfacts c (List.mem_of_mem_getLast? hc)).2.2.2.2.2.2.2.2.2

theorem matchDelim_eq {o c : Char} {mid : List Char} (hnl : '\n' ∉ mid) :
    matchDelim o c (o :: (mid ++ [c])) = some mid := by
  show (if o = o ∧ (mid ++ [c]).getLast? = some c ∧ '\n' ∉ (mid ++ [c]).dropLast then
    some ((mid ++ [c]).dropLast) else none) = some mid
  rw [if_pos ⟨rfl, List.getLast?_concat mid, by rw [List.dropLast_concat]; exact hnl⟩]
  rw [List.dropLast_concat]

theorem chainOk_nak_sep : ∀ d : Int, 1 ≤ d → chainOk NAK d [NAK] = true := by
  intro d hd
  rw [chainOk_cons_iff, bstep_nonbracket (by decide) (by decide)]
  exact ⟨by omega, fun _ => hd, rfl⟩

theorem dictInsert_append {m : List (Value × Value)} {k : Value}
    (h : ∀ p ∈ m, vbeq p.1 k = false) (v : Value) :
    dictInsert m k v = m ++ [(k, v)] := by
  induction m with
  | nil => rfl
  | cons x xs ih =>
    obtain ⟨a, b⟩ := x
    show (if vbeq a k then (a, v) :: xs else (a, b) :: dictInsert xs k v) = _
    rw [if_neg (by rw [h (a, b) (by simp)]; simp)]
    rw [ih (fun p hp => h p (List.mem_cons_of_mem _ hp))]
    rfl


/-! ### Unfolding equations for the fuel-indexed codec -/

theorem pyEncodeF_succ_int (f : Nat) (i : Int) :
    pyEncodeF (f+1) (.vint i) .int = .ok (intToChars i) := rfl

theorem pyEncodeF_succ_str (f : Nat) (s : List Char) :
    pyEncodeF (f+1) (.vstr s) .str = .ok s := rfl

theorem pyEncodeF_succ_string (f : Nat) (s : List Char) :
    pyEncodeF (f+1) (.vstr s) .string = .ok s := rfl

theorem pyEncodeF_succ_bool (f : Nat) (b : Bool) :
    pyEncodeF (f+1) (.vbool b) .bool = .ok (if b then ['t'] else ['f']) := rfl

theorem pyEncodeF_succ_datetime (f : Nat) (us : Int) :
    pyEncodeF (f+1) (.vdatetime us) .datetime =
      .ok (intToChars (us.tdiv 1000000)) := rfl

theorem pyEncodeF_succ_version (f : Nat) (es : List Int) :
    pyEncodeF (f+1) (.vversion es) .version =
      .ok (joinSep ['.'] (es.map intToChars)) := rfl

theorem pyEncodeF_succ_list (f : Nat) (items : List Value) (te : Ty) :
    pyEncodeF (f+1) (.vlist items) (.list te) =
      (items.mapM (fun it => pyEncodeF f it te)).map
        (fun es => '[' :: joinSep [NAK] es ++ [']']) := rfl

theorem pyEncodeF_succ_tuple (f : Nat) (items : List Value) (ts : List Ty) :
    pyEncodeF (f+1) (.vtuple items) (.tuple ts) =
      if items.length = ts.length then
        ((items.zip ts).mapM (fun p => pyEncodeF f p.1 p.2)).map
          (fun es => '(' :: joinSep [NAK] es ++ [')'])
      else .error "tuple arity mismatch" := rfl

theorem pyEncodeF_succ_dict (f : Nat) (entries : List (Value × Value)) (tk tv : Ty) :
    pyEncodeF (f+1) (.vdict entries) (.dict tk tv) =
      (entries.mapM (fun (p : Value × Value) => do
          let ke ← pyEncodeF f p.1 tk
          let ve ← pyEncodeF f p.2 tv
          pure (ke ++ SYN :: ve))).map
        (fun es => '\x7b' :: joinSep [NAK] es ++ ['\x7d']) := rfl

theorem pyEncodeF_succ_any (f : Nat) (v : Value) :
    pyEncodeF (f+1) v .any =
      match guessType v with
      | none => .error "Unknown data type"
      | some tg => (pyEncodeF f v tg).map (fun e => tyName tg ++ EM :: e) := rfl

theorem pyDecodeF_succ_any (f : Nat) (data : List Char) :
    pyDecodeF (f+1) data .any =
      match splitFirst data EM with
      | none => .error "Expected type prefix in data for Any type"
      | some (pfx, rest) =>
        match parseTy pfx with
        | none => .error "Unknown data type"
        | some t2 => pyDecodeF f rest t2 := rfl

theorem pyDecodeF_succ_int (f : Nat) (data : List Char) :
    pyDecodeF (f+1) data .int =
      match parseInt data with
      | some i => .ok (.vint i)
      | none => .error "invalid literal for int" := rfl

theorem pyDecodeF_succ_str (f : Nat) (data : List Char) :
    pyDecodeF (f+1) data .str = .ok (.vstr data) := rfl

theorem pyDecodeF_succ_string (f : Nat) (data : List Char) :
    pyDecodeF (f+1) data .string = .ok (.vstr data) := rfl

theorem pyDecodeF_succ_version (f : Nat) (data : List Char) :
    pyDecodeF (f+1) data .version =
      match (splitAll data '.').mapM parseInt with
      | some es => .ok (.vversion es)
      | none => .error "invalid Version string" := rfl

theorem pyDecodeF_succ_bool (f : Nat) (data : List Char) :
    pyDecodeF (f+1) data .bool =
      if data = ['t'] then .ok (.vbool true)
      else if data = ['f'] then .ok (.vbool false)
      else .error "Expected t or f for bool type" := rfl

theorem pyDecodeF_succ_datetime (f : Nat) (data : List Char) :
    pyDecodeF (f+1) data .datetime =
      match parseInt data with
      | some i => .ok (.vdatetime (i * 1000000))
      | none => .error "invalid literal for int" := rfl

theorem pyDecodeF_succ_list (f : Nat) (data : List Char) (te : Ty) :
    pyDecodeF (f+1) data (.list te) =
      match matchDelim '[' ']' data with
      | none => .error "Expected an encoded list"
      | some mid =>
        ((if mid.isEmpty then [] else splitWithNested mid NAK).mapM
          (fun it => pyDecodeF f it te)).map Value.vlist := rfl

theorem pyDecodeF_succ_tuple (f : Nat) (data : List Char) (ts : List Ty) :
    pyDecodeF (f+1) data (.tuple ts) =
      match matchDelim '(' ')' data with
      | none => .error "Expected an encoded tuple"
      | some mid =>
        if ts.length = (if mid.isEmpty then [] else splitWithNested mid NAK).length then
          (((if mid.isEmpty then [] else splitWithNested mid NAK).zip ts).mapM
            (fun p => pyDecodeF f p.1 p.2)).map Value.vtuple
        else .error "tuple arity mismatch" := rfl

theorem pyDecodeF_succ_dict (f : Nat) (data : List Char) (tk tv : Ty) :
    pyDecodeF (f+1) data (.dict tk tv) =
      match matchDelim '\x7b' '\x7d' data with
      | none => .error "Expected an encoded dict"
      | some mid =>
        ((if mid.isEmpty then [] else splitWithNested mid NAK).foldlM
          (fun (acc : List (Value × Value)) it =>
            match splitFirst it SYN with
            | none => Except.error "Malformed dict item"
            | some (ks, vs) => do
              let k ← pyDecodeF f ks tk
              let v ← pyDecodeF f vs tv
              pure (dictInsert acc k v)) []).map Value.vdict := rfl

/-! ### Pointwise collection helpers -/

theorem forall₂_mem_right {α β : Type} {R : α → β → Prop} {l1 : List α}
    {l2 : List β} (h : List.Forall₂ R l1 l2) {b : β} (hb : b ∈ l2) :
    ∃ a ∈ l1, R a b := by
  induction h with
  | nil => simp at hb
  | cons hR hrest ih =>
    rcases List.mem_cons.mp hb with rfl | hb2
    · exact ⟨_, by simp, hR⟩
    · obtain ⟨a, ha, hr⟩ := ih hb2
      exact ⟨a, List.mem_cons_of_mem _ ha, hr⟩

theorem forall₂_imp_mem {α β : Type} {R S : α → β → Prop} {l1 : List α}
    {l2 : List β} (h : List.Forall₂ R l1 l2)
    (himp : ∀ a b, a ∈ l1 → b ∈ l2 → R a b → S a b) :
    List.Forall₂ S l1 l2 := by
  induction h with
  | nil => exact List.Forall₂.nil
  | cons hR hrest ih =>
    exact List.Forall₂.cons (himp _ _ (by simp) (by simp) hR)
      (ih (fun a b ha hb hr => himp a b (List.mem_cons_of_mem _ ha)
        (List.mem_cons_of_mem _ hb) hr))

theorem mapM_ok_of_forall₂ {α β : Type} (f : β → Except String α) {l1 : List α}
    {l2 : List β} (h : List.Forall₂ (fun a b => f b = Except.ok a) l1 l2) :
    l2.mapM f = Except.ok l1 := by
  induction h with
  | nil => rfl
  | cons hR hrest ih =>
    rw [List.mapM_cons, hR, ih]
    rfl

theorem zip_mapM_ok (g : List Char → Ty → Except String Value) :
    ∀ (l1 : List Value) (l2 : List Ty) (es : List (List Char)),
    l1.length = l2.length →
    List.Forall₂ (fun (p : Value × Ty) (ei : List Char) => g ei p.2 = .ok p.1)
      (l1.zip l2) es →
    (es.zip l2).mapM (fun p => g p.1 p.2) = .ok l1 := by
  intro l1
  induction l1 with
  | nil =>
    intro l2 es _ h
    rw [show ([] : List Value).zip l2 = [] from rfl] at h
    cases h
    rfl
  | cons a l1 ih =>
    intro l2 es hlen h
    cases l2 with
    | nil => simp at hlen
    | cons b l2 =>
      rw [List.zip_cons_cons] at h
      cases h with
      | cons hR hrest =>
        rw [List.zip_cons_cons, List.mapM_cons, hR,
          ih l2 _ (by simpa using hlen) hrest]
        rfl

theorem anyW_eq_zero {t : Ty} (h : t ≠ .any) : anyW t = 0 := by
  cases t <;> first | rfl | exact absurd rfl h

theorem joinSep_ne_nil {α : Type} {sep p : List α} {parts : List (List α)}
    (hp : p ≠ []) : joinSep sep (p :: parts) ≠ [] := by
  cases parts with
  | nil => exact hp
  | cons q r =>
    rw [joinSep_cons₂, List.append_assoc]
    intro h
    exact hp (List.append_eq_nil.mp h).1

theorem mapM_enc_of_forall₂ {te : Ty} {l : List Value} {es : List (List Char)}
    {fuel : Nat}
    (h : List.Forall₂ (fun it ei => EncDecP true it te ei) l es)
    (hf : ∀ it ∈ l, 2 * vsize it + anyW te < fuel) :
    l.mapM (fun it => pyEncodeF fuel it te) = Except.ok es := by
  induction h with
  | nil => rfl
  | cons hR hrest ih =>
    rw [List.mapM_cons, hR.1 fuel (hf _ (by simp)),
      ih (fun it hi => hf it (by simp [hi]))]
    rfl

theorem mapM_enc_zip_of_forall₂ {l : List (Value × Ty)} {es : List (List Char)}
    {fuel : Nat}
    (h : List.Forall₂ (fun (p : Value × Ty) ei => EncDecP true p.1 p.2 ei) l es)
    (hf : ∀ p ∈ l, 2 * vsize p.1 + anyW p.2 < fuel) :
    l.mapM (fun p => pyEncodeF fuel p.1 p.2) = Except.ok es := by
  induction h with
  | nil => rfl
  | cons hR hrest ih =>
    rw [List.mapM_cons, hR.1 fuel (hf _ (by simp)),
      ih (fun p hp => hf p (by simp [hp]))]
    rfl

theorem mapM_enc_dict_of_forall₂ {tk tv : Ty} {l : List (Value × Value)}
    {es : List (List Char)} {fuel : Nat}
    (h : List.Forall₂ (fun (p : Value × Value) ei => ∃ ke ve,
      ei = ke ++ SYN :: ve ∧ EncDecP true p.1 tk ke ∧ EncDecP true p.2 tv ve) l es)
    (hf : ∀ p ∈ l, 2 * vsize p.1 + anyW tk < fuel ∧ 2 * vsize p.2 + anyW tv < fuel) :
    l.mapM (fun (p : Value × Value) => do
        let ke ← pyEncodeF fuel p.1 tk
        let ve ← pyEncodeF fuel p.2 tv
        pure (ke ++ SYN :: ve)) = Except.ok es := by
  induction h with
  | nil => rfl
  | cons hR hrest ih =>
    obtain ⟨ke, ve, rfl, hk, hv⟩ := hR
    rw [List.mapM_cons]
    have h1 := hk.1 fuel (hf _ (by simp)).1
    have h2 := hv.1 fuel (hf _ (by simp)).2
    rw [h1, h2, ih (fun p hp => hf p (by simp [hp]))]
    rfl

theorem mapM_parseInt_intToChars (l : List Int) :
    (l.map intToChars).mapM parseInt = some l := by
  induction l with
  | nil => rfl
  | cons a l ih =>
    rw [List.map_cons, List.mapM_cons, parseInt_intToChars, ih]
    rfl

theorem dict_foldlM_ok {tk tv : Ty} {df : Nat} {l : List (Value × Value)}
    {es : List (List Char)}
    (h : List.Forall₂ (fun (p : Value × Value) ei => ∃ ke ve, ei = ke ++ SYN :: ve ∧
      SYN ∉ ke ∧ pyDecodeF df ke tk = .ok p.1 ∧ pyDecodeF df ve tv = .ok p.2) l es) :
    ∀ acc : List (Value × Value),
    (∀ p ∈ l, ∀ q ∈ acc, vbeq q.1 p.1 = false) →
    (l.map Prod.fst).Pairwise (fun a b => vbeq a b = false) →
    es.foldlM (fun (acc : List (Value × Value)) it =>
        match splitFirst it SYN with
        | none => Except.error "Malformed dict item"
        | some (ks, vs) => do
          let k ← pyDecodeF df ks tk
          let v ← pyDecodeF df vs tv
          pure (dictInsert acc k v)) acc = Except.ok (acc ++ l) := by
  induction h with
  | nil =>
    intro acc _ _
    rw [List.append_nil]
    rfl
  | @cons p e0 rest esr hR hrest ih =>
    intro acc hacc hpw
    obtain ⟨k0, v0⟩ := p
    obtain ⟨ke, ve, rfl, hkeS, hdk, hdv⟩ := hR
    rw [List.map_cons, List.pairwise_cons] at hpw
    have hins : dictInsert acc k0 v0 = acc ++ [(k0, v0)] :=
      dictInsert_append (fun q hq => hacc (k0, v0) (by simp) q hq) v0
    have hstep : (match splitFirst (ke ++ SYN :: ve) SYN with
        | none => Except.error "Malformed dict item"
        | some (ks, vs) => do
          let k ← pyDecodeF df ks tk
          let v ← pyDecodeF df vs tv
          pure (dictInsert acc k v)) = Except.ok (acc ++ [(k0, v0)]) := by
      rw [splitFirst_append hkeS]
      show (do
        let k ← pyDecodeF df ke tk
        let v ← pyDecodeF df ve tv
        pure (dictInsert acc k v)) = _
      rw [hdk, hdv]
      show Except.ok (dictInsert acc k0 v0) = _
      rw [hins]
    have hrec := ih (acc ++ [(k0, v0)])
      (fun x hx q hq => by
        rcases List.mem_append.mp hq with hq1 | hq1
        · exact hacc x (List.mem_cons_of_mem _ hx) q hq1
        · obtain rfl : q = (k0, v0) := by simpa using hq1
          exact hpw.1 x.1 (List.mem_map.mpr ⟨x, hx, rfl⟩))
      hpw.2
    simp only [List.foldlM_cons]
    rw [hstep]
    show esr.foldlM _ (acc ++ [(k0, v0)]) = _
    rw [hrec, List.append_assoc]
    rfl


/-! ### The encode/decode round trip -/


theorem decode_list_via (f : Nat) (mid : List Char) (te : Ty) (hnl : '\n' ∉ mid) :
    pyDecodeF (f+1) ('[' :: (mid ++ [']'])) (.list te) =
      ((if mid.isEmpty then [] else splitWithNested mid NAK).mapM
        (fun it => pyDecodeF f it te)).map Value.vlist := by
  rw [pyDecodeF_succ_list, matchDelim_eq hnl]

theorem decode_tuple_via (f : Nat) (mid : List Char) (ts : List Ty)
    (hnl : '\n' ∉ mid) :
    pyDecodeF (f+1) ('(' :: (mid ++ [')'])) (.tuple ts) =
      (if ts.length = (if mid.isEmpty then [] else splitWithNested mid NAK).length then
        (((if mid.isEmpty then [] else splitWithNested mid NAK).zip ts).mapM
          (fun p => pyDecodeF f p.1 p.2)).map Value.vtuple
      else .error "tuple arity mismatch") := by
  rw [pyDecodeF_succ_tuple, matchDelim_eq hnl]

theorem decode_dict_via (f : Nat) (mid : List Char) (tk tv : Ty)
    (hnl : '\n' ∉ mid) :
    pyDecodeF (f+1) ('\x7b' :: (mid ++ ['\x7d'])) (.dict tk tv) =
      ((if mid.isEmpty then [] else splitWithNested mid NAK).foldlM
        (fun (acc : List (Value × Value)) it =>
          match splitFirst it SYN with
          | none => Except.error "Malformed dict item"
          | some (ks, vs) => do
            let k ← pyDecodeF f ks tk
            let v ← pyDecodeF f vs tv
            pure (dictInsert acc k v)) []).map Value.vdict := by
  rw [pyDecodeF_succ_dict, matchDelim_eq hnl]

/-- Master round-trip lemma: every value well-formed at a designator
encodes (at any sufficient fuel) to a shape-safe string that the decoder
maps back to the value exactly. -/
theorem encdec : ∀ (n : Nat) (v : Value) (t : Ty) (nested : Bool),
    2 * vsize v + anyW t ≤ n → WfV nested v t → ∃ e, EncDecP nested v t e := by
  intro n
  induction n with
  | zero =>
    intro v t nested hn _
    have := vsize_pos v
    omega
  | succ n ih =>
    intro v t nested hn hwf
    cases hwf with
    | int nst i =>
      obtain ⟨h1, h2, h3⟩ := tame_shape (intToChars_ne_nil i) intToChars_tame
      refine ⟨intToChars i, ?_, ⟨h1, fun _ _ => h2, fun _ => h3⟩, ?_⟩
      · intro fuel hf
        obtain ⟨fz, rfl⟩ : ∃ fz, fuel = fz + 1 := ⟨fuel - 1, by omega⟩
        exact pyEncodeF_succ_int fz i
      · intro df hdf
        obtain ⟨dz, rfl⟩ : ∃ dz, df = dz + 1 := ⟨df - 1, by omega⟩
        rw [pyDecodeF_succ_int, parseInt_intToChars]
    | str nst s hs =>
      obtain ⟨hsafe, hrest⟩ := hs
      refine ⟨s, ?_, ⟨hsafe, ?_, ?_⟩, ?_⟩
      · intro fuel hf
        obtain ⟨fz, rfl⟩ : ∃ fz, fuel = fz + 1 := ⟨fuel - 1, by omega⟩
        exact pyEncodeF_succ_str fz s
      · intro hn2 _ hc
        exact ((hrest hn2).2.1 SYN hc).2.1 rfl
      · intro hn2
        obtain ⟨hne, hchars, hhead, hlast⟩ := hrest hn2
        refine ⟨hne, ?_, ?_, ?_, hhead, hlast⟩
        · exact depthRun_nonbracket
            (fun c hc => ⟨(hchars c hc).2.2.2.1, (hchars c hc).2.2.2.2⟩) 0
        · exact chainOk_nonbracket_notMem
            (fun c hc => ⟨(hchars c hc).2.2.2.1, (hchars c hc).2.2.2.2⟩)
            (fun hc => (hchars NAK hc).1 rfl) (by omega)
        · intro hc
          exact (hchars '\n' hc).2.2.1 rfl
      · intro df hdf
        obtain ⟨dz, rfl⟩ : ∃ dz, df = dz + 1 := ⟨df - 1, by omega⟩
        exact pyDecodeF_succ_str dz s
    | string nst s hs =>
      obtain ⟨hsafe, hrest⟩ := hs
      refine ⟨s, ?_, ⟨hsafe, ?_, ?_⟩, ?_⟩
      · intro fuel hf
        obtain ⟨fz, rfl⟩ : ∃ fz, fuel = fz + 1 := ⟨fuel - 1, by omega⟩
        exact pyEncodeF_succ_string fz s
      · intro hn2 _ hc
        exact ((hrest hn2).2.1 SYN hc).2.1 rfl
      · intro hn2
        obtain ⟨hne, hchars, hhead, hlast⟩ := hrest hn2
        refine ⟨hne, ?_, ?_, ?_, hhead, hlast⟩
        · exact depthRun_nonbracket
            (fun c hc => ⟨(hchars c hc).2.2.2.1, (hchars c hc).2.2.2.2⟩) 0
        · exact chainOk_nonbracket_notMem
            (fun c hc => ⟨(hchars c hc).2.2.2.1, (hchars c hc).2.2.2.2⟩)
            (fun hc => (hchars NAK hc).1 rfl) (by omega)
        · intro hc
          exact (hchars '\n' hc).2.2.1 rfl
      · intro df hdf
        obtain ⟨dz, rfl⟩ : ∃ dz, df = dz + 1 := ⟨df - 1, by omega⟩
        exact pyDecodeF_succ_string dz s
    | bool nst b =>
      cases b with
      | false =>
        obtain ⟨h1, h2, h3⟩ :=
          tame_shape (show (['f'] : List Char) ≠ [] by decide) (by decide)
        refine ⟨['f'], ?_, ⟨h1, fun _ _ => h2, fun _ => h3⟩, ?_⟩
        · intro fuel hf
          obtain ⟨fz, rfl⟩ : ∃ fz, fuel = fz + 1 := ⟨fuel - 1, by omega⟩
          exact pyEncodeF_succ_bool fz false
        · intro df hdf
          obtain ⟨dz, rfl⟩ : ∃ dz, df = dz + 1 := ⟨df - 1, by omega⟩
          rw [pyDecodeF_succ_bool, if_neg (by decide), if_pos rfl]
      | true =>
        obtain ⟨h1, h2, h3⟩ :=
          tame_shape (show (['t'] : List Char) ≠ [] by decide) (by decide)
        refine ⟨['t'], ?_, ⟨h1, fun _ _ => h2, fun _ => h3⟩, ?_⟩
        · intro fuel hf
          obtain ⟨fz, rfl⟩ : ∃ fz, fuel = fz + 1 := ⟨fuel - 1, by omega⟩
          exact pyEncodeF_succ_bool fz true
        · intro df hdf
          obtain ⟨dz, rfl⟩ : ∃ dz, df = dz + 1 := ⟨df - 1, by omega⟩
          rw [pyDecodeF_succ_bool, if_pos rfl]
    | datetime nst us hdvd =>
      obtain ⟨h1, h2, h3⟩ :=
        tame_shape (intToChars_ne_nil (us.tdiv 1000000)) intToChars_tame
      refine ⟨intToChars (us.tdiv 1000000), ?_, ⟨h1, fun _ _ => h2, fun _ => h3⟩, ?_⟩
      · intro fuel hf
        obtain ⟨fz, rfl⟩ : ∃ fz, fuel = fz + 1 := ⟨fuel - 1, by omega⟩
        exact pyEncodeF_succ_datetime fz us
      · intro df hdf
        obtain ⟨dz, rfl⟩ : ∃ dz, df = dz + 1 := ⟨df - 1, by omega⟩
        rw [pyDecodeF_succ_datetime, parseInt_intToChars]
        show Except.ok (Value.vdatetime (us.tdiv 1000000 * 1000000)) = _
        rw [Int.tdiv_mul_cancel hdvd]
    | version nst es hne =>
      have hmapne : es.map intToChars ≠ [] := by
        cases es with
        | nil => exact absurd rfl hne
        | cons a l => simp
      have hmem : ∀ c ∈ joinSep ['.'] (es.map intToChars), tameChar c = true := by
        intro c hc
        rcases mem_joinSep hc with hc1 | ⟨p, hp, hc1⟩
        · obtain rfl : c = '.' := by simpa using hc1
          decide
        · obtain ⟨i0, _, rfl⟩ := List.mem_map.mp hp
          exact intToChars_tame c hc1
      have hjne : joinSep ['.'] (es.map intToChars) ≠ [] := by
        cases es with
        | nil => exact absurd rfl hne
        | cons a l =>
          rw [List.map_cons]
          exact joinSep_ne_nil (intToChars_ne_nil a)
      obtain ⟨h1, h2, h3⟩ := tame_shape hjne hmem
      refine ⟨joinSep ['.'] (es.map intToChars), ?_,
        ⟨h1, fun _ _ => h2, fun _ => h3⟩, ?_⟩
      · intro fuel hf
        obtain ⟨fz, rfl⟩ : ∃ fz, fuel = fz + 1 := ⟨fuel - 1, by omega⟩
        exact pyEncodeF_succ_version fz es
      · intro df hdf
        obtain ⟨dz, rfl⟩ : ∃ dz, df = dz + 1 := ⟨df - 1, by omega⟩
        have hsplit : splitAll (joinSep ['.'] (es.map intToChars)) '.' =
            es.map intToChars :=
          splitAll_joinSep hmapne (fun p hp hdot => by
            obtain ⟨i0, _, rfl⟩ := List.mem_map.mp hp
            exact intToChars_ne_dot '.' hdot rfl)
        rw [pyDecodeF_succ_version, hsplit, mapM_parseInt_intToChars]
    | list nst items te hitems =>
      have hanyle := anyW_le_one te
      rw [vsize_list_eq, show anyW (Ty.list te) = 0 from rfl] at hn
      have hsub : ∀ l : List Value, (∀ x ∈ l, WfV true x te) →
          vsizeList l ≤ vsizeList items →
          ∃ esl, List.Forall₂ (fun it ei => EncDecP true it te ei) l esl := by
        intro l
        induction l with
        | nil => exact fun _ _ => ⟨[], List.Forall₂.nil⟩
        | cons x xs ihl =>
          intro hwfl hszl
          rw [vsizeList_cons] at hszl
          have hx := vsize_pos x
          obtain ⟨ex, hex⟩ := ih x te true (by omega) (hwfl x (by simp))
          obtain ⟨esr, hesr⟩ := ihl (fun y hy => hwfl y (by simp [hy])) (by omega)
          exact ⟨ex :: esr, List.Forall₂.cons hex hesr⟩
      obtain ⟨es, hF⟩ := hsub items hitems (le_refl _)
      have hesShape : ∀ p ∈ es, itemShape p := by
        intro p hp
        obtain ⟨it, _, hE⟩ := forall₂_mem_right hF hp
        exact hE.2.1.2.2 rfl
      have hesSafe : ∀ p ∈ es, frameSafe p := by
        intro p hp
        obtain ⟨it, _, hE⟩ := forall₂_mem_right hF hp
        exact hE.2.1.1
      have hmemE : ∀ c ∈ ('[' :: joinSep [NAK] es) ++ [']'],
          c = '[' ∨ c = ']' ∨ c = NAK ∨ ∃ p ∈ es, c ∈ p := by
        intro c hc
        rcases List.mem_append.mp hc with hc1 | hc1
        · rcases List.mem_cons.mp hc1 with rfl | hc2
          · exact Or.inl rfl
          · rcases mem_joinSep hc2 with hc3 | ⟨p, hp, hc3⟩
            · exact Or.inr (Or.inr (Or.inl (by simpa using hc3)))
            · exact Or.inr (Or.inr (Or.inr ⟨p, hp, hc3⟩))
        · exact Or.inr (Or.inl (by simpa using hc1))
      have hdJ := joinSep_chain chainOk_nak_sep (by decide)
        (fun p hp => ⟨(hesShape p hp).2.1, (hesShape p hp).2.2.1⟩)
      refine ⟨('[' :: joinSep [NAK] es) ++ [']'], ?_, ⟨?_, ?_, ?_⟩, ?_⟩
      · intro fuel hf
        obtain ⟨fz, rfl⟩ : ∃ fz, fuel = fz + 1 := ⟨fuel - 1, by omega⟩
        have hencM : items.mapM (fun it => pyEncodeF fz it te) = Except.ok es :=
          mapM_enc_of_forall₂ hF (fun it hit => by
            have := vsize_le_of_mem hit
            have hv2 := vsize_list_eq items
            have ha0 : anyW (Ty.list te) = 0 := rfl
            omega)
        rw [pyEncodeF_succ_list, hencM]
        rfl
      · intro c hc
        rcases hmemE c hc with rfl | rfl | rfl | ⟨p, hp, hcp⟩
        · decide
        · decide
        · decide
        · exact hesSafe p hp c hcp
      · intro _ hdf hcS
        cases hdf with
        | vlist _ hdfs =>
          rcases hmemE SYN hcS with h | h | h | ⟨p, hp, hcp⟩
          · exact absurd h (by decide)
          · exact absurd h (by decide)
          · exact absurd h (by decide)
          · obtain ⟨it, hit, hE⟩ := forall₂_mem_right hF hp
            exact hE.2.1.2.1 rfl (hdfs it hit) hcp
      · intro _
        refine ⟨by simp, ?_, ?_, ?_, ?_, ?_⟩
        · rw [List.cons_append, depthRun_cons,
            show bstep 0 '[' = 1 from by decide, depthRun_append, hdJ.1]
          decide
        · rw [List.cons_append, chainOk_cons_iff]
          refine ⟨by decide, fun h => absurd h (by decide), ?_⟩
          rw [show bstep 0 '[' = 1 from by decide]
          exact chainOk_append hdJ.2 (by rw [hdJ.1]; decide)
        · intro hc
          rcases hmemE '\n' hc with h | h | h | ⟨p, hp, hcp⟩
          · exact absurd h (by decide)
          · exact absurd h (by decide)
          · exact absurd h (by decide)
          · exact (hesShape p hp).2.2.2.1 hcp
        · intro c hc
          rw [List.cons_append] at hc
          simp only [List.head?_cons, Option.some_inj] at hc
          subst hc
          decide
        · intro c hc
          rw [List.getLast?_concat] at hc
          simp only [Option.some_inj] at hc
          subst hc
          decide
      · intro df hdf
        obtain ⟨dz, rfl⟩ : ∃ dz, df = dz + 1 := ⟨df - 1, by omega⟩
        cases es with
        | nil =>
          cases hF
          rfl
        | cons e0 esr =>
          have hnlJ : '\n' ∉ joinSep [NAK] (e0 :: esr) := by
            intro hc
            rcases mem_joinSep hc with h | ⟨p, hp, hcp⟩
            · exact absurd (by simpa using h : '\n' = NAK) (by decide)
            · exact (hesShape p hp).2.2.2.1 hcp
          have he0 : itemShape e0 := hesShape e0 (by simp)
          have hmidne : joinSep [NAK] (e0 :: esr) ≠ [] := joinSep_ne_nil he0.1
          have hmidfalse : (joinSep [NAK] (e0 :: esr)).isEmpty = false := by
            cases hE : joinSep [NAK] (e0 :: esr) with
            | nil => exact absurd hE hmidne
            | cons a l => rfl
          have hswn : splitWithNested (joinSep [NAK] (e0 :: esr)) NAK = e0 :: esr :=
            swn_joinSep (by decide) (by simp) (fun p hp =>
              ⟨(hesShape p hp).1,
               pyStrip_eq_self (hesShape p hp).2.2.2.2.1 (hesShape p hp).2.2.2.2.2,
               (hesShape p hp).2.1, (hesShape p hp).2.2.1⟩)
          have hplen : ∀ p ∈ e0 :: esr, p.length < dz := by
            intro p hp
            have h1 : p.length ≤ (joinSep [NAK] (e0 :: esr)).length :=
              length_le_joinSep hp
            have h2 : (('[' :: joinSep [NAK] (e0 :: esr)) ++ [']']).length =
                (joinSep [NAK] (e0 :: esr)).length + 2 := by
              simp [List.length_append]
            omega
          have hFdec : List.Forall₂ (fun it ei => pyDecodeF dz ei te = Except.ok it)
              items (e0 :: esr) :=
            forall₂_imp_mem hF (fun a b _ hb hE => hE.2.2 dz (hplen b hb))
          have hifs : (if (joinSep [NAK] (e0 :: esr)).isEmpty then []
              else splitWithNested (joinSep [NAK] (e0 :: esr)) NAK) = e0 :: esr := by
            rw [if_neg (by rw [hmidfalse]; decide), hswn]
          rw [List.cons_append,
            decode_list_via dz (joinSep [NAK] (e0 :: esr)) te hnlJ, hifs,
            mapM_ok_of_forall₂ (fun ei => pyDecodeF dz ei te) hFdec]
          rfl
    | tuple nst items ts hlen hitems =>
      have hvt := vsize_tuple_eq items
      rw [vsize_tuple_eq, show anyW (Ty.tuple ts) = 0 from rfl] at hn
      have hsub : ∀ l : List (Value × Ty), (∀ p ∈ l, p ∈ items.zip ts) →
          ∃ esl, List.Forall₂
            (fun (p : Value × Ty) ei => EncDecP true p.1 p.2 ei) l esl := by
        intro l
        induction l with
        | nil => exact fun _ => ⟨[], List.Forall₂.nil⟩
        | cons x xs ihl =>
          intro hsubm
          have hx_mem := hsubm x (by simp)
          obtain ⟨a, b⟩ := x
          have hab := List.of_mem_zip hx_mem
          have h1 := vsize_le_of_mem hab.1
          have h2 := anyW_le_one b
          obtain ⟨ex, hex⟩ := ih a b true (by omega) (hitems (a, b) hx_mem)
          obtain ⟨esr, hesr⟩ := ihl (fun y hy => hsubm y (by simp [hy]))
          exact ⟨ex :: esr, List.Forall₂.cons hex hesr⟩
      obtain ⟨es, hF⟩ := hsub (items.zip ts) (fun p hp => hp)
      have hlenF := List.Forall₂.length_eq hF
      have hlz : (items.zip ts).length = items.length := by
        rw [List.length_zip, hlen]
        exact Nat.min_self _
      have hesShape : ∀ p ∈ es, itemShape p := by
        intro p hp
        obtain ⟨it, _, hE⟩ := forall₂_mem_right hF hp
        exact hE.2.1.2.2 rfl
      have hesSafe : ∀ p ∈ es, frameSafe p := by
        intro p hp
        obtain ⟨it, _, hE⟩ := forall₂_mem_right hF hp
        exact hE.2.1.1
      have hmemE : ∀ c ∈ ('(' :: joinSep [NAK] es) ++ [')'],
          c = '(' ∨ c = ')' ∨ c = NAK ∨ ∃ p ∈ es, c ∈ p := by
        intro c hc
        rcases List.mem_append.mp hc with hc1 | hc1
        · rcases List.mem_cons.mp hc1 with rfl | hc2
          · exact Or.inl rfl
          · rcases mem_joinSep hc2 with hc3 | ⟨p, hp, hc3⟩
            · exact Or.inr (Or.inr (Or.inl (by simpa using hc3)))
            · exact Or.inr (Or.inr (Or.inr ⟨p, hp, hc3⟩))
        · exact Or.inr (Or.inl (by simpa using hc1))
      have hdJ := joinSep_chain chainOk_nak_sep (by decide)
        (fun p hp => ⟨(hesShape p hp).2.1, (hesShape p hp).2.2.1⟩)
      refine ⟨('(' :: joinSep [NAK] es) ++ [')'], ?_, ⟨?_, ?_, ?_⟩, ?_⟩
      · intro fuel hf
        obtain ⟨fz, rfl⟩ : ∃ fz, fuel = fz + 1 := ⟨fuel - 1, by omega⟩
        have hencM : (items.zip ts).mapM (fun p => pyEncodeF fz p.1 p.2) =
            Except.ok es :=
          mapM_enc_zip_of_forall₂ hF (fun p hp => by
            obtain ⟨a, b⟩ := p
            have hab := List.of_mem_zip hp
            have h1 := vsize_le_of_mem hab.1
            have h2 := anyW_le_one b
            have hv2 := vsize_tuple_eq items
            have ha0 : anyW (Ty.tuple ts) = 0 := rfl
            dsimp only
            omega)
        rw [pyEncodeF_succ_tuple, if_pos hlen, hencM]
        rfl
      · intro c hc
        rcases hmemE c hc with rfl | rfl | rfl | ⟨p, hp, hcp⟩
        · decide
        · decide
        · decide
        · exact hesSafe p hp c hcp
      · intro _ hdf hcS
        cases hdf with
        | vtuple _ hdfs =>
          rcases hmemE SYN hcS with h | h | h | ⟨p, hp, hcp⟩
          · exact absurd h (by decide)
          · exact absurd h (by decide)
          · exact absurd h (by decide)
          · obtain ⟨q, hq, hE⟩ := forall₂_mem_right hF hp
            obtain ⟨a, b⟩ := q
            exact hE.2.1.2.1 rfl (hdfs a (List.of_mem_zip hq).1) hcp
      · intro _
        refine ⟨by simp, ?_, ?_, ?_, ?_, ?_⟩
        · rw [List.cons_append, depthRun_cons,
            show bstep 0 '(' = 1 from by decide, depthRun_append, hdJ.1]
          decide
        · rw [List.cons_append, chainOk_cons_iff]
          refine ⟨by decide, fun h => absurd h (by decide), ?_⟩
          rw [show bstep 0 '(' = 1 from by decide]
          exact chainOk_append hdJ.2 (by rw [hdJ.1]; decide)
        · intro hc
          rcases hmemE '\n' hc with h | h | h | ⟨p, hp, hcp⟩
          · exact absurd h (by decide)
          · exact absurd h (by decide)
          · exact absurd h (by decide)
          · exact (hesShape p hp).2.2.2.1 hcp
        · intro c hc
          rw [List.cons_append] at hc
          simp only [List.head?_cons, Option.some_inj] at hc
          subst hc
          decide
        · intro c hc
          rw [List.getLast?_concat] at hc
          simp only [Option.some_inj] at hc
          subst hc
          decide
      · intro df hdf
        obtain ⟨dz, rfl⟩ : ∃ dz, df = dz + 1 := ⟨df - 1, by omega⟩
        cases es with
        | nil =>
          have h0 : (items.zip ts).length = 0 := by rw [hlenF]; rfl
          obtain rfl : items = [] := by
            have : items.length = 0 := by rw [← hlz]; exact h0
            exact List.length_eq_zero.mp this
          obtain rfl : ts = [] := by
            have : ts.length = 0 := by rw [← hlen]; rfl
            exact List.length_eq_zero.mp this
          rfl
        | cons e0 esr =>
          have hnlJ : '\n' ∉ joinSep [NAK] (e0 :: esr) := by
            intro hc
            rcases mem_joinSep hc with h | ⟨p, hp, hcp⟩
            · exact absurd (by simpa using h : '\n' = NAK) (by decide)
            · exact (hesShape p hp).2.2.2.1 hcp
          have he0 : itemShape e0 := hesShape e0 (by simp)
          have hmidne : joinSep [NAK] (e0 :: esr) ≠ [] := joinSep_ne_nil he0.1
          have hmidfalse : (joinSep [NAK] (e0 :: esr)).isEmpty = false := by
            cases hE : joinSep [NAK] (e0 :: esr) with
            | nil => exact absurd hE hmidne
            | cons a l => rfl
          have hswn : splitWithNested (joinSep [NAK] (e0 :: esr)) NAK = e0 :: esr :=
            swn_joinSep (by decide) (by simp) (fun p hp =>
              ⟨(hesShape p hp).1,
               pyStrip_eq_self (hesShape p hp).2.2.2.2.1 (hesShape p hp).2.2.2.2.2,
               (hesShape p hp).2.1, (hesShape p hp).2.2.1⟩)
          have hplen : ∀ p ∈ e0 :: esr, p.length < dz := by
            intro p hp
            have h1 : p.length ≤ (joinSep [NAK] (e0 :: esr)).length :=
              length_le_joinSep hp
            have h2 : (('(' :: joinSep [NAK] (e0 :: esr)) ++ [')']).length =
                (joinSep [NAK] (e0 :: esr)).length + 2 := by
              simp [List.length_append]
            omega
          have hFdec : List.Forall₂
              (fun (p : Value × Ty) ei => pyDecodeF dz ei p.2 = Except.ok p.1)
              (items.zip ts) (e0 :: esr) :=
            forall₂_imp_mem hF (fun a b _ hb hE => hE.2.2 dz (hplen b hb))
          have hlents : ts.length = (e0 :: esr).length := by
            rw [← hlenF, hlz, hlen]
          have hifs : (if (joinSep [NAK] (e0 :: esr)).isEmpty then []
              else splitWithNested (joinSep [NAK] (e0 :: esr)) NAK) = e0 :: esr := by
            rw [if_neg (by rw [hmidfalse]; decide), hswn]
          rw [List.cons_append,
            decode_tuple_via dz (joinSep [NAK] (e0 :: esr)) ts hnlJ, hifs,
            if_pos hlents, zip_mapM_ok (pyDecodeF dz) items ts (e0 :: esr) hlen hFdec]
          rfl
    | dict nst entries tk tv hks hvs hdfks hpw =>
      have hak := anyW_le_one tk
      have hav := anyW_le_one tv
      rw [vsize_dict_eq, show anyW (Ty.dict tk tv) = 0 from rfl] at hn
      have hsub : ∀ l : List (Value × Value), (∀ p ∈ l, p ∈ entries) →
          ∃ esl, List.Forall₂ (fun (p : Value × Value) ei => ∃ ke ve,
            ei = ke ++ SYN :: ve ∧ EncDecP true p.1 tk ke ∧
            EncDecP true p.2 tv ve) l esl := by
        intro l
        induction l with
        | nil => exact fun _ => ⟨[], List.Forall₂.nil⟩
        | cons x xs ihl =>
          intro hsubm
          have hx_mem := hsubm x (by simp)
          have hszx := vsizePairs_le_of_mem hx_mem
          obtain ⟨ke, hke⟩ := ih x.1 tk true (by omega) (hks x hx_mem)
          obtain ⟨ve, hve⟩ := ih x.2 tv true (by omega) (hvs x hx_mem)
          obtain ⟨esr, hesr⟩ := ihl (fun y hy => hsubm y (by simp [hy]))
          exact ⟨(ke ++ SYN :: ve) :: esr,
            List.Forall₂.cons ⟨ke, ve, rfl, hke, hve⟩ hesr⟩
      obtain ⟨es, hF⟩ := hsub entries (fun p hp => hp)
      have hesShape : ∀ p ∈ es, itemShape p := by
        intro p hp
        obtain ⟨q, hq, ke, ve, rfl, hke, hve⟩ := forall₂_mem_right hF hp
        have hks1 := hke.2.1.2.2 rfl
        have hvs1 := hve.2.1.2.2 rfl
        refine ⟨by simp, ?_, ?_, ?_, ?_, ?_⟩
        · rw [depthRun_append, hks1.2.1, depthRun_cons,
            show bstep 0 SYN = 0 from by decide, hvs1.2.1]
        · apply chainOk_append hks1.2.2.1
          rw [hks1.2.1, chainOk_cons_iff]
          exact ⟨by decide, fun h => absurd h (by decide),
            by rw [show bstep 0 SYN = 0 from by decide]; exact hvs1.2.2.1⟩
        · intro hc
          rcases List.mem_append.mp hc with h | h
          · exact hks1.2.2.2.1 h
          · rcases List.mem_cons.mp h with h2 | h2
            · exact absurd h2 (by decide)
            · exact hvs1.2.2.2.1 h2
        · intro c hc
          rw [List.head?_append_of_ne_nil _ hks1.1] at hc
          exact hks1.2.2.2.2.1 c hc
        · intro c hc
          rw [List.getLast?_append_of_ne_nil _ (by simp : SYN :: ve ≠ []),
            show SYN :: ve = [SYN] ++ ve from rfl,
            List.getLast?_append_of_ne_nil _ hvs1.1] at hc
          exact hvs1.2.2.2.2.2 c hc
      have hesSafe : ∀ p ∈ es, frameSafe p := by
        intro p hp
        obtain ⟨q, hq, ke, ve, rfl, hke, hve⟩ := forall₂_mem_right hF hp
        intro c hc
        rcases List.mem_append.mp hc with h | h
        · exact hke.2.1.1 c h
        · rcases List.mem_cons.mp h with rfl | h2
          · decide
          · exact hve.2.1.1 c h2
      have hmemE : ∀ c ∈ ('\x7b' :: joinSep [NAK] es) ++ ['\x7d'],
          c = '\x7b' ∨ c = '\x7d' ∨ c = NAK ∨ ∃ p ∈ es, c ∈ p := by
        intro c hc
        rcases List.mem_append.mp hc with hc1 | hc1
        · rcases List.mem_cons.mp hc1 with rfl | hc2
          · exact Or.inl rfl
          · rcases mem_joinSep hc2 with hc3 | ⟨p, hp, hc3⟩
            · exact Or.inr (Or.inr (Or.inl (by simpa using hc3)))
            · exact Or.inr (Or.inr (Or.inr ⟨p, hp, hc3⟩))
        · exact Or.inr (Or.inl (by simpa using hc1))
      have hdJ := joinSep_chain chainOk_nak_sep (by decide)
        (fun p hp => ⟨(hesShape p hp).2.1, (hesShape p hp).2.2.1⟩)
      refine ⟨('\x7b' :: joinSep [NAK] es) ++ ['\x7d'], ?_, ⟨?_, ?_, ?_⟩, ?_⟩
      · intro fuel hf
        obtain ⟨fz, rfl⟩ : ∃ fz, fuel = fz + 1 := ⟨fuel - 1, by omega⟩
        have hencM : entries.mapM (fun (p : Value × Value) => do
            let ke ← pyEncodeF fz p.1 tk
            let ve ← pyEncodeF fz p.2 tv
            pure (ke ++ SYN :: ve)) = Except.ok es :=
          mapM_enc_dict_of_forall₂ hF (fun p hp => by
            have := vsizePairs_le_of_mem hp
            have hv2 := vsize_dict_eq entries
            have ha0 : anyW (Ty.dict tk tv) = 0 := rfl
            constructor <;> omega)
        rw [pyEncodeF_succ_dict, hencM]
        rfl
      · intro c hc
        rcases hmemE c hc with rfl | rfl | rfl | ⟨p, hp, hcp⟩
        · decide
        · decide
        · decide
        · exact hesSafe p hp c hcp
      · intro _ hdf
        cases hdf
      · intro _
        refine ⟨by simp, ?_, ?_, ?_, ?_, ?_⟩
        · rw [List.cons_append, depthRun_cons,
            show bstep 0 '\x7b' = 1 from by decide, depthRun_append, hdJ.1]
          decide
        · rw [List.cons_append, chainOk_cons_iff]
          refine ⟨by decide, fun h => absurd h (by decide), ?_⟩
          rw [show bstep 0 '\x7b' = 1 from by decide]
          exact chainOk_append hdJ.2 (by rw [hdJ.1]; decide)
        · intro hc
          rcases hmemE '\n' hc with h | h | h | ⟨p, hp, hcp⟩
          · exact absurd h (by decide)
          · exact absurd h (by decide)
          · exact absurd h (by decide)
          · exact (hesShape p hp).2.2.2.1 hcp
        · intro c hc
          rw [List.cons_append] at hc
          simp only [List.head?_cons, Option.some_inj] at hc
          subst hc
          decide
        · intro c hc
          rw [List.getLast?_concat] at hc
          simp only [Option.some_inj] at hc
          subst hc
          decide
      · intro df hdf
        obtain ⟨dz, rfl⟩ : ∃ dz, df = dz + 1 := ⟨df - 1, by omega⟩
        cases es with
        | nil =>
          cases hF
          rfl
        | cons e0 esr =>
          have hnlJ : '\n' ∉ joinSep [NAK] (e0 :: esr) := by
            intro hc
            rcases mem_joinSep hc with h | ⟨p, hp, hcp⟩
            · exact absurd (by simpa using h : '\n' = NAK) (by decide)
            · exact (hesShape p hp).2.2.2.1 hcp
          have he0 : itemShape e0 := hesShape e0 (by simp)
          have hmidne : joinSep [NAK] (e0 :: esr) ≠ [] := joinSep_ne_nil he0.1
          have hmidfalse : (joinSep [NAK] (e0 :: esr)).isEmpty = false := by
            cases hE : joinSep [NAK] (e0 :: esr) with
            | nil => exact absurd hE hmidne
            | cons a l => rfl
          have hswn : splitWithNested (joinSep [NAK] (e0 :: esr)) NAK = e0 :: esr :=
            swn_joinSep (by decide) (by simp) (fun p hp =>
              ⟨(hesShape p hp).1,
               pyStrip_eq_self (hesShape p hp).2.2.2.2.1 (hesShape p hp).2.2.2.2.2,
               (hesShape p hp).2.1, (hesShape p hp).2.2.1⟩)
          have hplen : ∀ p ∈ e0 :: esr, p.length < dz := by
            intro p hp
            have h1 : p.length ≤ (joinSep [NAK] (e0 :: esr)).length :=
              length_le_joinSep hp
            have h2 : (('\x7b' :: joinSep [NAK] (e0 :: esr)) ++ ['\x7d']).length =
                (joinSep [NAK] (e0 :: esr)).length + 2 := by
              simp [List.length_append]
            omega
          have hFdec : List.Forall₂ (fun (p : Value × Value) ei => ∃ ke ve,
              ei = ke ++ SYN :: ve ∧ SYN ∉ ke ∧
              pyDecodeF dz ke tk = Except.ok p.1 ∧
              pyDecodeF dz ve tv = Except.ok p.2) entries (e0 :: esr) :=
            forall₂_imp_mem hF (fun a b ha hb hE => by
              obtain ⟨ke, ve, rfl, hke, hve⟩ := hE
              have hl : (ke ++ SYN :: ve).length = ke.length + ve.length + 1 := by
                rw [List.length_append, List.length_cons]
                omega
              refine ⟨ke, ve, rfl, ?_, ?_, ?_⟩
              · exact fun hc => hke.2.1.2.1 rfl (hdfks a ha) hc
              · exact hke.2.2 dz (by have := hplen _ hb; omega)
              · exact hve.2.2 dz (by have := hplen _ hb; omega))
          have hfold := dict_foldlM_ok hFdec []
            (fun p _ q hq => absurd hq (List.not_mem_nil q)) hpw
          have hifs : (if (joinSep [NAK] (e0 :: esr)).isEmpty then []
              else splitWithNested (joinSep [NAK] (e0 :: esr)) NAK) = e0 :: esr := by
            rw [if_neg (by rw [hmidfalse]; decide), hswn]
          rw [List.cons_append,
            decode_dict_via dz (joinSep [NAK] (e0 :: esr)) tk tv hnlJ, hifs, hfold]
          rfl
    | anyv nst v t hg hnea hwf2 =>
      have h0 : anyW t = 0 := anyW_eq_zero hnea
      have ha1 : anyW Ty.any = 1 := rfl
      rw [ha1] at hn
      obtain ⟨e0, he0⟩ := ih v t true (by omega) hwf2
      have hty := tyName_shape (tsize t) t (le_refl _)
      have hEMnot : EM ∉ tyName t := fun hc => (hty.2.1 EM hc).2.2.2.2.2.1 rfl
      have hsh := he0.2.1.2.2 rfl
      refine ⟨tyName t ++ EM :: e0, ?_, ⟨?_, ?_, ?_⟩, ?_⟩
      · intro fuel hf
        obtain ⟨fz, rfl⟩ : ∃ fz, fuel = fz + 1 := ⟨fuel - 1, by omega⟩
        rw [pyEncodeF_succ_any, hg]
        show (pyEncodeF fz v t).map (fun e => tyName t ++ EM :: e) =
          Except.ok (tyName t ++ EM :: e0)
        rw [he0.1 fz (by omega)]
        rfl
      · intro c hc
        rcases List.mem_append.mp hc with hc1 | hc1
        · exact ⟨(hty.2.1 c hc1).1, (hty.2.1 c hc1).2.1, (hty.2.1 c hc1).2.2.1⟩
        · rcases List.mem_cons.mp hc1 with rfl | hc2
          · exact (by decide)
          · exact he0.2.1.1 c hc2
      · intro _ hdf hc
        rcases List.mem_append.mp hc with hc1 | hc1
        · exact (hty.2.1 SYN hc1).2.2.2.2.1 rfl
        · rcases List.mem_cons.mp hc1 with h | hc2
          · exact absurd h (by decide)
          · exact he0.2.1.2.1 rfl hdf hc2
      · intro _
        refine ⟨by simp [hty.1], ?_, ?_, ?_, ?_, ?_⟩
        · rw [depthRun_append, hty.2.2.1, depthRun_cons,
            show bstep 0 EM = 0 from by decide, hsh.2.1]
        · apply chainOk_append hty.2.2.2.1
          rw [hty.2.2.1, chainOk_cons_iff]
          exact ⟨by decide, fun h => absurd h (by decide),
            by rw [show bstep 0 EM = 0 from by decide]; exact hsh.2.2.1⟩
        · intro hc
          rcases List.mem_append.mp hc with hc1 | hc1
          · exact (hty.2.1 '\n' hc1).2.2.2.2.2.2 rfl
          · rcases List.mem_cons.mp hc1 with h | hc2
            · exact absurd h (by decide)
            · exact hsh.2.2.2.1 hc2
        · intro c hc
          rw [List.head?_append_of_ne_nil _ hty.1] at hc
          exact hty.2.2.2.2.2.1 c hc
        · intro c hc
          rw [List.getLast?_append_of_ne_nil _ (by simp : EM :: e0 ≠ []),
            show EM :: e0 = [EM] ++ e0 from rfl,
            List.getLast?_append_of_ne_nil _ hsh.1] at hc
          exact hsh.2.2.2.2.2 c hc
      · intro df hdf
        obtain ⟨dz, rfl⟩ : ∃ dz, df = dz + 1 := ⟨df - 1, by omega⟩
        rw [pyDecodeF_succ_any, splitFirst_append hEMnot]
        show (match parseTy (tyName t) with
          | none => Except.error "Unknown data type"
          | some t2 => pyDecodeF dz e0 t2) = Except.ok v
        rw [parseTy_tyName]
        show pyDecodeF dz e0 t = Except.ok v
        apply he0.2.2
        have : (tyName t ++ EM :: e0).length = (tyName t).length + (e0.length + 1) := by
          simp [List.length_append]
        omega


/-! ### Inversion helpers for `Except` pipelines -/

theorem bind_ok_inv {ε α β : Type} {x : Except ε α} {f : α → Except ε β} {b : β}
    (h : x >>= f = Except.ok b) : ∃ a, x = Except.ok a ∧ f a = Except.ok b := by
  cases x with
  | error e =>
    change Except.error e = Except.ok b at h
    exact Except.noConfusion h
  | ok a =>
    change f a = Except.ok b at h
    exact ⟨a, rfl, h⟩

theorem map_ok_inv {ε α β : Type} {g : α → β} {x : Except ε α} {b : β}
    (h : Except.map g x = Except.ok b) : ∃ a, x = Except.ok a ∧ g a = b := by
  cases x with
  | error e =>
    change Except.error e = Except.ok b at h
    exact Except.noConfusion h
  | ok a =>
    change Except.ok (g a) = Except.ok b at h
    injection h with h2
    exact ⟨a, rfl, h2⟩

theorem mapM_mem_inv {α β : Type} {f : α → Except String β} :
    ∀ {l : List α} {ys : List β}, l.mapM f = Except.ok ys →
    ∀ y ∈ ys, ∃ x ∈ l, f x = Except.ok y := by
  intro l
  induction l with
  | nil =>
    intro ys h y hy
    change Except.ok [] = Except.ok ys at h
    injection h with h2
    subst h2
    exact absurd hy (List.not_mem_nil y)
  | cons x xs ih =>
    intro ys h y hy
    rw [List.mapM_cons] at h
    obtain ⟨b, hb, h2⟩ := bind_ok_inv h
    obtain ⟨bs, hbs, h3⟩ := bind_ok_inv h2
    change Except.ok (b :: bs) = Except.ok ys at h3
    injection h3 with h4
    subst h4
    rcases List.mem_cons.mp hy with rfl | hy2
    · exact ⟨x, by simp, hb⟩
    · obtain ⟨x2, hx2, hfx2⟩ := ih hbs y hy2
      exact ⟨x2, List.mem_cons_of_mem _ hx2, hfx2⟩

theorem mapM_ok_forall {α β : Type} {f : α → Except String β} :
    ∀ {l : List α} {ys : List β}, l.mapM f = Except.ok ys →
    ∀ x ∈ l, ∃ y, f x = Except.ok y := by
  intro l
  induction l with
  | nil =>
    intro ys _ x hx
    exact absurd hx (List.not_mem_nil x)
  | cons x xs ih =>
    intro ys h x2 hx2
    rw [List.mapM_cons] at h
    obtain ⟨b, hb, h2⟩ := bind_ok_inv h
    obtain ⟨bs, hbs, _⟩ := bind_ok_inv h2
    rcases List.mem_cons.mp hx2 with rfl | hx3
    · exact ⟨b, hb⟩
    · exact ih hbs x2 hx3

/-! ### Association-list and catalog helpers -/

theorem ainsert_append {κ β : Type} [DecidableEq κ] {m : List (κ × β)} {k : κ}
    (h : ∀ p ∈ m, p.1 ≠ k) (v : β) : ainsert m k v = m ++ [(k, v)] := by
  induction m with
  | nil => rfl
  | cons x xs ih =>
    obtain ⟨k0, v0⟩ := x
    show (if k0 = k then (k0, v) :: xs else (k0, v0) :: ainsert xs k v) = _
    rw [if_neg (h (k0, v0) (by simp)), ih (fun p hp => h p (List.mem_cons_of_mem _ hp))]
    rfl

theorem alookup_map_args (f : EventArg → Value) :
    ∀ {l : List EventArg}, (l.map EventArg.name).Nodup →
    ∀ {a : EventArg}, a ∈ l →
    alookup (l.map (fun a2 => (a2.name, f a2))) a.name = some (f a) := by
  intro l
  induction l with
  | nil =>
    intro _ a ha
    simp at ha
  | cons x xs ih =>
    intro hnd a ha
    rw [List.map_cons, List.nodup_cons] at hnd
    rw [List.map_cons]
    show (if x.name = a.name then some (f x) else _) = some (f a)
    rcases List.mem_cons.mp ha with rfl | ha2
    · rw [if_pos rfl]
    · rw [if_neg (fun he => hnd.1 (by
        rw [he]
        exact List.mem_map.mpr ⟨a, ha2, rfl⟩))]
      exact ih hnd.2 ha2

theorem find?_id_unique : ∀ {l : List EventArg}, (l.map EventArg.id).Nodup →
    ∀ {a : EventArg}, a ∈ l → l.find? (fun x => x.id == a.id) = some a := by
  intro l
  induction l with
  | nil =>
    intro _ a ha
    simp at ha
  | cons x xs ih =>
    intro hnd a ha
    rw [List.map_cons, List.nodup_cons] at hnd
    rcases List.mem_cons.mp ha with rfl | ha2
    · exact List.find?_cons_of_pos _ (by simp)
    · rw [List.find?_cons_of_neg _ (by
        show ¬((x.id == a.id) = true)
        intro he
        simp only [beq_iff_eq] at he
        exact hnd.1 (by
          rw [he]
          exact List.mem_map.mpr ⟨a, ha2, rfl⟩))]
      exact ih hnd.2 ha2

theorem splitAll_two {a b : List Char} {sep : Char} (ha : sep ∉ a) (hb : sep ∉ b) :
    splitAll (a ++ sep :: b) sep = [a, b] := by
  have h := splitAll_joinSep (show ([a, b] : List (List Char)) ≠ [] by simp)
    (fun p hp => by
      rcases List.mem_cons.mp hp with rfl | hp2
      · exact ha
      · obtain rfl : p = b := by simpa using hp2
        exact hb)
  have he : a ++ sep :: b = joinSep [sep] [a, b] := (List.append_assoc a [sep] b).symm
  rw [he, h]

/-! ### `get_event` unfoldings -/

theorem getEvent_low {cat : List (Nat × Event)} {i : Nat} (hi : i ≤ 65535) :
    getEvent cat i =
      (match lookupEvents cat i with
       | some E => Except.ok E
       | none => Except.error "Event not found") := by
  unfold getEvent
  rw [show i / 65536 + 1 = 1 from by omega]
  show (if 65535 < i then _ else _) = _
  rw [if_neg (by omega)]

theorem getEvent_mid {cat : List (Nat × Event)} {i : Nat} (h1 : 65536 ≤ i)
    (h2 : i ≤ 131071) :
    getEvent cat i = (getEvent cat (i - 65536)).bind returnEvent := by
  unfold getEvent
  rw [show i / 65536 + 1 = 2 from by omega,
    show (i - 65536) / 65536 + 1 = 1 from by omega]
  show (if 65535 < i then (getEventF 1 cat (i - 65536)).bind returnEvent else _) = _
  rw [if_pos (by omega)]

/-! ### Chunking arithmetic -/

theorem ceil_div_step {L n : Nat} (hL : 1 ≤ L) (hn : 1 ≤ n) :
    (L - n + n - 1) / n + 1 = (L + n - 1) / n := by
  rcases le_or_lt L n with h | h
  · have e1 : L - n + n - 1 = n - 1 := by omega
    have e2 : L + n - 1 = (L - 1) + n := by omega
    rw [e1, e2, Nat.add_div_right _ (by omega), Nat.div_eq_of_lt (by omega),
      Nat.div_eq_of_lt (by omega)]
  · have e1 : L - n + n - 1 = L - 1 := by omega
    have e2 : L + n - 1 = (L - 1) + n := by omega
    rw [e1, e2, Nat.add_div_right _ (by omega)]

theorem chunksF_spec : ∀ (f n : Nat) (s : List Char), s.length < f → 0 < n →
    (chunksF f n s).flatten = s ∧ (∀ p ∈ chunksF f n s, p ≠ []) ∧
    (chunksF f n s).length = (s.length + n - 1) / n := by
  intro f
  induction f with
  | zero =>
    intro n s h _
    omega
  | succ f ihf =>
    intro n s hlen hn
    obtain ⟨m, rfl⟩ : ∃ m, n = m + 1 := ⟨n - 1, by omega⟩
    cases s with
    | nil =>
      refine ⟨rfl, ?_, ?_⟩
      · intro p hp
        rw [show chunksF (f+1) (m+1) ([] : List Char) = [] from rfl] at hp
        exact absurd hp (List.not_mem_nil p)
      · rw [List.length_nil]
        exact (Nat.div_eq_of_lt (by omega)).symm
    | cons c cs =>
      have hstep : chunksF (f+1) (m+1) (c :: cs) =
          (c :: cs).take (m+1) :: chunksF f (m+1) ((c :: cs).drop (m+1)) := by
        show (if (c :: cs).isEmpty = true then []
          else (c :: cs).take (m+1) :: chunksF f (m+1) ((c :: cs).drop (m+1))) = _
        rw [if_neg (by simp)]
      have hdlen : ((c :: cs).drop (m+1)).length < f := by
        rw [List.length_drop]
        simp only [List.length_cons] at hlen ⊢
        omega
      obtain ⟨ihj, ihne, ihcount⟩ := ihf (m+1) ((c :: cs).drop (m+1)) hdlen (by omega)
      rw [hstep]
      refine ⟨?_, ?_, ?_⟩
      · rw [List.flatten_cons, ihj, List.take_append_drop]
      · intro p hp
        rcases List.mem_cons.mp hp with rfl | hp2
        · simp
        · exact ihne p hp2
      · rw [List.length_cons, ihcount, List.length_drop]
        exact ceil_div_step (by simp) (by omega)

/-! ### The argument fold of `EncodedEvent.decode` -/

theorem c1_fold (E : Event) (f : EventArg → Value)
    (hids : (E.args.map EventArg.id).Nodup) :
    ∀ (l : List EventArg) (ents : List (List Char)),
    (∀ a ∈ l, a ∈ E.args) →
    List.Forall₂ (fun (a : EventArg) ent => ∃ ea, ent = hexPad 2 a.id ++ RS :: ea ∧
      RS ∉ ea ∧ EventArg.convert a ea = Except.ok (f a)) l ents →
    (l.map EventArg.name).Nodup →
    ∀ acc : List (List Char × Value),
    (∀ a ∈ l, ∀ q ∈ acc, q.1 ≠ a.name) →
    ents.foldlM (fun (acc : List (List Char × Value)) (argStr : List Char) =>
      if argStr.isEmpty then pure acc
      else
        match splitAll argStr RS with
        | [a0, a1] =>
          match parseHex a0 with
          | none => Except.error "invalid literal for int with base 16"
          | some aid =>
            match E.args.find? (fun (a : EventArg) => a.id == aid) with
            | some a =>
              match a.convert a1 with
              | .ok tv => pure (ainsert acc a.name tv)
              | .error e => Except.error e
            | none => Except.error "Argument id not found in event"
        | _ => Except.error "Malformed argument string") acc =
      Except.ok (acc ++ l.map (fun a => (a.name, f a))) := by
  intro l ents hsub hF
  induction hF with
  | nil =>
    intro _ acc _
    rw [List.map_nil, List.append_nil]
    rfl
  | @cons a ent rest ents2 hR hrest ih =>
    intro hnd acc hacc
    obtain ⟨ea, rfl, hRSea, hconv⟩ := hR
    rw [List.map_cons, List.nodup_cons] at hnd
    have hRSpad : RS ∉ hexPad 2 a.id :=
      fun hc => (tame_facts (hexPad_tame RS hc)).2.2.1 rfl
    have hstep : (if (hexPad 2 a.id ++ RS :: ea).isEmpty then
        (pure acc : Except String (List (List Char × Value)))
      else
        match splitAll (hexPad 2 a.id ++ RS :: ea) RS with
        | [a0, a1] =>
          match parseHex a0 with
          | none => Except.error "invalid literal for int with base 16"
          | some aid =>
            match E.args.find? (fun (x : EventArg) => x.id == aid) with
            | some x =>
              match x.convert a1 with
              | .ok tv => pure (ainsert acc x.name tv)
              | .error e => Except.error e
            | none => Except.error "Argument id not found in event"
        | _ => Except.error "Malformed argument string") =
        Except.ok (acc ++ [(a.name, f a)]) := by
      rw [if_neg (by simp [List.isEmpty_iff]), splitAll_two hRSpad hRSea]
      show (match parseHex (hexPad 2 a.id) with
        | none => Except.error "invalid literal for int with base 16"
        | some aid =>
          match E.args.find? (fun (x : EventArg) => x.id == aid) with
          | some x =>
            match x.convert ea with
            | .ok tv => pure (ainsert acc x.name tv)
            | .error e => Except.error e
          | none => Except.error "Argument id not found in event") = _
      rw [parseHex_hexPad]
      show (match E.args.find? (fun (x : EventArg) => x.id == a.id) with
        | some x =>
          match x.convert ea with
          | .ok tv => (pure (ainsert acc x.name tv) :
              Except String (List (List Char × Value)))
          | .error e => Except.error e
        | none => Except.error "Argument id not found in event") = _
      rw [find?_id_unique hids (hsub a (by simp))]
      show (match EventArg.convert a ea with
        | .ok tv => (pure (ainsert acc a.name tv) :
            Except String (List (List Char × Value)))
        | .error e => Except.error e) = _
      rw [hconv]
      show Except.ok (ainsert acc a.name (f a)) = _
      rw [ainsert_append (fun q hq => hacc a (by simp) q hq) (f a)]
    simp only [List.foldlM_cons]
    rw [hstep]
    show ents2.foldlM _ (acc ++ [(a.name, f a)]) = _
    rw [ih (fun x hx => hsub x (List.mem_cons_of_mem _ hx)) hnd.2
      (acc ++ [(a.name, f a)])
      (fun x hx q hq => by
        rcases List.mem_append.mp hq with hq1 | hq1
        · exact hacc x (List.mem_cons_of_mem _ hx) q hq1
        · obtain rfl : q = (a.name, f a) := by simpa using hq1
          exact fun he => hnd.1 (by
            have he2 : a.name = x.name := he
            rw [he2]
            exact List.mem_map.mpr ⟨x, hx, rfl⟩)),
      List.map_cons, List.append_assoc]
    rfl


/-! ### `EncodedEvent.decode` on a well-formed payload -/

theorem decodePayload_via (cat : List (Nat × Event)) (p0 J : List Char)
    (hFS0 : FS ∉ p0) (hFSJ : FS ∉ J) (eid : Nat) (hhex : parseHex p0 = some eid)
    (E : Event) (hget : getEvent cat eid = Except.ok E) :
    decodePayload cat (p0 ++ FS :: J) =
      ((splitAll J GS).foldlM (fun (acc : List (List Char × Value)) (argStr : List Char) =>
        if argStr.isEmpty then pure acc
        else
          match splitAll argStr RS with
          | [a0, a1] =>
            match parseHex a0 with
            | none => Except.error "invalid literal for int with base 16"
            | some aid =>
              match E.args.find? (fun (a : EventArg) => a.id == aid) with
              | some a =>
                match a.convert a1 with
                | .ok tv => pure (ainsert acc a.name tv)
                | .error e => Except.error e
              | none => Except.error "Argument id not found in event"
          | _ => Except.error "Malformed argument string") []).map
        (fun args => (E, args)) := by
  unfold decodePayload
  rw [splitAll_two hFS0 hFSJ]
  show (match parseHex p0 with
    | none => (Except.error "invalid literal for int with base 16" :
        Except String (Event × List (List Char × Value)))
    | some eid2 =>
      match getEvent cat eid2 with
      | .error e => .error e
      | .ok E2 =>
        ((splitAll J GS).foldlM (fun (acc : List (List Char × Value)) (argStr : List Char) =>
          if argStr.isEmpty then pure acc
          else
            match splitAll argStr RS with
            | [a0, a1] =>
              match parseHex a0 with
              | none => Except.error "invalid literal for int with base 16"
              | some aid =>
                match E2.args.find? (fun (a : EventArg) => a.id == aid) with
                | some a =>
                  match a.convert a1 with
                  | .ok tv => pure (ainsert acc a.name tv)
                  | .error e => Except.error e
                | none => Except.error "Argument id not found in event"
            | _ => Except.error "Malformed argument string") []).map
          (fun args => (E2, args))) = _
  rw [hhex]
  show (match getEvent cat eid with
    | .error e => (Except.error e : Except String (Event × List (List Char × Value)))
    | .ok E2 =>
      ((splitAll J GS).foldlM (fun (acc : List (List Char × Value)) (argStr : List Char) =>
        if argStr.isEmpty then pure acc
        else
          match splitAll argStr RS with
          | [a0, a1] =>
            match parseHex a0 with
            | none => Except.error "invalid literal for int with base 16"
            | some aid =>
              match E2.args.find? (fun (a : EventArg) => a.id == aid) with
              | some a =>
                match a.convert a1 with
                | .ok tv => pure (ainsert acc a.name tv)
                | .error e => Except.error e
              | none => Except.error "Argument id not found in event"
          | _ => Except.error "Malformed argument string") []).map
        (fun args => (E2, args))) = _
  rw [hget]

/-- C1 (amended): for every event whose declared arguments have pairwise
distinct ids and names, an id the catalog resolves back to the event, and
argument values well-typed at the declared designators in the `WfV false`
sense (datetimes on whole seconds, versions non-empty, composite items in
the nested well-formed class), encoding the full argument map and decoding
the result yields the same event and the same argument map.  The `WfV`
side conditions delimit the claim: outside them (sub-second datetimes) the
round trip alters the value, see the counterexample. -/
theorem C1_round_trip_amended (cat : List (Nat × Event)) (E : Event)
    (f : EventArg → Value)
    (hid : E.id ≤ 65535)
    (hcat : lookupEvents cat E.id = some E)
    (hids : (E.args.map EventArg.id).Nodup)
    (hnames : (E.args.map EventArg.name).Nodup)
    (hwf : ∀ a ∈ E.args, WfV false (f a) a.type) :
    ∃ enc, createEncoded E (E.args.map (fun a => (a.name, f a))) = .ok enc ∧
      decodePayload cat enc = .ok (E, E.args.map (fun a => (a.name, f a))) := by
  have hsub : ∀ l : List EventArg, (∀ a ∈ l, a ∈ E.args) →
      ∃ ents, l.mapM (fun (a : EventArg) =>
          match alookup (E.args.map (fun a2 => (a2.name, f a2))) a.name with
          | none => Except.error "Missing argument"
          | some v => (a.to_string v).map (fun s => hexPad 2 a.id ++ RS :: s)) =
        Except.ok ents ∧
        List.Forall₂ (fun (a : EventArg) ent => ∃ ea,
          ent = hexPad 2 a.id ++ RS :: ea ∧ frameSafe ea ∧
          EventArg.convert a ea = Except.ok (f a)) l ents := by
    intro l
    induction l with
    | nil => exact fun _ => ⟨[], rfl, List.Forall₂.nil⟩
    | cons x xs ih =>
      intro hmem
      obtain ⟨exv, hx⟩ := encdec (2 * vsize (f x) + anyW x.type) (f x) x.type false
        (le_refl _) (hwf x (hmem x (by simp)))
      have hxe : EventArg.to_string x (f x) = Except.ok exv :=
        hx.1 (2 * vsize (f x) + 2) (by
          have := anyW_le_one x.type
          omega)
      have hxc : EventArg.convert x exv = Except.ok (f x) :=
        hx.2.2 (exv.length + 1) (by omega)
      have hstep : (match alookup (E.args.map (fun a2 => (a2.name, f a2))) x.name with
          | none => Except.error "Missing argument"
          | some v => (x.to_string v).map (fun s => hexPad 2 x.id ++ RS :: s)) =
          Except.ok (hexPad 2 x.id ++ RS :: exv) := by
        rw [alookup_map_args f hnames (hmem x (by simp))]
        show Except.map (fun s => hexPad 2 x.id ++ RS :: s)
          (EventArg.to_string x (f x)) = _
        rw [hxe]
        rfl
      obtain ⟨ents2, hmapM, hF⟩ := ih (fun y hy => hmem y (List.mem_cons_of_mem _ hy))
      refine ⟨(hexPad 2 x.id ++ RS :: exv) :: ents2, ?_,
        List.Forall₂.cons ⟨exv, rfl, hx.2.1.1, hxc⟩ hF⟩
      rw [List.mapM_cons, hstep, hmapM]
      rfl
  obtain ⟨ents, hmapM, hF⟩ := hsub E.args (fun a ha => ha)
  have hcreate : createEncoded E (E.args.map (fun a => (a.name, f a))) =
      Except.ok (hexPad 5 E.id ++ FS :: joinSep [GS] ents) := by
    unfold createEncoded
    rw [hmapM]
    rfl
  have hentChars : ∀ ent ∈ ents, FS ∉ ent ∧ GS ∉ ent := by
    intro ent hent
    obtain ⟨a, ha, ea, rfl, hsafe, _⟩ := forall₂_mem_right hF hent
    constructor
    · intro hc
      rcases List.mem_append.mp hc with h1 | h1
      · exact (tame_facts (hexPad_tame FS h1)).1 rfl
      · rcases List.mem_cons.mp h1 with h2 | h2
        · exact absurd h2 (by decide)
        · exact (hsafe FS h2).1 rfl
    · intro hc
      rcases List.mem_append.mp hc with h1 | h1
      · exact (tame_facts (hexPad_tame GS h1)).2.1 rfl
      · rcases List.mem_cons.mp h1 with h2 | h2
        · exact absurd h2 (by decide)
        · exact (hsafe GS h2).2.1 rfl
  have hp0FS : FS ∉ hexPad 5 E.id := fun hc => (tame_facts (hexPad_tame FS hc)).1 rfl
  have hJFS : FS ∉ joinSep [GS] ents := by
    intro hc
    rcases mem_joinSep hc with h | ⟨p, hp, hcp⟩
    · exact absurd (by simpa using h : FS = GS) (by decide)
    · exact (hentChars p hp).1 hcp
  have hget : getEvent cat E.id = Except.ok E := by
    rw [getEvent_low hid, hcat]
  refine ⟨hexPad 5 E.id ++ FS :: joinSep [GS] ents, hcreate, ?_⟩
  rw [decodePayload_via cat (hexPad 5 E.id) (joinSep [GS] ents) hp0FS hJFS
    E.id (parseHex_hexPad 5 E.id) E hget]
  cases ents with
  | nil =>
    have hEnil : E.args = [] := by
      have hl := List.Forall₂.length_eq hF
      exact List.length_eq_zero.mp (by simpa using hl)
    rw [hEnil]
    rfl
  | cons e0 ents2 =>
    have hF2 : List.Forall₂ (fun (a : EventArg) ent => ∃ ea,
        ent = hexPad 2 a.id ++ RS :: ea ∧ RS ∉ ea ∧
        EventArg.convert a ea = Except.ok (f a)) E.args (e0 :: ents2) :=
      forall₂_imp_mem hF (fun a ent _ _ hR => by
        obtain ⟨ea, rfl, hsafe, hconv⟩ := hR
        exact ⟨ea, rfl, fun hc => (hsafe RS hc).2.2 rfl, hconv⟩)
    rw [show splitAll (joinSep [GS] (e0 :: ents2)) GS = e0 :: ents2 from
      splitAll_joinSep (by simp) (fun p hp => (hentChars p hp).2)]
    rw [c1_fold E f hids E.args (e0 :: ents2) (fun a ha => ha) hF2 hnames []
      (fun a _ q hq => absurd hq (List.not_mem_nil q))]
    rfl

/-- C1 (counterexample): the claimed round trip fails on datetime values
with sub-second precision: the wire format stores whole seconds, so a
timestamp of 1.5 s (1500000 microseconds) decodes to 1.0 s.  The argument
map that comes back differs from the one passed in. -/
theorem C1_counterexample :
    createEncoded ⟨"T".toList, 1, [⟨"ts".toList, Ty.datetime, 1⟩], none⟩
        [("ts".toList, Value.vdatetime 1500000)] = .ok "00001\x1c01\x1e1".toList ∧
    decodePayload [(1, ⟨"T".toList, 1, [⟨"ts".toList, Ty.datetime, 1⟩], none⟩)]
        "00001\x1c01\x1e1".toList =
      .ok (⟨"T".toList, 1, [⟨"ts".toList, Ty.datetime, 1⟩], none⟩,
        [("ts".toList, Value.vdatetime 1000000)]) ∧
    Value.vdatetime 1500000 ≠ Value.vdatetime 1000000 := by
  refine ⟨rfl, rfl, ?_⟩
  intro h
  have h2 : (1500000 : Int) = 1000000 := Value.vdatetime.inj h
  omega

/-- C1 (witness): the amended round trip at a concrete one-argument event. -/
theorem C1_witness :
    createEncoded ⟨"W".toList, 2, [⟨"x".toList, Ty.int, 1⟩], none⟩
      ((⟨"W".toList, 2, [⟨"x".toList, Ty.int, 1⟩], none⟩ : Event).args.map
        (fun a => (a.name, Value.vint 5))) = .ok "00002\x1c01\x1e5".toList ∧
    decodePayload [(2, ⟨"W".toList, 2, [⟨"x".toList, Ty.int, 1⟩], none⟩)]
        "00002\x1c01\x1e5".toList =
      .ok (⟨"W".toList, 2, [⟨"x".toList, Ty.int, 1⟩], none⟩,
        (⟨"W".toList, 2, [⟨"x".toList, Ty.int, 1⟩], none⟩ : Event).args.map
          (fun a => (a.name, Value.vint 5))) := by
  obtain ⟨enc, h1, h2⟩ := C1_round_trip_amended
    [(2, ⟨"W".toList, 2, [⟨"x".toList, Ty.int, 1⟩], none⟩)]
    ⟨"W".toList, 2, [⟨"x".toList, Ty.int, 1⟩], none⟩
    (fun _ => Value.vint 5)
    (by decide) rfl (by simp) (by simp)
    (fun a ha => by
      obtain rfl : a = ⟨"x".toList, Ty.int, 1⟩ := by simpa using ha
      exact WfV.int false 5)
  have hX : createEncoded ⟨"W".toList, 2, [⟨"x".toList, Ty.int, 1⟩], none⟩
      ((⟨"W".toList, 2, [⟨"x".toList, Ty.int, 1⟩], none⟩ : Event).args.map
        (fun a => (a.name, Value.vint 5))) = .ok "00002\x1c01\x1e5".toList := rfl
  rw [hX] at h1
  injection h1 with h3
  subst h3
  exact ⟨hX, h2⟩


/-! ### C2: fragment reassembly -/

/-- C2 (amended): the in-flight buffer is keyed by `message_id` alone, not
by `(source_id, message_id)`.  A frame whose `message_id` is unknown is
rejected as a fragment error exactly when its `fragment_number` is not 0;
once a `message_id` is in flight, every further frame with that id is
appended — its `fragment_number` and `source_id` are never inspected — and
the message completes exactly when the stored remaining-count reaches
zero, i.e. after `fragment_count` fragments in arrival order. -/
theorem C2_reassembly_amended (buf : Buffer) (h : BusHeader) (raw data : List Char)
    (remaining : Nat) :
    (alookup buf h.message_id = none → h.fragment_number ≠ 0 →
      reassembleStep buf h raw = (buf, .fragmentError)) ∧
    (alookup buf h.message_id = none → h.fragment_number = 0 →
      reassembleStep buf h raw =
        (ainsert buf h.message_id (h.fragment_count - 1, raw), .pending)) ∧
    (alookup buf h.message_id = some (remaining, data) →
      reassembleStep buf h raw =
        if remaining - 1 = 0 then (aremove buf h.message_id, .completeMsg (data ++ raw))
        else (ainsert buf h.message_id (remaining - 1, data ++ raw), .pending)) := by
  refine ⟨?_, ?_, ?_⟩
  · intro hl hf
    unfold reassembleStep
    rw [hl]
    show (if h.fragment_number ≠ 0 then (buf, ReasmOut.fragmentError)
      else (ainsert buf h.message_id (h.fragment_count - 1, raw), ReasmOut.pending)) = _
    rw [if_pos hf]
  · intro hl hf
    unfold reassembleStep
    rw [hl]
    show (if h.fragment_number ≠ 0 then (buf, ReasmOut.fragmentError)
      else (ainsert buf h.message_id (h.fragment_count - 1, raw), ReasmOut.pending)) = _
    rw [if_neg (by omega)]
  · intro hl
    unfold reassembleStep
    rw [hl]

/-- C2 (counterexample): an out-of-order duplicate-looking fragment
(`fragment_number = 99` arriving second of three) is appended rather than
dropped, and a fragment from a different `source_id` (2, after the
in-flight entry was opened by source 1) joins the same in-flight message:
reassembly is not keyed by `(source_id, message_id)` and never checks
order. -/
theorem C2_counterexample :
    reassembleStep [(5, (2, "AB".toList))] ⟨1, 0, 99, 3, 5⟩ "CD".toList =
      ([(5, (1, "ABCD".toList))], .pending) ∧
    reassembleStep [(5, (2, "AB".toList))] ⟨2, 0, 1, 3, 5⟩ "CD".toList =
      ([(5, (1, "ABCD".toList))], .pending) := ⟨rfl, rfl⟩

/-- C2 (witness): the amended description at concrete frames — an unknown
id with nonzero fragment number is a fragment error, and a known id with
one fragment remaining after this one stays pending. -/
theorem C2_witness :
    reassembleStep [] ⟨1, 0, 2, 3, 5⟩ "AB".toList = ([], .fragmentError) ∧
    reassembleStep [(5, (2, "AB".toList))] ⟨1, 0, 1, 3, 5⟩ "CD".toList =
      ([(5, (1, "ABCD".toList))], .pending) := by
  constructor
  · exact (C2_reassembly_amended [] ⟨1, 0, 2, 3, 5⟩ "AB".toList [] 0).1 rfl (by decide)
  · have h := (C2_reassembly_amended [(5, (2, "AB".toList))] ⟨1, 0, 1, 3, 5⟩
      "CD".toList "AB".toList 2).2.2 rfl
    rw [if_neg (by decide)] at h
    exact h

/-! ### C3: the listener loop dies on a frame-level receive error -/

/-- C3 (code bug): the claim says no malformed frame terminates the
listener, but two frame-level errors kill the thread.  A slot value with
no `FS` separator makes `encoded.split(FS, 1)` a one-element unpack, a
`ValueError` that the `except TypeError` handler does not catch; and a
malformed payload arriving before any successful decode makes the
`except Exception` handler interpolate the unbound name `event`, a
`NameError` raised inside the handler itself. -/
theorem C3_listener_crash :
    listenerStep [] 1 [] [] true "XX".toList [] =
      .crashed "not enough values to unpack" ∧
    listenerStep [] 1 [] [] false
      (BusHeader.render ⟨1, 0, 0, 1, 5⟩ ++ FS :: "zz".toList) [] =
      .crashed "NameError: name event is not defined" := ⟨rfl, rfl⟩

/-! ### C4: the catalog loader -/

theorem nsSize_pos (ns : NSTree) : 1 ≤ nsSize ns := by
  cases ns with
  | mk n subs events =>
    show 1 ≤ 1 + nsListSize subs
    omega

theorem parseEventsList_ok (nsName : List Char) :
    ∀ (evs : List RawEvent) (acc : List (Nat × LoadedEvent)),
    exceptOk (parseEventsList nsName evs acc) = evs.all (fun e => e.id != 0) := by
  intro evs
  induction evs with
  | nil => intro acc; rfl
  | cons ev rest ih =>
    intro acc
    show exceptOk (if ev.id = 0 then Except.error "Event does not have an ID"
      else parseEventsList nsName rest
        (ainsert acc ev.id ⟨nsName ++ '.' :: ev.name, ev.id, ev.args, ev.return_type⟩)) = _
    rw [List.all_cons]
    by_cases h : ev.id = 0
    · rw [if_pos h, show (ev.id != 0) = false by simp [h], Bool.false_and]
      rfl
    · rw [if_neg h, ih, show (ev.id != 0) = true by simpa using h, Bool.true_and]

theorem parse_ok_aux : ∀ n : Nat,
    (∀ ns, nsSize ns ≤ n → ∀ nsName acc,
      exceptOk (parseNamespace nsName ns acc) = nsNoZero ns) ∧
    (∀ subs, nsListSize subs ≤ n → ∀ nsName acc,
      exceptOk (parseSubsList nsName subs acc) = nsListNoZero subs) := by
  intro n
  induction n with
  | zero =>
    constructor
    · intro ns h
      have := nsSize_pos ns
      omega
    · intro subs h nsName acc
      cases subs with
      | nil => rfl
      | cons t ts =>
        have := nsSize_pos t
        have h2 : nsListSize (t :: ts) = nsSize t + nsListSize ts := rfl
        omega
  | succ n ih =>
    have hA : ∀ ns, nsSize ns ≤ n + 1 → ∀ nsName acc,
        exceptOk (parseNamespace nsName ns acc) = nsNoZero ns := by
      intro ns hsz nsName acc
      cases ns with
      | mk nm subs events =>
        have hsub : nsListSize subs ≤ n := by
          have h2 : nsSize (NSTree.mk nm subs events) = 1 + nsListSize subs := rfl
          omega
        have h1 := ih.2 subs hsub nsName acc
        cases hps : parseSubsList nsName subs acc with
        | error e =>
          rw [hps] at h1
          show exceptOk ((parseSubsList nsName subs acc) >>= fun acc2 =>
            parseEventsList nsName events acc2) = _
          rw [hps]
          have h1f : nsListNoZero subs = false := h1.symm
          change false = (nsListNoZero subs && events.all (fun e => e.id != 0))
          rw [h1f, Bool.false_and]
        | ok acc2 =>
          rw [hps] at h1
          show exceptOk ((parseSubsList nsName subs acc) >>= fun acc3 =>
            parseEventsList nsName events acc3) = _
          rw [hps]
          change exceptOk (parseEventsList nsName events acc2) = _
          rw [parseEventsList_ok]
          have h1t : nsListNoZero subs = true := h1.symm
          change _ = (nsListNoZero subs && events.all (fun e => e.id != 0))
          rw [h1t, Bool.true_and]
    refine ⟨hA, ?_⟩
    intro subs hsz nsName acc
    cases subs with
    | nil => rfl
    | cons t ts =>
      have h2 : nsListSize (t :: ts) = nsSize t + nsListSize ts := rfl
      have ht := nsSize_pos t
      have h1 := hA t (by omega) (nsName ++ '.' :: t.name) acc
      cases hpn : parseNamespace (nsName ++ '.' :: t.name) t acc with
      | error e =>
        rw [hpn] at h1
        show exceptOk ((parseNamespace (nsName ++ '.' :: t.name) t acc) >>= fun acc2 =>
          parseSubsList nsName ts acc2) = _
        rw [hpn]
        have h1f : nsNoZero t = false := h1.symm
        change false = (nsNoZero t && nsListNoZero ts)
        rw [h1f, Bool.false_and]
      | ok acc2 =>
        rw [hpn] at h1
        show exceptOk ((parseNamespace (nsName ++ '.' :: t.name) t acc) >>= fun acc3 =>
          parseSubsList nsName ts acc3) = _
        rw [hpn]
        change exceptOk (parseSubsList nsName ts acc2) = _
        rw [ih.2 ts (by omega) nsName acc2]
        have h1t : nsNoZero t = true := h1.symm
        change _ = (nsNoZero t && nsListNoZero ts)
        rw [h1t, Bool.true_and]

/-- C4 (amended): loading the catalog fails exactly when some event id in
the tree is zero — a zero id is the only fatal condition.  Duplicate ids
do not fail (the later event silently overwrites the earlier, see the
counterexample), and argument type designators are never validated by the
loader. -/
theorem C4_catalog_amended (roots : List NSTree) :
    exceptOk (loadEvents roots) = nsListNoZero roots := by
  have haux : ∀ (rs : List NSTree) (acc : List (Nat × LoadedEvent)),
      exceptOk (rs.foldlM (fun acc ns =>
        parseNamespace (if ns.name.isEmpty then "global".toList else ns.name) ns acc)
        acc) = nsListNoZero rs := by
    intro rs
    induction rs with
    | nil => intro acc; rfl
    | cons t ts ih =>
      intro acc
      have h1 := (parse_ok_aux (nsSize t)).1 t (le_refl _)
        (if t.name.isEmpty then "global".toList else t.name) acc
      simp only [List.foldlM_cons]
      cases hpn : parseNamespace (if t.name.isEmpty then "global".toList else t.name)
          t acc with
      | error e =>
        rw [hpn] at h1
        have h1f : nsNoZero t = false := h1.symm
        change false = (nsNoZero t && nsListNoZero ts)
        rw [h1f, Bool.false_and]
      | ok acc2 =>
        rw [hpn] at h1
        have h1t : nsNoZero t = true := h1.symm
        change exceptOk (ts.foldlM _ acc2) = (nsNoZero t && nsListNoZero ts)
        rw [ih acc2, h1t, Bool.true_and]
  exact haux roots []

/-- C4 (counterexample): a namespace with two events that share id 3
loads without error — the duplicate only overwrites — and the surviving
event carries an argument whose type designator names no supported type,
also without error: neither condition the claim calls fatal is checked. -/
theorem C4_counterexample :
    loadEvents [NSTree.mk "ns".toList []
      [⟨"A".toList, 3, [], "None".toList⟩,
       ⟨"B".toList, 3, [⟨"x".toList, "no-such-type".toList, 1⟩], "None".toList⟩]] =
    .ok [(3, ⟨"ns.B".toList, 3, [⟨"x".toList, "no-such-type".toList, 1⟩],
      "None".toList⟩)] := rfl

/-! ### C5: at most one reply -/

theorem execCallback_none_ok {E : Event} {srcId : Nat} {rest : List (Option Value)}
    {s : List (Event × Nat × Value)} {n : Nat}
    (h : execCallback E srcId rest = .ok (s, n)) :
    execCallback E srcId (none :: rest) = .ok (s, n + 1) := by
  show (execCallback E srcId rest >>= fun x =>
    match x with
    | (s2, n2) => (Except.ok (s2, n2 + 1) :
        Except String (List (Event × Nat × Value) × Nat))) = _
  rw [h]
  rfl

theorem execCallback_some_ret {E : Event} {srcId : Nat} {t : Ty} {R : Event}
    (hrt : E.return_type = some t) (hret : returnEvent E = .ok R)
    (v : Value) (rest : List (Option Value)) :
    execCallback E srcId (some v :: rest) = .ok ([(R, srcId, v)], 1) := by
  show (match E.return_type with
    | some _ => returnEvent E >>= fun R2 =>
        (Except.ok ([(R2, srcId, v)], 1) :
          Except String (List (Event × Nat × Value) × Nat))
    | none => execCallback E srcId rest >>= fun x =>
        match x with
        | (s2, n2) => Except.ok (s2, n2 + 1)) = _
  rw [hrt]
  show (returnEvent E >>= fun R2 =>
    (Except.ok ([(R2, srcId, v)], 1) :
      Except String (List (Event × Nat × Value) × Nat))) = _
  rw [hret]
  rfl

/-- C5: for an event with a non-`None` return type, the callback
dispatcher walks the returns in subscription order; the first non-`None`
result produces exactly the one response send `(return event, source id,
result)` and stops — later callbacks are never invoked — while an
all-`None` run invokes every callback and emits no response send. -/
theorem C5_at_most_one_reply (E : Event) (srcId : Nat) (t : Ty) (R : Event)
    (hrt : E.return_type = some t) (hret : returnEvent E = .ok R) :
    (∀ pre v post, (∀ r ∈ pre, r = none) →
      execCallback E srcId (pre ++ some v :: post) =
        .ok ([(R, srcId, v)], pre.length + 1)) ∧
    (∀ rets, (∀ r ∈ rets, r = none) →
      execCallback E srcId rets = .ok ([], rets.length)) := by
  constructor
  · intro pre
    induction pre with
    | nil =>
      intro v post _
      exact execCallback_some_ret hrt hret v post
    | cons p pre ih =>
      intro v post hpre
      obtain rfl : p = none := hpre p (by simp)
      rw [List.cons_append]
      exact execCallback_none_ok (ih v post (fun r hr => hpre r (by simp [hr])))
  · intro rets
    induction rets with
    | nil => intro _; rfl
    | cons r rest ih =>
      intro hall
      obtain rfl : r = none := hall r (by simp)
      exact execCallback_none_ok (ih (fun x hx => hall x (by simp [hx])))

/-- C5 (witness): with subscribers returning `[None, 7, 9]` exactly one
response send carrying 7 is emitted after two callback invocations; with
`[None, None]` both run and nothing is sent. -/
theorem C5_witness :
    execCallback ⟨"Q".toList, 7, [], some Ty.int⟩ 3
      [none, some (Value.vint 7), some (Value.vint 9)] =
      .ok ([(⟨"Q".toList ++ ".RETURN".toList, 7 + 65536,
        [⟨"result".toList, Ty.int, 1⟩], none⟩, 3, Value.vint 7)], 2) ∧
    execCallback ⟨"Q".toList, 7, [], some Ty.int⟩ 3 [none, none] = .ok ([], 2) := by
  have h := C5_at_most_one_reply ⟨"Q".toList, 7, [], some Ty.int⟩ 3 Ty.int
    ⟨"Q".toList ++ ".RETURN".toList, 7 + 65536, [⟨"result".toList, Ty.int, 1⟩], none⟩
    rfl rfl
  constructor
  · exact h.1 [none] (Value.vint 7) [some (Value.vint 9)]
      (fun r hr => by simpa using hr)
  · exact h.2 [none, none] (fun r hr => by
      rcases List.mem_cons.mp hr with rfl | hr2
      · rfl
      · simpa using hr2)


/-! ### C6: fragmentation arithmetic -/

/-- C6: writing the encoded payload's length as `N × max_inner_len + k`
with `max_inner_len = max_frame_length − prefix_length` (prefix length
15) and `k < max_inner_len`, the sender produces exactly
`N + (1 if k > 0 else 0)` fragments, none of them empty, and their
concatenation in order is exactly the original payload. -/
theorem C6_fragment_count (enc : List Char) (maxLen N k : Nat)
    (h1 : headerLength < maxLen) (h2 : enc ≠ [])
    (hval : enc.length = N * (maxLen - headerLength) + k)
    (hk : k < maxLen - headerLength) :
    (fragments enc maxLen).length = N + (if 0 < k then 1 else 0) ∧
    (∀ p ∈ fragments enc maxLen, p ≠ []) ∧
    (fragments enc maxLen).flatten = enc := by
  have hpos : 0 < enc.length := List.length_pos.mpr h2
  have hinner : 0 < maxLen - headerLength := by omega
  by_cases hfit : enc.length + headerLength ≤ maxLen
  · rw [fragments, if_pos hfit]
    refine ⟨?_, ?_, ?_⟩
    · show 1 = N + (if 0 < k then 1 else 0)
      have hle : enc.length ≤ maxLen - headerLength := by omega
      by_cases hk0 : 0 < k
      · rw [if_pos hk0]
        have hN : N = 0 := by
          by_contra hN0
          have hN1 : 1 ≤ N := by omega
          have hmul : 1 * (maxLen - headerLength) ≤ N * (maxLen - headerLength) :=
            Nat.mul_le_mul_right _ hN1
          rw [Nat.one_mul] at hmul
          omega
        omega
      · rw [if_neg hk0]
        have hk1 : k = 0 := by omega
        have hN1 : 1 ≤ N := by
          by_contra hN0
          have : N = 0 := by omega
          subst this
          omega
        have hNle : N ≤ 1 := by
          by_contra hNgt
          have h2le : 2 ≤ N := by omega
          have hmul : 2 * (maxLen - headerLength) ≤ N * (maxLen - headerLength) :=
            Nat.mul_le_mul_right _ h2le
          omega
        omega
    · intro p hp
      obtain rfl : p = enc := by simpa using hp
      exact h2
    · simp
  · rw [fragments, if_neg hfit]
    obtain ⟨hj, hne, hcount⟩ :=
      chunksF_spec (enc.length + 1) (maxLen - headerLength) enc (by omega) hinner
    refine ⟨?_, hne, hj⟩
    rw [show chunks (maxLen - headerLength) enc =
      chunksF (enc.length + 1) (maxLen - headerLength) enc from rfl, hcount, hval]
    by_cases hk0 : 0 < k
    · rw [if_pos hk0]
      have e1 : N * (maxLen - headerLength) + k + (maxLen - headerLength) - 1 =
          (k - 1) + (maxLen - headerLength) + N * (maxLen - headerLength) := by omega
      rw [e1, Nat.add_mul_div_right _ _ hinner, Nat.add_div_right _ hinner,
        Nat.div_eq_of_lt (by omega)]
      omega
    · rw [if_neg hk0]
      have e1 : N * (maxLen - headerLength) + k + (maxLen - headerLength) - 1 =
          (maxLen - headerLength - 1) + N * (maxLen - headerLength) := by omega
      rw [e1, Nat.add_mul_div_right _ _ hinner, Nat.div_eq_of_lt (by omega)]
      omega

/-- C6 (witness): a 7-character payload with `max_frame_length = 20`
(inner width 5, so 7 = 1·5 + 2) yields exactly two fragments. -/
theorem C6_witness :
    (fragments "ABCDEFG".toList 20).length = 1 + (if 0 < 2 then 1 else 0) :=
  (C6_fragment_count "ABCDEFG".toList 20 1 2 (by decide) (by decide) (by decide)
    (by decide)).1

/-! ### C7: argument checking on trigger -/

/-- C7 (amended): a declared argument missing from the (timestamp-filled)
keyword map makes the encoding fail and makes `__send` fail before any
frame is produced — that half of the claim holds.  Extra undeclared
keywords are not checked anywhere (see the counterexample). -/
theorem C7_argcheck_amended (E : Event) (kwargs : List (List Char × Value))
    (selfId target msgId maxLen : Nat) (now : Value) (a : EventArg)
    (ha : a ∈ E.args)
    (hmiss : alookup (autoTimestamp E kwargs now) a.name = none) :
    exceptOk (createEncoded E (autoTimestamp E kwargs now)) = false ∧
    exceptOk (sendPlan E kwargs selfId target msgId now maxLen) = false := by
  have h1 : ∀ enc, createEncoded E (autoTimestamp E kwargs now) ≠ Except.ok enc := by
    intro enc hok
    unfold createEncoded at hok
    obtain ⟨ents, hmm2, _⟩ := map_ok_inv hok
    obtain ⟨y, hy⟩ := mapM_ok_forall hmm2 a ha
    rw [hmiss] at hy
    exact Except.noConfusion hy
  have hfalse : exceptOk (createEncoded E (autoTimestamp E kwargs now)) = false := by
    cases hc : createEncoded E (autoTimestamp E kwargs now) with
    | error e => rfl
    | ok enc => exact absurd hc (h1 enc)
  refine ⟨hfalse, ?_⟩
  cases hc : createEncoded E (autoTimestamp E kwargs now) with
  | ok enc => exact absurd hc (h1 enc)
  | error e =>
    show exceptOk ((createEncoded E (autoTimestamp E kwargs now)) >>= fun enc =>
      (fragments enc maxLen).enum.mapM (fun p =>
        if maxLen < ((⟨selfId, target, p.1, (fragments enc maxLen).length, msgId⟩ :
            BusHeader).render ++ FS :: p.2).length then
          Except.error "Encoded event data exceeds memory size limit"
        else pure (⟨⟨selfId, target, p.1, (fragments enc maxLen).length, msgId⟩,
          p.2⟩ : WriteOp))) = false
    rw [hc]
    rfl

/-- C7 (counterexample): an undeclared keyword argument (`junk`) does not
make the encoding fail — extras are silently ignored, against the claim
that their presence raises an argument mismatch. -/
theorem C7_counterexample :
    exceptOk (createEncoded ⟨"E".toList, 10, [⟨"x".toList, Ty.int, 1⟩], none⟩
      [("x".toList, Value.vint 1), ("junk".toList, Value.vint 2)]) = true ∧
    (∀ a ∈ (⟨"E".toList, 10, [⟨"x".toList, Ty.int, 1⟩], none⟩ : Event).args,
      a.name ≠ "junk".toList) := by
  exact ⟨rfl, by decide⟩

/-- C7 (witness): the amended failure at a concrete two-argument event
with `y` missing from the call. -/
theorem C7_witness :
    exceptOk (createEncoded
      ⟨"E2".toList, 11, [⟨"x".toList, Ty.int, 1⟩, ⟨"y".toList, Ty.int, 2⟩], none⟩
      (autoTimestamp
        ⟨"E2".toList, 11, [⟨"x".toList, Ty.int, 1⟩, ⟨"y".toList, Ty.int, 2⟩], none⟩
        [("x".toList, Value.vint 1)] (Value.vint 0))) = false ∧
    exceptOk (sendPlan
      ⟨"E2".toList, 11, [⟨"x".toList, Ty.int, 1⟩, ⟨"y".toList, Ty.int, 2⟩], none⟩
      [("x".toList, Value.vint 1)] 3 0 9 (Value.vint 0) 100) = false :=
  C7_argcheck_amended
    ⟨"E2".toList, 11, [⟨"x".toList, Ty.int, 1⟩, ⟨"y".toList, Ty.int, 2⟩], none⟩
    [("x".toList, Value.vint 1)] 3 0 9 100 (Value.vint 0)
    ⟨"y".toList, Ty.int, 2⟩
    (List.mem_cons_of_mem _ (List.mem_cons_self _ _)) rfl

/-! ### C8: the synthesised response event -/

/-- C8 (amended): for an event with a return type, the synthesised
response event has id `E.id + 0x10000`, name `E.name ++ ".RETURN"`,
exactly one argument `result` of the declared return type, and no return
type of its own; catalog lookup synthesises it on the fly for ids in
`[0x10000, 0x1FFFF]` from the event at `id − 0x10000` without storing it.
For ids at or above `0x20000` the lookup recurses again and fails on the
already-synthesised response event, so the claimed low-16-bits rule stops
at `0x1FFFF` (see the counterexample). -/
theorem C8_response_event_amended (cat : List (Nat × Event)) (E : Event) (t : Ty)
    (i : Nat) (h1 : 65536 ≤ i) (h2 : i ≤ 131071)
    (hE : lookupEvents cat (i - 65536) = some E)
    (hid : E.id ≤ 65535) (hret : E.return_type = some t)
    (hnm : ".RETURN".toList.isSuffixOf E.name = false) :
    getEvent cat i = .ok ⟨E.name ++ ".RETURN".toList, E.id + 65536,
      [⟨"result".toList, t, 1⟩], none⟩ := by
  rw [getEvent_mid h1 h2, getEvent_low (by omega), hE]
  show returnEvent E = _
  unfold returnEvent
  rw [if_neg (by
    rintro (hgt | hsuf)
    · omega
    · rw [hnm] at hsuf
      exact absurd hsuf (by decide))]
  rw [hret]

/-- C8 (counterexample): for id `0x20005` (131077), whose low 16 bits name
the existing event 5, the lookup does not synthesise a response event
from that peer: the double recursion applies `return_event` to the
already-synthesised response event and fails. -/
theorem C8_counterexample :
    getEvent [(5, ⟨"PING".toList, 5, [], some Ty.int⟩)] 131077 =
      .error "already a return event or ID exceeds the maximum allowed value" ∧
    131077 % 65536 = 5 ∧
    lookupEvents [(5, ⟨"PING".toList, 5, [], some Ty.int⟩)] (131077 % 65536) =
      some ⟨"PING".toList, 5, [], some Ty.int⟩ := ⟨rfl, rfl, rfl⟩

/-- C8 (witness): the synthesised response of event 5 at lookup id
`0x10005`. -/
theorem C8_witness :
    getEvent [(5, ⟨"PING".toList, 5, [], some Ty.int⟩)] 65541 =
      .ok ⟨"PING".toList ++ ".RETURN".toList, 5 + 65536,
        [⟨"result".toList, Ty.int, 1⟩], none⟩ :=
  C8_response_event_amended [(5, ⟨"PING".toList, 5, [], some Ty.int⟩)]
    ⟨"PING".toList, 5, [], some Ty.int⟩ Ty.int 65541
    (by decide) (by decide) rfl (by decide) rfl (by decide)

/-! ### C9: dispatcher endpoint-id assignment -/

/-- C9 (amended): `get_bus_data` keeps an existing key's endpoint id
unchanged (stability), and hands a new key exactly the drawn random value
with no collision check of any kind — whatever `randint(1, 255)` returns
is stored, even when another key already holds it (see the
counterexample). -/
theorem C9_assignment_amended (ids : List (List Char × Nat)) (key : List Char)
    (rand i : Nat) :
    (alookup ids key = some i → getBusId ids key rand = (ids, i)) ∧
    (alookup ids key = none → getBusId ids key rand = (ids ++ [(key, rand)], rand)) := by
  constructor
  · intro hl
    unfold getBusId
    rw [hl]
  · intro hl
    unfold getBusId
    rw [hl]

/-- C9 (counterexample): two distinct keys whose draws collide on 7 both
keep endpoint id 7 — the dispatcher does not retry, against the claimed
uniqueness invariant. -/
theorem C9_counterexample :
    runAssign [("a".toList, 7), ("b".toList, 7)] [] =
      [("a".toList, 7), ("b".toList, 7)] ∧
    "a".toList ≠ "b".toList := ⟨rfl, by decide⟩

/-- C9 (witness): stability for a known key and verbatim assignment of
the draw for a new key. -/
theorem C9_witness :
    getBusId [("a".toList, 9)] "a".toList 42 = ([("a".toList, 9)], 9) ∧
    getBusId [("a".toList, 9)] "b".toList 7 =
      ([("a".toList, 9), ("b".toList, 7)], 7) := by
  constructor
  · exact (C9_assignment_amended [("a".toList, 9)] "a".toList 42 9).1 rfl
  · exact (C9_assignment_amended [("a".toList, 9)] "b".toList 7 0).2 rfl

/-! ### C10: trigger broadcasts; only replies unicast -/

theorem sendPlan_targets {E : Event} {kwargs : List (List Char × Value)}
    {selfId target msgId maxLen : Nat} {now : Value} {ops : List WriteOp}
    (h : sendPlan E kwargs selfId target msgId now maxLen = Except.ok ops) :
    ∀ op ∈ ops, op.header.target_id = target := by
  unfold sendPlan at h
  obtain ⟨enc, henc, h2⟩ := bind_ok_inv h
  intro op hop
  obtain ⟨p, hp, hfp⟩ := mapM_mem_inv h2 op hop
  dsimp only at hfp
  split at hfp
  · exact Except.noConfusion hfp
  · change Except.ok _ = Except.ok op at hfp
    injection hfp with h3
    subst h3
    rfl

/-- C10: every frame the public `trigger` writes has `target_id = 0`
(broadcast) — `trigger` passes a hard-wired 0 to `__send` — while each
response send the callback dispatcher emits is addressed to the original
frame's `source_id`, the only unicast an endpoint produces. -/
theorem C10_broadcast_vs_reply :
    (∀ (E : Event) (kwargs : List (List Char × Value)) (selfId msgId maxLen : Nat)
      (now : Value) (ops : List WriteOp),
      trigger E kwargs selfId msgId now maxLen = .ok ops →
      ∀ op ∈ ops, op.header.target_id = 0) ∧
    (∀ (E : Event) (srcId : Nat) (rets : List (Option Value))
      (sends : List (Event × Nat × Value)) (n : Nat),
      execCallback E srcId rets = .ok (sends, n) →
      ∀ s ∈ sends, s.2.1 = srcId) := by
  constructor
  · intro E kwargs selfId msgId maxLen now ops h
    unfold trigger at h
    exact sendPlan_targets h
  · intro E srcId rets
    induction rets with
    | nil =>
      intro sends n h s hs
      change Except.ok ([], 0) = Except.ok (sends, n) at h
      injection h with h2
      injection h2 with h3 h4
      subst h3
      exact absurd hs (List.not_mem_nil s)
    | cons r rest ih =>
      intro sends n h s hs
      cases r with
      | none =>
        have h' : (execCallback E srcId rest >>= fun x =>
            match x with
            | (s2, n2) => (Except.ok (s2, n2 + 1) :
                Except String (List (Event × Nat × Value) × Nat))) =
            Except.ok (sends, n) := h
        obtain ⟨⟨s2, n2⟩, ha, hfa⟩ := bind_ok_inv h'
        change Except.ok (s2, n2 + 1) = Except.ok (sends, n) at hfa
        injection hfa with h2
        injection h2 with h3 h4
        subst h3
        exact ih s2 n2 ha s hs
      | some v =>
        have h' : (match E.return_type with
            | some _ => returnEvent E >>= fun R =>
                (Except.ok ([(R, srcId, v)], 1) :
                  Except String (List (Event × Nat × Value) × Nat))
            | none => execCallback E srcId rest >>= fun x =>
                match x with
                | (s2, n2) => Except.ok (s2, n2 + 1)) =
            Except.ok (sends, n) := h
        cases hrt : E.return_type with
        | some t =>
          rw [hrt] at h'
          have h'' : (returnEvent E >>= fun R =>
              (Except.ok ([(R, srcId, v)], 1) :
                Except String (List (Event × Nat × Value) × Nat))) =
              Except.ok (sends, n) := h'
          obtain ⟨R, hR, hfa⟩ := bind_ok_inv h''
          change Except.ok ([(R, srcId, v)], 1) = Except.ok (sends, n) at hfa
          injection hfa with h2
          injection h2 with h3 h4
          subst h3
          obtain rfl : s = (R, srcId, v) := by simpa using hs
          rfl
        | none =>
          rw [hrt] at h'
          have h'' : (execCallback E srcId rest >>= fun x =>
              match x with
              | (s2, n2) => (Except.ok (s2, n2 + 1) :
                  Except String (List (Event × Nat × Value) × Nat))) =
              Except.ok (sends, n) := h'
          obtain ⟨⟨s2, n2⟩, ha, hfa⟩ := bind_ok_inv h''
          change Except.ok (s2, n2 + 1) = Except.ok (sends, n) at hfa
          injection hfa with h2
          injection h2 with h3 h4
          subst h3
          exact ih s2 n2 ha s hs

/-- C10 (witness): the single frame a concrete `trigger` call writes is
addressed to target 0. -/
theorem C10_witness :
    (⟨⟨3, 0, 0, 1, 9⟩, "0000a".toList ++ [FS]⟩ : WriteOp).header.target_id = 0 :=
  C10_broadcast_vs_reply.1 ⟨"E".toList, 10, [], none⟩ [] 3 9 100 (Value.vint 0)
    [⟨⟨3, 0, 0, 1, 9⟩, "0000a".toList ++ [FS]⟩] rfl
    ⟨⟨3, 0, 0, 1, 9⟩, "0000a".toList ++ [FS]⟩ (by simp)

end BusSpec
